import Mathlib

/-!
# Flipnote (PPM) decoder: a shallow embedding of `ppm.go`

The Go package `flipnotetools` decodes a Flipnote container into two-layer
frames, composited indexed images and PCM audio.  This file embeds the
decoder in Lean and proves properties of it.

Conventions of the embedding:

* a Go `byte` is a `Fin 256`; a Go `int` (64 bit) is an `Int`, and
  `rawPredictor_bound` shows that the audio decoder stays far below `2^63`;
  `uint16` / `uint32` arithmetic is reduced `% 2^16` / `% 2^32` explicitly
  where the source computes in that type, and `int16` arithmetic goes
  through `toInt16`;
* a Go run-time panic (index or slice bound out of range, negative length
  for `make`) is `none`;
* a slice is a `List`; the fixed arrays `[2][192][256]bool` are lists of
  lists, read with `getBit`, written with `setBit` where the indices are loop
  counters bounded by the array lengths and with the checked `writeBit`
  where an index is computed;
* a `for` loop over `0 .. n-1` is a fold over `List.range n` (`forRange`, and
  `forRangeM` when the body may panic); the loop of the mixer that is left
  with `break` is a recursion;
* the `float64` arithmetic of the mixer is not embedded: the integers it
  produces enter as the parameter `Timing`;
* an `io.Reader` is the list of the bytes left in its stream.
-/

namespace Flipnotetools

/-! ## Data model -/

/-- A Go `byte`. -/
abbrev Byte := Fin 256

/-- One line of a layer: `[256]bool`. -/
abbrev Line := List Bool

/-- One layer: `[192][256]bool`. -/
abbrev Layer := List Line

/-- The two layers of a frame: `[2][192][256]bool`. -/
abbrev LayerData := List Layer

/-- The Go struct `Frame`. -/
structure Frame where
  data : LayerData
  flags : Byte
  Sound : List Bool
deriving DecidableEq, Repr

/-- The Go struct `Flipnote`.  A name is kept as the code points of the Go
string, a file name as its bytes, and `Date` as the seconds after
2000-01-01T00:00:00Z. -/
structure Flipnote where
  Frames : List Frame
  Sounds : List (List Byte)
  FrameSpeed : Int
  SoundSpeed : Int
  Locked : Bool
  CreatorName : List Nat
  LastEditorName : List Nat
  UserName : List Nat
  Filename : List Byte
  OriginalFilename : List Byte
  CreatorId : Nat
  PreviousEditorId : Nat
  LastEditorId : Nat
  Date : Nat
  PreviewImage : List (List Byte)
deriving DecidableEq, Repr

/-- The zero value `&Flipnote{}`. -/
def Flipnote.zero : Flipnote :=
  { Frames := [], Sounds := List.replicate 4 [], FrameSpeed := 0, SoundSpeed := 0,
    Locked := false, CreatorName := [], LastEditorName := [], UserName := [],
    Filename := [], OriginalFilename := [], CreatorId := 0, PreviousEditorId := 0,
    LastEditorId := 0, Date := 0,
    PreviewImage := List.replicate 64 (List.replicate 48 0) }

/-- A `for x := 0; x < n; x++` loop whose body cannot fail. -/
def forRange {σ : Type} (n : Nat) (body : Nat → σ → σ) (s : σ) : σ :=
  (List.range n).foldl (fun acc x => body x acc) s

/-- A `for x := 0; x < n; x++` loop whose body may panic. -/
def forRangeM {σ : Type} (n : Nat) (body : Nat → σ → Option σ) (s : σ) : Option σ :=
  (List.range n).foldlM (fun acc x => body x acc) s

/-! ## Frame decoder (`readAnimationData`, lines 268-362) -/

/-- Reading `data[layerId][layerLine][layerPos]`. -/
def getBit (d : LayerData) (layerId layerLine layerPos : Nat) : Bool :=
  ((d.getD layerId []).getD layerLine []).getD layerPos false

/-- The assignment `data[layerId][layerLine][layerPos] = v`. -/
def setBit (d : LayerData) (layerId layerLine layerPos : Nat) (v : Bool) : LayerData :=
  d.set layerId
    ((d.getD layerId []).set layerLine
      (((d.getD layerId []).getD layerLine []).set layerPos v))

/-- The assignment `data[layerId][layerLine][layerPos] = v` at computed
indices: Go panics when an index is negative or not below the array length. -/
def writeBit (d : LayerData) (layerId : Nat) (layerLine layerPos : Int) (v : Bool) :
    Option LayerData :=
  if layerId < 2 ∧ 0 ≤ layerLine ∧ layerLine < 192 ∧ 0 ≤ layerPos ∧ layerPos < 256 then
    some (setBit d layerId layerLine.toNat layerPos.toNat v)
  else none

/-- A zero-valued `[256]bool`. -/
def blankLine : Line := List.replicate 256 false

/-- A zero-valued `[192][256]bool`. -/
def blankLayer : Layer := List.replicate 192 blankLine

/-- A zero-valued `[2][192][256]bool`. -/
def blankData : LayerData := List.replicate 2 blankLayer

/-- The zero value of `Frame`, as `make([]Frame, n)` creates it. -/
def Frame.zero : Frame :=
  { data := blankData, flags := 0, Sound := List.replicate 4 false }

/-- `binary.LittleEndian.Uint16(b[off:off+2])`; the slice expression panics
when `off+2` exceeds the length. -/
def leUint16 (b : List Byte) (off : Nat) : Option Nat := do
  let b0 ← b[off]?
  let b1 ← b[off + 1]?
  pure (b0.val + b1.val * 256)

/-- `binary.LittleEndian.Uint32(b[off:off+4])`. -/
def leUint32 (b : List Byte) (off : Nat) : Option Nat := do
  let b0 ← b[off]?
  let b1 ← b[off + 1]?
  let b2 ← b[off + 2]?
  let b3 ← b[off + 3]?
  pure (b0.val + b1.val * 256 + b2.val * 65536 + b3.val * 16777216)

/-- `binary.BigEndian.Uint32(b[off:off+4])`. -/
def beUint32 (b : List Byte) (off : Nat) : Option Nat := do
  let b0 ← b[off]?
  let b1 ← b[off + 1]?
  let b2 ← b[off + 2]?
  let b3 ← b[off + 3]?
  pure (b0.val * 16777216 + b1.val * 65536 + b2.val * 256 + b3.val)

/-- A signed offset byte (lines 286-290 and 292-296): `b` below 128 is taken
as it is; otherwise `(0xFF ^ b) + 1` is subtracted (in Go `^` and `+` have
the same precedence and associate to the left). -/
def signedOffset (b : Byte) : Int :=
  if b.val < 128 then (0 : Int) + (b.val : Int)
  else (0 : Int) - ((((0xFF ^^^ b.val) + 1 : Nat)) : Int)

/-- The innermost statement of the translated copy (lines 303-305). -/
def copyBit (prev : LayerData) (offsetX offsetY : Int) (j k l : Nat) (d : LayerData) :
    Option LayerData :=
  if (k : Int) + offsetY ≥ 0 ∧ (k : Int) + offsetY < 192
      ∧ (l : Int) + offsetX ≥ 0 ∧ (l : Int) + offsetX < 256 then
    writeBit d j ((k : Int) + offsetY) ((l : Int) + offsetX) (getBit prev j k l)
  else some d

/-- The copy of the previous frame's layers, translated by the offsets
(lines 300-308), written into the layers `d` of the current frame. -/
def copyPrev (prev : LayerData) (offsetX offsetY : Int) (d : LayerData) : Option LayerData :=
  forRangeM 2 (fun j d =>
    forRangeM 192 (fun k d =>
      forRangeM 256 (fun l d => copyBit prev offsetX offsetY j k l d) d) d) d

/-- The loop of lines 335-337: the 8 pixels of one group are toggled where
the bit of `layerByte` equals `layerTarget`. -/
def toggleGroup (layerId layerLine ldPos layerByte layerTarget : Nat) (d : LayerData) :
    Option LayerData :=
  forRangeM 8 (fun layerSPos d =>
    writeBit d layerId layerLine ((ldPos + layerSPos : Nat) : Int)
      (getBit d layerId layerLine (ldPos + layerSPos)
        != (((layerByte >>> layerSPos) &&& 1) == layerTarget))) d

/-- The locals of the loop over the 32 groups of a coded line. -/
structure GroupState where
  d : LayerData
  i : Nat
  ldPos : Nat
  layerUsedBytes : Nat

/-- One iteration of the loop over `z` (lines 331-341). -/
def groupStep (frameData : List Byte) (layerId layerLine layerTarget : Nat)
    (s : GroupState) : Option GroupState :=
  if s.layerUsedBytes &&& 0x80000000 ≠ 0 then
    match frameData[s.i]? with
    | none => none
    | some layerByte =>
      match toggleGroup layerId layerLine s.ldPos layerByte.val layerTarget s.d with
      | none => none
      | some d =>
        some { d := d
               i := s.i + 1
               ldPos := s.ldPos + 8
               layerUsedBytes := (s.layerUsedBytes <<< 1) % 4294967296 }
  else
    some { s with ldPos := s.ldPos + 8
                  layerUsedBytes := (s.layerUsedBytes <<< 1) % 4294967296 }

/-- The inversion of a whole line (lines 345-347). -/
def invertLine (layerId layerLine : Nat) (d : LayerData) : LayerData :=
  forRange 256 (fun z d => setBit d layerId layerLine z (!getBit d layerId layerLine z)) d

/-- A line in decode mode 1 or 2 (lines 321-349): returns the layers and the
read position `i` after the line. -/
def codedLine (frameData : List Byte) (layerId layerLine layerDecodeMode : Nat)
    (d : LayerData) (i : Nat) : Option (LayerData × Nat) :=
  match beUint32 frameData i with
  | none => none
  | some layerUsedBytes =>
    let i := i + 4
    let ldPos := 0
    let layerTarget := if layerDecodeMode = 2 then 0 else 1
    match forRangeM 32 (fun _ => groupStep frameData layerId layerLine layerTarget)
        { d := d, i := i, ldPos := ldPos, layerUsedBytes := layerUsedBytes } with
    | none => none
    | some s =>
      if layerDecodeMode = 2 then some (invertLine layerId layerLine s.d, s.i)
      else some (s.d, s.i)

/-- One iteration of the loop over `layerPos` of a raw line (line 352), with
`i` the position of the line's first byte. -/
def rawStep (frameData : List Byte) (layerId layerLine i layerPos : Nat) (d : LayerData) :
    Option LayerData :=
  match frameData[i + (layerPos >>> 3)]? with
  | none => none
  | some b =>
    some (setBit d layerId layerLine layerPos
      (getBit d layerId layerLine layerPos
        != (b.val &&& ((1 <<< (layerPos &&& 7)) % 256) != 0)))

/-- A line in decode mode 3 (lines 351-354). -/
def rawLine (frameData : List Byte) (layerId layerLine : Nat) (d : LayerData) (i : Nat) :
    Option (LayerData × Nat) :=
  match forRangeM 256 (rawStep frameData layerId layerLine i) d with
  | none => none
  | some d => some (d, i + 32)

/-- The 2-bit decode mode of a line (line 315). -/
def lineDecodeMode (frameData : List Byte) (iBase layerId layerLine : Nat) : Option Nat :=
  match frameData[iBase + layerId * 48 + (layerLine >>> 2)]? with
  | none => none
  | some b => some ((b.val >>> ((layerLine &&& 3) * 2)) &&& 3)

/-- The body of the loop over `layerLine` (lines 315-356). -/
def decodeLine (frameData : List Byte) (iBase layerId layerLine : Nat)
    (s : LayerData × Nat) : Option (LayerData × Nat) :=
  match lineDecodeMode frameData iBase layerId layerLine with
  | none => none
  | some layerDecodeMode =>
    if layerDecodeMode = 0 then some s
    else if layerDecodeMode = 1 ∨ layerDecodeMode = 2 then
      codedLine frameData layerId layerLine layerDecodeMode s.1 s.2
    else if layerDecodeMode = 3 then rawLine frameData layerId layerLine s.1 s.2
    else some s

/-- The loop over the 192 lines of one layer (lines 314-357). -/
def decodeLayer (frameData : List Byte) (iBase layerId : Nat) (s : LayerData × Nat) :
    Option (LayerData × Nat) :=
  forRangeM 192 (decodeLine frameData iBase layerId) s

/-- The line edits of one frame (lines 311-358), starting from the layers `d`. -/
def decodeLines (frameData : List Byte) (iBase : Nat) (d : LayerData) :
    Option (LayerData × Nat) :=
  forRangeM 2 (decodeLayer frameData iBase) (d, iBase + 96)

/-- The offsets of a delta frame and the position after them (lines 282-298). -/
def readOffsets (frameData : List Byte) (frameFlags iBase : Nat) : Option (Int × Int × Nat) :=
  if frameFlags &&& 64 ≠ 0 then
    match frameData[iBase]?, frameData[iBase + 1]? with
    | some bx, some by_ => some (signedOffset bx, signedOffset by_, iBase + 2)
    | _, _ => none
  else some (0, 0, iBase)

/-- The layers a frame starts from and the position `iBase` of its line
modes (lines 278-309): `cur` is the frame's own layer data, and `frames` the
slice `flipnote.Frames`, read at `frameId-1` by a delta frame. -/
def startLayers (frameData : List Byte) (frameFlags frameId : Nat) (frames : List Frame)
    (cur : LayerData) : Option (LayerData × Nat) :=
  let iBase := 1
  if frameFlags &&& 128 = 0 ∧ frameId > 0 then
    match readOffsets frameData frameFlags iBase, frames[frameId - 1]? with
    | some (offsetX, offsetY, iBase), some prev =>
      match copyPrev prev.data offsetX offsetY cur with
      | none => none
      | some d => some (d, iBase)
    | _, _ => none
  else some (cur, iBase)

/-- The body of the loop over `frameId` for a located payload `frameData`
(lines 275-358). -/
def decodeFrame (frameData : List Byte) (frameId : Nat) (frames : List Frame) :
    Option (List Frame) :=
  match frameData[0]?, frames[frameId]? with
  | some flagsByte, some cur =>
    match startLayers frameData flagsByte.val frameId frames cur.data with
    | none => none
    | some (d, iBase) =>
      match decodeLines frameData iBase d with
      | none => none
      | some (d, _) => some (frames.set frameId { cur with flags := flagsByte, data := d })
  | _, _ => none

/-- The boundary `oEnd` (line 269): the sum is computed in `uint16`. -/
def animationEnd (animationData : List Byte) : Option Nat :=
  match leUint16 animationData 0 with
  | none => none
  | some v => some ((8 + v) % 65536)

/-- The payload slice `animationData[oEnd+offset:]` of a frame (lines 272-273);
the sum is computed in `uint32`. -/
def framePayload (animationData : List Byte) (oEnd frameId : Nat) : Option (List Byte) :=
  let oPos := 8 + frameId * 4
  match leUint32 animationData oPos with
  | none => none
  | some off =>
    let start := (oEnd + off) % 4294967296
    if start ≤ animationData.length then some (animationData.drop start) else none

/-- One iteration of the loop over `frameId` (lines 272-358). -/
def frameStep (animationData : List Byte) (oEnd frameId : Nat) (frames : List Frame) :
    Option (List Frame) :=
  match framePayload animationData oEnd frameId with
  | none => none
  | some frameData => decodeFrame frameData frameId frames

/-- The function `readAnimationData`, on the slice `flipnote.Frames`. -/
def readAnimationFrames (frames : List Frame) (animationData : List Byte) :
    Option (List Frame) :=
  match animationEnd animationData with
  | none => none
  | some oEnd => forRangeM frames.length (frameStep animationData oEnd) frames

/-- The function `readAnimationData` (lines 268-362): it fills the frames of
the container in place and returns a nil error; `none` is a panic. -/
def readAnimationData (flipnote : Flipnote) (animationData : List Byte) : Option Flipnote :=
  match readAnimationFrames flipnote.Frames animationData with
  | none => none
  | some frames => some { flipnote with Frames := frames }

/-! ## Audio decoder (`SoundAsPCM`, lines 140-189) -/

/-- The table `imaIndexTable`. -/
def imaIndexTable : List Int :=
  [-1, -1, -1, -1, 2, 4, 6, 8,
   -1, -1, -1, -1, 2, 4, 6, 8]

/-- The table `imaStepTable`. -/
def imaStepTable : List Int :=
  [7, 8, 9, 10, 11, 12, 13, 14, 16, 17,
   19, 21, 23, 25, 28, 31, 34, 37, 41, 45,
   50, 55, 60, 66, 73, 80, 88, 97, 107, 118,
   130, 143, 157, 173, 190, 209, 230, 253, 279, 307,
   337, 371, 408, 449, 494, 544, 598, 658, 724, 796,
   876, 963, 1060, 1166, 1282, 1411, 1552, 1707, 1878, 2066,
   2272, 2499, 2749, 3024, 3327, 3660, 4026, 4428, 4871, 5358,
   5894, 6484, 7132, 7845, 8630, 9493, 10442, 11487, 12635, 13899,
   15289, 16818, 18500, 20350, 22385, 24623, 27086, 29794, 32767]

/-- Indexing a Go slice of ints with an `int`: a negative or too large index panics. -/
def tableAt (t : List Int) (i : Int) : Option Int :=
  if i < 0 then none else t[i.toNat]?

/-- The conversion `int16(x)` of a Go `int`: the low 16 bits, read as signed. -/
def toInt16 (x : Int) : Int := (x + 32768) % 65536 - 32768

/-- The running state of the decoder: the locals `predictor`, `stepIndex`, `step`. -/
structure AdpcmState where
  predictor : Int
  stepIndex : Int
  step : Int
deriving DecidableEq, Repr

/-- The state before the first code (lines 144-146); `imaStepTable[0]` is 7. -/
def AdpcmState.fresh : Option AdpcmState := do
  let step ← tableAt imaStepTable 0
  pure { predictor := 0, stepIndex := 0, step := step }

/-- The magnitude `diff` of one 4-bit code `v` at step size `step` (lines 160-169);
`>>` on a Go `int` is the arithmetic shift `Int.shiftRight`. -/
def codeDiff (step : Int) (v : Nat) : Int :=
  let diff := step >>> (3 : Nat)
  let diff := if v &&& 4 ≠ 0 then diff + step else diff
  let diff := if v &&& 2 ≠ 0 then diff + step >>> (1 : Nat) else diff
  let diff := if v &&& 1 ≠ 0 then diff + step >>> (2 : Nat) else diff
  diff

/-- The predictor before the clamp of lines 175-179 (lines 170-174). -/
def rawPredictor (st : AdpcmState) (v : Nat) : Int :=
  if v &&& 8 ≠ 0 then st.predictor - codeDiff st.step v
  else st.predictor + codeDiff st.step v

/-- The body of the inner loop for one 4-bit code `v` (lines 153-181). -/
def decodeCode (st : AdpcmState) (v : Nat) : Option AdpcmState := do
  let inc ← tableAt imaIndexTable v
  let stepIndex := st.stepIndex + inc
  let stepIndex :=
    if stepIndex < 0 then 0
    else if stepIndex ≥ imaStepTable.length then (imaStepTable.length : Int) - 1
    else stepIndex
  let predictor := rawPredictor st v
  let predictor :=
    if predictor < -32768 then -32768
    else if predictor > 32767 then 32767
    else predictor
  let step ← tableAt imaStepTable stepIndex
  pure { predictor := predictor, stepIndex := stepIndex, step := step }

/-- One iteration of the outer loop: the two codes of the byte `val`, low
nibble first; returns the state after each code. -/
def decodeByte (st : AdpcmState) (val : Byte) : Option (AdpcmState × AdpcmState) := do
  let val : Nat := val.val
  let st1 ← decodeCode st (val &&& 0x0F)
  let val := val >>> 4
  let st2 ← decodeCode st1 (val &&& 0x0F)
  pure (st1, st2)

/-- The outer loop over the bytes of a channel: the decoder state after every
4-bit code, in the order of the output slots `out[i*2+j]`. -/
def decodeTrace : AdpcmState → List Byte → Option (List AdpcmState)
  | _, [] => some []
  | st, val :: rest => do
    let (st1, st2) ← decodeByte st val
    let more ← decodeTrace st2 rest
    pure (st1 :: st2 :: more)

/-- The samples of `SoundAsPCM` for one channel: slot `i*2+j` of `out` holds
`int16(predictor)` after code `j` of byte `i` (line 183). -/
def decodeSound (sound : List Byte) : Option (List Int) := do
  let st ← AdpcmState.fresh
  let trace ← decodeTrace st sound
  pure (trace.map (fun s => toInt16 s.predictor))

/-! ## Sound section (`readSoundData`, lines 237-266) -/

/-- One iteration of the loop over the frames (lines 239-242): the four
trigger flags of frame `i`. -/
def soundFlagStep (soundData : List Byte) (i : Nat) (frames : List Frame) :
    Option (List Frame) :=
  match frames[i]?, soundData[i]? with
  | some f, some b =>
    some (frames.set i
      { f with Sound := (((f.Sound.set 0 (i == 0)).set 1 (b.val &&& 0x01 != 0)).set 2
          (b.val &&& 0x02 != 0)).set 3 (b.val &&& 0x04 != 0) })
  | _, _ => none

/-- The offset of the channel-length table (lines 245-246). -/
def soundHeaderOffset (frameCount : Nat) : Nat :=
  let i := frameCount
  i + (4 - (i &&& 3))

/-- The slice expression `b[lo:hi]` of a slice whose capacity is its length. -/
def sliceOf (b : List Byte) (lo hi : Nat) : Option (List Byte) :=
  if lo ≤ hi ∧ hi ≤ b.length then some ((b.drop lo).take (hi - lo)) else none

/-- One iteration of the loop over the channels (lines 261-262); the state is
the channels and the running offset `i`. -/
def soundSliceStep (soundData : List Byte) (sizeSounds : List Nat) (si : Nat)
    (s : List (List Byte) × Nat) : Option (List (List Byte) × Nat) :=
  match sizeSounds[si]? with
  | none => none
  | some size =>
    match sliceOf soundData s.2 (s.2 + size) with
    | none => none
    | some sound => some (s.1.set si sound, s.2 + size)

/-- The function `readSoundData`. -/
def readSoundData (flipnote : Flipnote) (soundData : List Byte) : Option Flipnote :=
  match forRangeM flipnote.Frames.length (soundFlagStep soundData) flipnote.Frames with
  | none => none
  | some frames =>
    let i := soundHeaderOffset flipnote.Frames.length
    match leUint32 soundData (i + 0), leUint32 soundData (i + 4), leUint32 soundData (i + 8),
        leUint32 soundData (i + 12), soundData[i + 16]?, soundData[i + 17]? with
    | some s0, some s1, some s2, some s3, some frameSpeed, some soundSpeed =>
      let sizeSounds := [s0, s1, s2, s3]
      let i := i + 32
      match forRangeM flipnote.Sounds.length (soundSliceStep soundData sizeSounds)
          (flipnote.Sounds, i) with
      | none => none
      | some (sounds, _) =>
        some { flipnote with
          Frames := frames
          FrameSpeed := (frameSpeed.val : Int)
          SoundSpeed := (soundSpeed.val : Int)
          Sounds := sounds }
    | _, _, _, _, _, _ => none

/-! ## Container parser (`ReadFlipnote`, lines 364-402) -/

/-- A call `r.Read(buf)` with `buf` a fresh zeroed buffer of `n` bytes, on a
reader that delivers what is left of its stream `r`: the buffer after the
call and the rest of the stream.  The source ignores the count and the error
that `Read` returns. -/
def readInto (r : List Byte) (n : Nat) : List Byte × List Byte :=
  (r.take n ++ List.replicate (n - r.length) 0, r.drop n)

/-- `binary.LittleEndian.Uint64(b[off:off+8])`. -/
def leUint64 (b : List Byte) (off : Nat) : Option Nat :=
  match leUint32 b off, leUint32 b (off + 4) with
  | some lo, some hi => some (lo + hi * 4294967296)
  | _, _ => none

/-- The function `utf16.Decode` of the Go library: surrogate pairs are
combined, a lone surrogate becomes U+FFFD. -/
def utf16Decode : List Nat → List Nat
  | [] => []
  | [r] => if r < 0xd800 ∨ 0xe000 ≤ r then [r] else [0xFFFD]
  | r :: r2 :: rest =>
    if r < 0xd800 ∨ 0xe000 ≤ r then r :: utf16Decode (r2 :: rest)
    else if 0xd800 ≤ r ∧ r < 0xdc00 ∧ 0xdc00 ≤ r2 ∧ r2 < 0xe000 then
      ((r - 0xd800) * 1024 + (r2 - 0xdc00) + 0x10000) :: utf16Decode rest
    else 0xFFFD :: utf16Decode (r2 :: rest)

/-- The 16-bit units `bu` of `utfSliceToString` (lines 230-233). -/
def utf16Units (b : List Byte) : Option (List Nat) :=
  (List.range (b.length >>> 1)).mapM (fun i => leUint16 b (i * 2))

/-- The function `utfSliceToString` (lines 229-235). -/
def utfSliceToString (b : List Byte) : Option (List Nat) :=
  match utf16Units b with
  | none => none
  | some bu => some (utf16Decode bu)

/-- The bytes of the ASCII string "PARA". -/
def magic : List Byte := [0x50, 0x41, 0x52, 0x41]

/-- What `ReadFlipnote` returns: a container and a nil error, or nil and an
error. -/
inductive ReadResult where
  | flipnote (f : Flipnote)
  | error (msg : String)
deriving DecidableEq, Repr

/-- The header fields stored into the fresh container (lines 377-389). -/
def readHeaderFields (header : List Byte) : Option Flipnote :=
  match leUint16 header 12, leUint16 header 16, sliceOf header 20 42, sliceOf header 42 64,
      sliceOf header 64 86, leUint64 header 86, leUint64 header 94, sliceOf header 102 120,
      sliceOf header 120 138, leUint64 header 138, leUint32 header 154 with
  | some frameCount, some locked, some creator, some lastEditor, some user, some creatorId,
      some lastEditorId, some filename, some originalFilename, some previousEditorId,
      some seconds =>
    match utfSliceToString creator, utfSliceToString lastEditor, utfSliceToString user with
    | some creatorName, some lastEditorName, some userName =>
      some { Flipnote.zero with
        Frames := List.replicate frameCount Frame.zero
        Locked := locked != 0
        CreatorName := creatorName
        LastEditorName := lastEditorName
        UserName := userName
        CreatorId := creatorId
        LastEditorId := lastEditorId
        Filename := filename
        OriginalFilename := originalFilename
        PreviousEditorId := previousEditorId
        Date := seconds }
    | _, _, _ => none
  | _, _, _, _, _, _, _, _, _, _, _ => none

/-- The function `ReadFlipnote` with the two section decoders it calls as
parameters: `none` is a panic. -/
def ReadFlipnoteWith (animationDecoder soundDecoder : Flipnote → List Byte → Option Flipnote)
    (r : List Byte) : Option ReadResult :=
  let (header, r) := readInto r 0x6A0
  match sliceOf header 0 4 with
  | none => none
  | some m =>
    if m ≠ magic then some (ReadResult.error "Invalid magic!")
    else
      match leUint32 header 4, leUint32 header 8 with
      | some animationLen, some soundLen =>
        let (animationData, r) := readInto r animationLen
        let (soundData, _) := readInto r ((soundLen + 65536) % 4294967296)
        match readHeaderFields header with
        | none => none
        | some flipnote =>
          match animationDecoder flipnote animationData with
          | none => none
          | some flipnote =>
            match soundDecoder flipnote soundData with
            | none => none
            | some flipnote => some (ReadResult.flipnote flipnote)
      | _, _ => none

/-- The function `ReadFlipnote`. -/
def ReadFlipnote (r : List Byte) : Option ReadResult :=
  ReadFlipnoteWith readAnimationData readSoundData r

/-! ## Audio mixer (`SoundAsPCM` results and `MixedSoundAsPCM`, lines 140-227) -/

/-- The three integers that `SoundAsPCM` and `MixedSoundAsPCM` obtain through
`float64` arithmetic on `speedTable`; the arithmetic itself is not embedded,
its results are parameters:
* `frequency soundSpeed frameSpeed` is
  `int(audioFrequency * (speedTable[soundSpeed] / speedTable[frameSpeed]))` (line 188);
* `bufferLen frequency frameCount frameSpeed` is
  `int(float64(frequency*frameCount) * speedTable[frameSpeed])` (line 199);
* `startPos frequency frameSpeed i` is `int(float64(frequency) * pos)` for
  frame `i`, with `pos` the sum of `i` terms `speedTable[frameSpeed]`
  (lines 201, 203, 223). -/
structure Timing where
  frequency : Int → Int → Int
  bufferLen : Int → Nat → Int → Int
  startPos : Int → Int → Nat → Int

/-- The method `SoundAsPCM` (lines 140-189): the samples of channel `id` and
the output frequency; indexing `speedTable`, of 8 entries, panics for a speed
outside 0..7. -/
def SoundAsPCM (T : Timing) (f : Flipnote) (id : Nat) : Option (List Int × Int) :=
  match f.Sounds[id]? with
  | none => none
  | some sound =>
    match decodeSound sound with
    | none => none
    | some out =>
      if 0 ≤ f.SoundSpeed ∧ f.SoundSpeed < 8 ∧ 0 ≤ f.FrameSpeed ∧ f.FrameSpeed < 8 then
        some (out, T.frequency f.SoundSpeed f.FrameSpeed)
      else none

/-- The loop over `soundPos` (lines 212-219), with `fuel` iterations left:
at the end of the buffer one sample is appended and the loop is left,
elsewhere the sample is added, in `int16`, to the buffer. -/
def mixSamples (sd : List Int) (soundStartPos : Int) : Nat → Nat → List Int → Option (List Int)
  | 0, _, out => some out
  | fuel + 1, soundPos, out =>
    match sd[soundPos % sd.length]? with
    | none => none
    | some s =>
      if soundStartPos + (soundPos : Int) = (out.length : Int) then some (out ++ [s])
      else if soundStartPos + (soundPos : Int) < 0
          ∨ soundStartPos + (soundPos : Int) > (out.length : Int) then none
      else
        mixSamples sd soundStartPos fuel (soundPos + 1)
          (out.set (soundStartPos + (soundPos : Int)).toNat
            (toInt16 (out.getD (soundStartPos + (soundPos : Int)).toNat 0 + s)))

/-- The body of the loop over the channels `j` (lines 207-220). -/
def mixChannel (frame : Frame) (soundData : List (List Int))
    (soundStartPos soundStartLeft : Int) (j : Nat) (out : List Int) : Option (List Int) :=
  match frame.Sound[j]?, soundData[j]? with
  | some triggered, some sd =>
    if triggered = true ∧ sd.length > 0 then
      let soundPosMax : Int := (sd.length : Int)
      let soundPosMax :=
        if j = 0 ∧ soundStartLeft > soundPosMax then soundStartLeft else soundPosMax
      mixSamples sd soundStartPos soundPosMax.toNat 0 out
    else some out
  | _, _ => none

/-- The body of the loop over the frames (lines 203-223), the channels being
visited in the order `order`. -/
def mixFrame (order : List Nat) (T : Timing) (frequency : Int) (f : Flipnote)
    (soundData : List (List Int)) (i : Nat) (out : List Int) : Option (List Int) :=
  match f.Frames[i]? with
  | none => none
  | some frame =>
    let soundStartPos := T.startPos frequency f.FrameSpeed i
    let soundStartLeft := (out.length : Int) - soundStartPos
    order.foldlM (fun out j => mixChannel frame soundData soundStartPos soundStartLeft j out) out

/-- The method `MixedSoundAsPCM` with the channels of every frame visited in
the order `order`. -/
def MixedSoundAsPCMOrder (order : List Nat) (T : Timing) (f : Flipnote) :
    Option (List Int × Int) :=
  match SoundAsPCM T f 0, SoundAsPCM T f 1, SoundAsPCM T f 2, SoundAsPCM T f 3 with
  | some (sd0, _), some (sd1, _), some (sd2, _), some (sd3, frequency) =>
    let soundData := [sd0, sd1, sd2, sd3]
    let n := T.bufferLen frequency f.Frames.length f.FrameSpeed
    if n < 0 then none
    else
      match forRangeM f.Frames.length (mixFrame order T frequency f soundData)
          (List.replicate n.toNat 0) with
      | none => none
      | some out => some (out, frequency)
  | _, _, _, _ => none

/-- The method `MixedSoundAsPCM` (lines 191-227): the loop
`for j := 0; j < 4; j++` visits the channels 0, 1, 2, 3. -/
def MixedSoundAsPCM (T : Timing) (f : Flipnote) : Option (List Int × Int) :=
  MixedSoundAsPCMOrder (List.range 4) T f

/-! ## Layer compositor (`Frame.Image`, lines 103-130) -/

/-- The `image.Paletted` built by `Frame.Image`: bounds (0,0)-(256,192),
stride 256, `Pix` holding one palette index per pixel in row-major order. -/
structure Paletted where
  Pix : List Nat
deriving DecidableEq, Repr

/-- The call `image.NewPaletted(image.Rect(0, 0, 256, 192), AnimationPalette)`. -/
def Paletted.new : Paletted := ⟨List.replicate (256 * 192) 0⟩

/-- The method `SetColorIndex`: a point outside the bounds is ignored. -/
def Paletted.SetColorIndex (p : Paletted) (x y : Nat) (index : Nat) : Paletted :=
  if x < 256 ∧ y < 192 then ⟨p.Pix.set (y * 256 + x) index⟩ else p

/-- The method `ColorIndexAt`: 0 outside the bounds. -/
def Paletted.ColorIndexAt (p : Paletted) (x y : Nat) : Nat :=
  if x < 256 ∧ y < 192 then p.Pix.getD (y * 256 + x) 0 else 0

/-- The 2-bit draw-mode code of a layer as `Frame.Image` reads it (line 113). -/
def drawModeCode (f : Frame) (layerId : Nat) : Nat :=
  (f.flags.val >>> (1 + layerId * 2)) &&& 3

/-- The value of `layerDrawMode` after lines 114-118. -/
def layerPaint (f : Frame) (layerId : Nat) : Nat :=
  let layerDrawMode := drawModeCode f layerId
  if layerDrawMode = 1 then (f.flags.val &&& 1) ^^^ 1
  else if layerDrawMode = 0 then f.flags.val &&& 1
  else layerDrawMode

/-- The first loop nest of `Frame.Image` (lines 106-110): every pixel gets
the paper index `flags & 1`. -/
def fillPaper (f : Frame) (img : Paletted) : Paletted :=
  forRange 192 (fun layerLine img =>
    forRange 256 (fun layerPos img =>
      img.SetColorIndex layerPos layerLine (f.flags.val &&& 1)) img) img

/-- The body of the loop over `layerId` (lines 113-126). -/
def paintLayer (f : Frame) (layerId : Nat) (img : Paletted) : Paletted :=
  let layerDrawMode := layerPaint f layerId
  forRange 192 (fun layerLine img =>
    forRange 256 (fun layerPos img =>
      if getBit f.data layerId layerLine layerPos then
        img.SetColorIndex layerPos layerLine layerDrawMode
      else img) img) img

/-- The method `Frame.Image` (lines 103-130); the loop
`for layerId := 1; layerId >= 0; layerId--` visits layer 1, then layer 0. -/
def Frame.Image (f : Frame) : Paletted :=
  [1, 0].foldl (fun img layerId => paintLayer f layerId img) (fillPaper f Paletted.new)

/-! ## Vocabulary of the statements

The definitions of this section are not translations of source code: they
name the shapes, counts and pixel values that the theorems speak about. -/

/-- The shape `[2][192][256]` of a frame's layer data. -/
def Dims (d : LayerData) : Prop :=
  d.length = 2 ∧ ∀ layer ∈ d, layer.length = 192 ∧ ∀ line ∈ layer, line.length = 256

instance (d : LayerData) : Decidable (Dims d) := by
  unfold Dims
  infer_instance

/-- Two byte slices agree on their first `n` positions. -/
def Agree (n : Nat) (a b : List Byte) : Prop := ∀ idx, idx < n → a[idx]? = b[idx]?


instance (n : Nat) (a b : List Byte) : Decidable (Agree n a b) := by
  unfold Agree
  infer_instance

/-- The number of set bits among the `n` most significant bits of the 32-bit
mask `m`: the number of group bytes that precede group `n` of a coded line. -/
def maskCount (m : Nat) : Nat → Nat
  | 0 => 0
  | n + 1 => maskCount m n + (if m.testBit (31 - n) then 1 else 0)

/-- The number of set bits of a 32-bit value. -/
def popCount32 (m : Nat) : Nat := (List.range 32).countP (fun b => m.testBit b)

/-- The pixel value a coded line computes for pixel `l` from its value `old`
before the line, given the group bytes start at position `i0`. -/
def groupToggle (frameData : List Byte) (i0 m t : Nat) (l : Nat) (old : Bool) : Bool :=
  if m.testBit (31 - l / 8) then
    old != ((((frameData.getD (i0 + maskCount m (l / 8)) 0).val >>> (l % 8)) &&& 1) == t)
  else old

/-- The value of pixel `l` of a line after it is decoded in mode 1 or 2, from
its value `old` before: `i` is the position of the line's mask `m`. -/
def codedPixel (frameData : List Byte) (i m layerDecodeMode l : Nat) (old : Bool) : Bool :=
  if layerDecodeMode = 2 then !groupToggle frameData (i + 4) m 0 l old
  else groupToggle frameData (i + 4) m 1 l old

/-- The translated copy without the bounds checks of the writes. -/
def copyPrevPure (prev : LayerData) (offsetX offsetY : Int) (d : LayerData) : LayerData :=
  forRange 2 (fun (j : Nat) d => forRange 192 (fun (k : Nat) d => forRange 256 (fun (l : Nat) d =>
        if (k : Int) + offsetY ≥ 0 ∧ (k : Int) + offsetY < 192
            ∧ (l : Int) + offsetX ≥ 0 ∧ (l : Int) + offsetX < 256 then
          setBit d j ((k : Int) + offsetY).toNat ((l : Int) + offsetX).toNat (getBit prev j k l)
        else d) d) d) d

/-- One pass of painting: every pixel selected by `cond` gets the index `c`. -/
def paintPass (cond : Nat → Nat → Bool) (c : Nat) (img : Paletted) : Paletted :=
  forRange 192 (fun y img =>
    forRange 256 (fun x img => if cond y x then img.SetColorIndex x y c else img) img) img

/-- What channel `j`, with samples `sd` and trigger flag `triggered`, adds to
the output sample at index `p` inside the initially allocated buffer, for a
frame whose samples start at `start`: channel 0 repeats its samples up to the
end of the buffer, the other channels play once. -/
def channelAdds (sd : List Int) (triggered : Bool) (j : Nat) (start : Int) (p : Nat) :
    Option Int :=
  if triggered = true ∧ 0 < sd.length ∧ start ≤ (p : Int)
      ∧ (j = 0 ∨ (p : Int) - start < (sd.length : Int)) then
    some (sd.getD (((p : Int) - start).toNat % sd.length) 0)
  else none

/-- The statement `out[p] += s` in `int16` arithmetic, or nothing. -/
def addSample (v : Int) (c : Option Int) : Int :=
  match c with
  | none => v
  | some s => toInt16 (v + s)

/-- The value of the output sample at index `p` after the channels `order` of
one frame are mixed in, from its value `v` before. -/
def frameAdds (frame : Frame) (soundData : List (List Int)) (start : Int) (p : Nat)
    (order : List Nat) (v : Int) : Int :=
  order.foldl (fun v j =>
    addSample v (channelAdds (soundData.getD j []) (frame.Sound.getD j false) j start p)) v


/-- The 2-bit value held in the bits `lo` and `lo + 1` of `flags`. -/
def flagBits (flags lo : Nat) : Nat :=
  (if flags.testBit lo then 1 else 0) + 2 * (if flags.testBit (lo + 1) then 1 else 0)

/-- The samples of channel `j` as `SoundAsPCM` decodes them. -/
def channelSamples (f : Flipnote) (j : Nat) : List Int :=
  (decodeSound (f.Sounds.getD j [])).getD []

/-- The sample that channel `j` of frame `i` contributes to the output index
`p`, 0 when it contributes none. -/
def contribution (T : Timing) (f : Flipnote) (p i j : Nat) : Int :=
  (channelAdds (channelSamples f j) ((f.Frames.getD i Frame.zero).Sound.getD j false) j
    (T.startPos (T.frequency f.SoundSpeed f.FrameSpeed) f.FrameSpeed i) p).getD 0

/-- The sum of all channel samples that the four channels of the first `n`
frames contribute to the output index `p`. -/
def mixSum (T : Timing) (f : Flipnote) (p n : Nat) : Int :=
  ((List.range n).map (fun i => ((List.range 4).map (fun j => contribution T f p i j)).sum)).sum

/-- The start of channel `k` in the sound section, for the channel-length
table at offset `t`: the 32 bytes of the table, the speed settings and the
padding, then the channels before `k`. -/
def channelStart (soundData : List Byte) (t : Nat) : Nat → Nat
  | 0 => t + 32
  | k + 1 => channelStart soundData t k + (leUint32 soundData (t + 4 * k)).getD 0
/-! ## Concrete inputs -/

/-- A frame with pixel (3, 5) of layer 0 set, paper index 0 and draw-mode
code 1 for both layers. -/
def sampleFrame : Frame :=
  { data := setBit blankData 0 5 3 true, flags := 0x0A, Sound := List.replicate 4 false }

/-- A payload whose line 0 of layer 0 is raw (mode 3) with 32 bytes 0xFF. -/
def rawPayload : List Byte := 0 :: 3 :: List.replicate 95 0 ++ List.replicate 32 0xFF

/-- A payload whose line 0 of layer 0 is coded (mode 1) with mask 0x80000001
and the two group bytes 0xAA, 0x55. -/
def codedPayload : List Byte :=
  0 :: 1 :: List.replicate 95 0 ++ [0x80, 0, 0, 0x01, 0xAA, 0x55]

/-- The payload of a frame with flags bit 7 set and all line modes 0. -/
def keyPayload : List Byte := 0x80 :: List.replicate 96 0

/-- An animation section of two frames: frame 0 without line edits, frame 1
with the payload `keyPayload`. -/
def sectionA : List Byte :=
  [8, 0, 0, 0, 0, 0, 0, 0, 0, 0, 0, 0, 97, 0, 0, 0] ++ (0 :: List.replicate 96 0) ++ keyPayload

/-- An animation section of two frames: frame 0 with one raw line, frame 1
with the payload `keyPayload`, followed by two bytes that no frame reads. -/
def sectionB : List Byte :=
  [8, 0, 0, 0, 0, 0, 0, 0, 0, 0, 0, 0, 129, 0, 0, 0]
    ++ (0 :: 3 :: List.replicate 95 0) ++ List.replicate 32 0xFF ++ keyPayload ++ [0xFF, 0xFF]

/-- The payload slice of frame 0 of `sectionB`: it runs to the end of the
section. -/
def sectionB_frame0 : List Byte :=
  (0 :: 3 :: List.replicate 95 0) ++ List.replicate 32 0xFF ++ keyPayload ++ [0xFF, 0xFF]

/-- The payload of a delta frame translated by (-1, 2), all line modes 0. -/
def deltaPayload : List Byte := 0x40 :: 0xFF :: 0x02 :: List.replicate 96 0

/-- An animation section of two frames: frame 0 with one raw line, frame 1
with the payload `deltaPayload`. -/
def sectionC : List Byte :=
  [8, 0, 0, 0, 0, 0, 0, 0, 0, 0, 0, 0, 129, 0, 0, 0]
    ++ (0 :: 3 :: List.replicate 95 0) ++ List.replicate 32 0xFF ++ deltaPayload

/-- The frames after frame 0 of `sectionC` is decoded. -/
def sectionC_step0 : List Frame := (frameStep sectionC 16 0 [Frame.zero, Frame.zero]).getD []

/-- The frames decoded from `sectionC`. -/
def sectionC_frames : List Frame :=
  sectionC_step0.set 1
    { Frame.zero with
      flags := 0x40
      data := copyPrevPure (sectionC_step0.getD 0 Frame.zero).data (-1) 2 Frame.zero.data }

/-- The values of the `float64` expressions for a container of one frame
whose speed settings are both 0: `speedTable[0] / speedTable[0]` is exactly 1,
so the frequency is `int(8184.0)` = 8184; the buffer length is
`int(8184.0 * (1.0 / 30.0250310083))` = `int(272.57...)` = 272; and frame 0
starts at `int(8184.0 * 0.0)` = 0. -/
def mixTiming : Timing :=
  { frequency := fun _ _ => 8184, bufferLen := fun _ _ _ => 272, startPos := fun _ _ _ => 0 }

/-- A container of one frame that triggers the channels 0, 1 and 2: channel
0 is empty, channels 1 and 2 hold 137 bytes (274 samples) each, and the last
4-bit code of channel 2 is 7, all other codes being 0. -/
def mixFlipnote : Flipnote :=
  { Flipnote.zero with
    Frames := [{ Frame.zero with Sound := [true, true, true, false] }]
    Sounds := [[], List.replicate 137 0x00, List.replicate 136 0x00 ++ [0x70], []] }


/-- A frame with pixel (3, 5) of layer 1 set, paper index 0, the value 1 in
the flag bits 1-2 and the value 0 in the flag bits 3-4. -/
def swapFrame : Frame :=
  { data := setBit blankData 1 5 3 true, flags := 0x02, Sound := List.replicate 4 false }

/-- A container of one frame that triggers the channels 0 and 1: channel 0
is empty and channel 1 holds 137 bytes (274 samples). -/
def truncFlipnote : Flipnote :=
  { Flipnote.zero with
    Frames := [{ Frame.zero with Sound := [true, true, false, false] }]
    Sounds := [[], List.replicate 137 0x00, [], []] }

/-- A sound section of 64 bytes: the trigger bytes 1, 2, 4, 7; at offset 4
the little-endian lengths 1, 0, 0, 0; at offset 20 the speed bytes 3, 0; at
offset 36 the byte 0x77. -/
def soundSection : List Byte :=
  [1, 2, 4, 7] ++ [1, 0, 0, 0] ++ List.replicate 12 0 ++ [3, 0] ++ List.replicate 14 0
    ++ [0x77] ++ List.replicate 27 0

/-- A container of `n` zero frames, as `ReadFlipnote` builds it from the
header. -/
def blankFlipnote (n : Nat) : Flipnote :=
  { Flipnote.zero with Frames := List.replicate n Frame.zero }

/-- An animation section of one frame whose 16-bit value at offset 0 is
65528, whose offset table holds 12 and whose bytes from offset 12 on are
`keyPayload`. -/
def wrapSection : List Byte := [0xF8, 0xFF, 0, 0, 0, 0, 0, 0, 12, 0, 0, 0] ++ keyPayload

/-- A payload whose line 0 of layer 0 is coded in mode 2 with mask
0x80000001 and the two group bytes 0xAA, 0x55. -/
def invPayload : List Byte :=
  0 :: 2 :: List.replicate 95 0 ++ [0x80, 0, 0, 0x01, 0xAA, 0x55]
/-! # Theorems -/

/-! ## Loops -/

theorem forRange_succ {σ : Type} (n : Nat) (body : Nat → σ → σ) (s : σ) :
    forRange (n + 1) body s = body n (forRange n body s) := by
  simp [forRange, List.range_succ]

theorem forRange_zero {σ : Type} (body : Nat → σ → σ) (s : σ) : forRange 0 body s = s := rfl

theorem forRangeM_zero {σ : Type} (f : Nat → σ → Option σ) (s : σ) :
    forRangeM 0 f s = some s := rfl

theorem forRangeM_succ {σ : Type} (n : Nat) (f : Nat → σ → Option σ) (s : σ) :
    forRangeM (n + 1) f s = (forRangeM n f s).bind (f n) := by
  simp [forRangeM, List.range_succ, List.foldlM_append]

theorem forRangeM_eq_some {σ : Type} (n : Nat) (f : Nat → σ → Option σ) (g : Nat → σ → σ)
    (h : ∀ x, x < n → ∀ s, f x s = some (g x s)) (s : σ) :
    forRangeM n f s = some (forRange n g s) := by
  induction n with
  | zero => rfl
  | succ m ih =>
    rw [forRangeM_succ, ih (fun x hx => h x (by omega)), Option.some_bind, forRange_succ,
      h m (by omega)]

theorem forRangeM_induct {σ : Type} (P : Nat → σ → Prop) (n : Nat) (f : Nat → σ → Option σ)
    (s : σ) (h0 : P 0 s)
    (hstep : ∀ x, x < n → ∀ a b, P x a → f x a = some b → P (x + 1) b)
    (r : σ) (h : forRangeM n f s = some r) : P n r := by
  induction n generalizing r with
  | zero =>
    rw [forRangeM_zero] at h
    rw [← Option.some.inj h]; exact h0
  | succ q ih =>
    rw [forRangeM_succ] at h
    cases hq : forRangeM q f s with
    | none => rw [hq] at h; simp at h
    | some a =>
      rw [hq, Option.some_bind] at h
      exact hstep q (by omega) a r (ih (fun x hx => hstep x (by omega)) a hq) h

theorem forRangeM_congr {σ : Type} (n : Nat) (f g : Nat → σ → Option σ)
    (h : ∀ x, x < n → ∀ s, f x s = g x s) (s : σ) : forRangeM n f s = forRangeM n g s := by
  induction n with
  | zero => rfl
  | succ q ih =>
    rw [forRangeM_succ, forRangeM_succ, ih (fun x hx => h x (by omega))]
    cases forRangeM q g s with
    | none => rfl
    | some a => exact h q (by omega) a

/-- A loop whose state carries a read position `μ` that only grows: when the
loop over `f` succeeds and `g` behaves like `f` on every input that agrees
with the one of `f` below the final position, the loop over `g` gives the
same result. -/
theorem forRangeM_local {σ : Type} (μ : σ → Nat) (I : σ → Prop) (Q : Nat → Prop)
    (hQ : ∀ m m', Q m → m' ≤ m → Q m') (n : Nat) (f g : Nat → σ → Option σ)
    (hstep : ∀ x, x < n → ∀ s r, I s → f x s = some r →
      I r ∧ μ s ≤ μ r ∧ (Q (μ r) → g x s = some r))
    (s r : σ) (hs : I s) (h : forRangeM n f s = some r) :
    I r ∧ μ s ≤ μ r ∧ (Q (μ r) → forRangeM n g s = some r) := by
  induction n generalizing r with
  | zero =>
    rw [forRangeM_zero] at h
    rw [← Option.some.inj h]
    exact ⟨hs, le_refl _, fun _ => rfl⟩
  | succ q ih =>
    rw [forRangeM_succ] at h
    cases hq : forRangeM q f s with
    | none => rw [hq] at h; simp at h
    | some a =>
      rw [hq, Option.some_bind] at h
      obtain ⟨ia, ma, ga⟩ := ih (fun x hx => hstep x (by omega)) a hq
      obtain ⟨ir, mr, gr⟩ := hstep q (by omega) a r ia h
      refine ⟨ir, by omega, fun hq' => ?_⟩
      rw [forRangeM_succ, ga (hQ _ _ hq' mr), Option.some_bind]
      exact gr hq'

/-! ## Audio decoder: lemmas -/

theorem tableAt_index_isSome (v : Nat) (hv : v < 16) :
    ∃ inc, tableAt imaIndexTable v = some inc ∧ -1 ≤ inc ∧ inc ≤ 8 := by
  have h : ∀ k : Fin 16, ∃ inc, tableAt imaIndexTable ((k : Nat) : Int) = some inc
      ∧ -1 ≤ inc ∧ inc ≤ 8 := by decide
  exact h ⟨v, hv⟩

set_option maxRecDepth 100000 in
theorem tableAt_step_isSome (i : Int) (h0 : 0 ≤ i) (h1 : i ≤ 88) :
    ∃ s, tableAt imaStepTable i = some s ∧ 7 ≤ s ∧ s ≤ 32767 := by
  have h : ∀ k : Fin 89, ∃ s, tableAt imaStepTable ((k : Nat) : Int) = some s
      ∧ 7 ≤ s ∧ s ≤ 32767 := by decide
  obtain ⟨s, hs⟩ := h ⟨i.toNat, by omega⟩
  refine ⟨s, ?_⟩
  have hi : ((i.toNat : Nat) : Int) = i := Int.toNat_of_nonneg h0
  simpa [hi] using hs

theorem decodeCode_total (st : AdpcmState) (v : Nat) (hv : v < 16) :
    ∃ st1, decodeCode st v = some st1
      ∧ 0 ≤ st1.stepIndex ∧ st1.stepIndex ≤ 88
      ∧ 7 ≤ st1.step ∧ st1.step ≤ 32767
      ∧ -32768 ≤ st1.predictor ∧ st1.predictor ≤ 32767
      ∧ (st1.predictor = rawPredictor st v ∨ st1.predictor = -32768 ∨ st1.predictor = 32767) := by
  obtain ⟨inc, hinc, _, _⟩ := tableAt_index_isSome v hv
  have hlen : imaStepTable.length = 89 := rfl
  let si : Int := if st.stepIndex + inc < 0 then 0
    else if st.stepIndex + inc ≥ 89 then 88 else st.stepIndex + inc
  have hsi0 : 0 ≤ si := by simp only [si]; split_ifs <;> omega
  have hsi1 : si ≤ 88 := by simp only [si]; split_ifs <;> omega
  obtain ⟨s, hs, hs7, hs32⟩ := tableAt_step_isSome si hsi0 hsi1
  let p : Int := if rawPredictor st v < -32768 then -32768
    else if rawPredictor st v > 32767 then 32767 else rawPredictor st v
  refine ⟨⟨p, si, s⟩, ?_, hsi0, hsi1, hs7, hs32, ?_, ?_, ?_⟩
  · simp only [decodeCode, hinc, hlen, Option.bind_eq_bind, Option.some_bind, Option.pure_def]
    have : (if st.stepIndex + inc < 0 then (0 : Int)
        else if st.stepIndex + inc ≥ ((89 : Nat) : Int) then ((89 : Nat) : Int) - 1
        else st.stepIndex + inc) = si := by
      simp only [si]; norm_num
    rw [this, hs]
    rfl
  · simp only [p]; split_ifs <;> omega
  · simp only [p]; split_ifs <;> omega
  · simp only [p]; split_ifs <;> simp

/-- The Go `int` arithmetic of the decoder stays far inside 64 (and 32) bits:
from a state whose predictor is a 16-bit value and whose step is a table
value, the predictor before the clamp lies strictly between -2^17 and 2^17. -/
theorem rawPredictor_bound (st : AdpcmState) (v : Nat)
    (hp : -32768 ≤ st.predictor ∧ st.predictor ≤ 32767)
    (hs : 0 ≤ st.step ∧ st.step ≤ 32767) :
    -131072 < rawPredictor st v ∧ rawPredictor st v < 131072 := by
  have h3 : st.step >>> (3 : Nat) = st.step / 8 := Int.shiftRight_eq_div_pow st.step 3
  have h2 : st.step >>> (2 : Nat) = st.step / 4 := Int.shiftRight_eq_div_pow st.step 2
  have h1 : st.step >>> (1 : Nat) = st.step / 2 := Int.shiftRight_eq_div_pow st.step 1
  have hd : 0 ≤ codeDiff st.step v ∧ codeDiff st.step v ≤ 61440 := by
    unfold codeDiff
    simp only [h3, h2, h1]
    split_ifs <;> omega
  unfold rawPredictor
  split_ifs <;> omega

theorem nibble_lt (n : Nat) : n &&& 0x0F < 16 :=
  Nat.and_lt_two_pow n (by norm_num : (0x0F : Nat) < 2 ^ 4)

theorem decodeByte_total (st : AdpcmState) (val : Byte) :
    ∃ st1 st2, decodeByte st val = some (st1, st2)
      ∧ decodeCode st (val.val &&& 0x0F) = some st1
      ∧ decodeCode st1 ((val.val >>> 4) &&& 0x0F) = some st2 := by
  obtain ⟨st1, h1, _⟩ := decodeCode_total st (val.val &&& 0x0F) (nibble_lt _)
  obtain ⟨st2, h2, _⟩ := decodeCode_total st1 ((val.val >>> 4) &&& 0x0F) (nibble_lt _)
  refine ⟨st1, st2, ?_, h1, h2⟩
  simp [decodeByte, h1, h2]

theorem toInt16_of_range (x : Int) (h0 : -32768 ≤ x) (h1 : x ≤ 32767) : toInt16 x = x := by
  unfold toInt16
  omega

theorem decodeTrace_total (sound : List Byte) : ∀ st : AdpcmState,
    ∃ trace, decodeTrace st sound = some trace
      ∧ trace.length = 2 * sound.length
      ∧ ∀ s ∈ trace, -32768 ≤ s.predictor ∧ s.predictor ≤ 32767 := by
  induction sound with
  | nil => intro st; exact ⟨[], rfl, rfl, by simp⟩
  | cons val rest ih =>
    intro st
    obtain ⟨st1, st2, hb, h1, h2⟩ := decodeByte_total st val
    obtain ⟨_, _, _, _, _, _, lo1, hi1, _⟩ := decodeCode_total st (val.val &&& 0x0F) (nibble_lt _)
    obtain ⟨_, _, _, _, _, _, lo2, hi2, _⟩ :=
      decodeCode_total st1 ((val.val >>> 4) &&& 0x0F) (nibble_lt _)
    obtain ⟨more, hm, hlen, hall⟩ := ih st2
    refine ⟨st1 :: st2 :: more, ?_, ?_, ?_⟩
    · simp [decodeTrace, hb, hm]
    · simp only [List.length_cons, hlen]; omega
    · intro s hs
      simp only [List.mem_cons] at hs
      rcases hs with rfl | rfl | hs
      · simp_all
      · simp_all
      · exact hall s hs

theorem fresh_eq : AdpcmState.fresh = some { predictor := 0, stepIndex := 0, step := 7 } := rfl

theorem decodeCode_zero :
    decodeCode { predictor := 0, stepIndex := 0, step := 7 } 0
      = some { predictor := 0, stepIndex := 0, step := 7 } := by
  decide

theorem decodeTrace_zeros (n : Nat) :
    decodeTrace { predictor := 0, stepIndex := 0, step := 7 } (List.replicate n (0 : Byte))
      = some (List.replicate (2 * n) { predictor := 0, stepIndex := 0, step := 7 }) := by
  induction n with
  | zero => rfl
  | succ k ih =>
    have hb : decodeByte { predictor := 0, stepIndex := 0, step := 7 } (0 : Byte)
        = some ({ predictor := 0, stepIndex := 0, step := 7 },
                { predictor := 0, stepIndex := 0, step := 7 }) := by decide
    have h2 : 2 * (k + 1) = (2 * k + 1) + 1 := by omega
    rw [List.replicate_succ, decodeTrace, hb, h2, List.replicate_succ, List.replicate_succ]
    simp [ih]

theorem decodeSound_zeros (n : Nat) :
    decodeSound (List.replicate n (0 : Byte)) = some (List.replicate (2 * n) 0) := by
  simp only [decodeSound, fresh_eq, decodeTrace_zeros, Option.bind_eq_bind, Option.some_bind,
    Option.pure_def, List.map_replicate]
  rfl

/-! ## Audio decoder: claims -/

/-- C2: for every channel byte sequence the decode succeeds, visits two
decoder states per byte, the predictor lies in [-32768, 32767] after every
4-bit code, the 16-bit conversion of it is the identity, and so the emitted
samples are exactly the clamped predictor values. -/
theorem soundAsPCM_predictor_in_range (sound : List Byte) :
    ∃ st0 trace, AdpcmState.fresh = some st0
      ∧ decodeTrace st0 sound = some trace
      ∧ trace.length = 2 * sound.length
      ∧ (∀ s ∈ trace, -32768 ≤ s.predictor ∧ s.predictor ≤ 32767
            ∧ toInt16 s.predictor = s.predictor)
      ∧ decodeSound sound = some (trace.map (fun s => s.predictor)) := by
  obtain ⟨trace, ht, hlen, hall⟩ := decodeTrace_total sound { predictor := 0, stepIndex := 0, step := 7 }
  refine ⟨_, trace, fresh_eq, ht, hlen, ?_, ?_⟩
  · intro s hs
    obtain ⟨lo, hi⟩ := hall s hs
    exact ⟨lo, hi, toInt16_of_range _ lo hi⟩
  · simp only [decodeSound, fresh_eq, ht, Option.bind_eq_bind, Option.some_bind, Option.pure_def]
    congr 1
    apply List.map_congr_left
    intro s hs
    obtain ⟨lo, hi⟩ := hall s hs
    exact toInt16_of_range _ lo hi

/-- C3: a channel of `n` bytes 0x00 decodes, from the fresh state, to exactly
`2 * n` samples that are all 0. -/
theorem soundAsPCM_zero_bytes (n : Nat) :
    decodeSound (List.replicate n (0 : Byte)) = some (List.replicate (2 * n) 0) :=
  decodeSound_zeros n

/-! ## Layer compositor: lemmas and claims -/

theorem paintRow_spec (cond : Nat → Bool) (c y : Nat) (hy : y < 192) (img : Paletted) (n : Nat)
    (hn : n ≤ 256) :
    (forRange n (fun x img => if cond x then img.SetColorIndex x y c else img) img).Pix.length
        = img.Pix.length
    ∧ ∀ k, (forRange n (fun x img => if cond x then img.SetColorIndex x y c else img) img).Pix[k]?
        = if k < img.Pix.length ∧ y * 256 ≤ k ∧ k < y * 256 + n ∧ cond (k - y * 256) = true
          then some c else img.Pix[k]? := by
  induction n with
  | zero =>
    refine ⟨rfl, fun k => ?_⟩
    rw [forRange_zero, if_neg]
    omega
  | succ m ih =>
    obtain ⟨hlen, hget⟩ := ih (by omega)
    rw [forRange_succ]
    generalize forRange m (fun x img => if cond x then img.SetColorIndex x y c else img) img = g
      at hlen hget
    by_cases hc : cond m = true
    · simp only [hc, if_true, Paletted.SetColorIndex, hy, and_true, show m < 256 by omega]
      refine ⟨by simp [hlen], fun k => ?_⟩
      rw [List.getElem?_set, hget k, hlen]
      by_cases hk : y * 256 + m = k
      · subst hk
        by_cases hl : y * 256 + m < img.Pix.length
        · simp [hl, hc]
        · simp only [hl, if_false, if_true, false_and]
          rw [List.getElem?_eq_none (by omega)]
      · rw [if_neg hk]
        by_cases hk2 : k < img.Pix.length ∧ y * 256 ≤ k ∧ k < y * 256 + m ∧ cond (k - y * 256) = true
        · rw [if_pos hk2, if_pos ⟨hk2.1, hk2.2.1, by omega, hk2.2.2.2⟩]
        · rw [if_neg hk2, if_neg]
          rintro ⟨h1, h2, h3, h4⟩
          exact hk2 ⟨h1, h2, by omega, h4⟩
    · simp only [hc, Bool.false_eq_true, if_false]
      refine ⟨hlen, fun k => ?_⟩
      rw [hget k]
      by_cases hk2 : k < img.Pix.length ∧ y * 256 ≤ k ∧ k < y * 256 + m ∧ cond (k - y * 256) = true
      · rw [if_pos hk2, if_pos ⟨hk2.1, hk2.2.1, by omega, hk2.2.2.2⟩]
      · rw [if_neg hk2, if_neg]
        rintro ⟨h1, h2, h3, h4⟩
        by_cases hkm : k = y * 256 + m
        · subst hkm
          simp only [Nat.add_sub_cancel_left] at h4
          exact hc h4
        · exact hk2 ⟨h1, h2, by omega, h4⟩

theorem paintPass_spec (cond : Nat → Nat → Bool) (c : Nat) (img : Paletted) (n : Nat)
    (hn : n ≤ 192) :
    (forRange n (fun y img =>
        forRange 256 (fun x img => if cond y x then img.SetColorIndex x y c else img) img)
        img).Pix.length = img.Pix.length
    ∧ ∀ k, (forRange n (fun y img =>
        forRange 256 (fun x img => if cond y x then img.SetColorIndex x y c else img) img)
        img).Pix[k]?
        = if k < img.Pix.length ∧ k < n * 256 ∧ cond (k / 256) (k % 256) = true
          then some c else img.Pix[k]? := by
  induction n with
  | zero =>
    refine ⟨rfl, fun k => ?_⟩
    rw [forRange_zero, if_neg]
    omega
  | succ m ih =>
    obtain ⟨hlen, hget⟩ := ih (by omega)
    rw [forRange_succ]
    generalize forRange m (fun y img =>
        forRange 256 (fun x img => if cond y x then img.SetColorIndex x y c else img) img)
        img = g at hlen hget ⊢
    obtain ⟨rlen, rget⟩ := paintRow_spec (cond m) c m (by omega) g 256 (le_refl _)
    refine ⟨by rw [rlen, hlen], fun k => ?_⟩
    rw [rget k, hget k, hlen]
    by_cases hrow : m * 256 ≤ k ∧ k < m * 256 + 256
    · have h1 : k / 256 = m := by omega
      have h2 : k % 256 = k - m * 256 := by omega
      rw [h1, h2]
      by_cases hc : k < img.Pix.length ∧ cond m (k - m * 256) = true
      · rw [if_pos ⟨hc.1, hrow.1, hrow.2, hc.2⟩, if_pos ⟨hc.1, by omega, hc.2⟩]
      · rw [if_neg (fun h => hc ⟨h.1, h.2.2.2⟩), if_neg (fun h => hc ⟨h.1, h.2.2⟩), if_neg]
        exact fun h => hc ⟨h.1, h.2.2⟩
    · rw [if_neg (fun h => hrow ⟨h.2.1, h.2.2.1⟩)]
      by_cases hc : k < img.Pix.length ∧ k < m * 256 ∧ cond (k / 256) (k % 256) = true
      · rw [if_pos hc, if_pos ⟨hc.1, by omega, hc.2.2⟩]
      · rw [if_neg hc, if_neg]
        rintro ⟨a, b, d⟩
        exact hc ⟨a, by omega, d⟩

theorem paintPass_colorIndexAt (cond : Nat → Nat → Bool) (c : Nat) (img : Paletted)
    (hlen : img.Pix.length = 256 * 192) (x y : Nat) (hx : x < 256) (hy : y < 192) :
    (paintPass cond c img).Pix.length = 256 * 192
    ∧ (paintPass cond c img).ColorIndexAt x y
        = if cond y x = true then c else img.ColorIndexAt x y := by
  obtain ⟨plen, pget⟩ := paintPass_spec cond c img 192 (le_refl _)
  refine ⟨by rw [paintPass, plen, hlen], ?_⟩
  unfold paintPass Paletted.ColorIndexAt
  simp only [hx, hy, and_self, if_true, List.getD_eq_getElem?_getD]
  rw [pget (y * 256 + x)]
  have h1 : (y * 256 + x) / 256 = y := by omega
  have h2 : (y * 256 + x) % 256 = x := by omega
  rw [h1, h2, hlen]
  by_cases hc : cond y x = true
  · rw [if_pos ⟨by omega, by omega, hc⟩, if_pos hc]; rfl
  · rw [if_neg (fun h => hc h.2.2), if_neg hc]

theorem fillPaper_eq (f : Frame) (img : Paletted) :
    fillPaper f img = paintPass (fun _ _ => true) (f.flags.val &&& 1) img := by
  rw [fillPaper, paintPass]
  simp only [if_true]

theorem paintLayer_eq (f : Frame) (layerId : Nat) (img : Paletted) :
    paintLayer f layerId img
      = paintPass (fun y x => getBit f.data layerId y x) (layerPaint f layerId) img := by
  rw [paintLayer, paintPass]

theorem image_eq_passes (f : Frame) :
    f.Image = paintPass (fun y x => getBit f.data 0 y x) (layerPaint f 0)
      (paintPass (fun y x => getBit f.data 1 y x) (layerPaint f 1)
        (paintPass (fun _ _ => true) (f.flags.val &&& 1) Paletted.new)) := by
  rw [Frame.Image, List.foldl_cons, List.foldl_cons, List.foldl_nil, paintLayer_eq,
    paintLayer_eq, fillPaper_eq]

/-- C1: at every pixel of the 256x192 canvas the composited colour index is
layer 0's paint index where layer 0 is set, else layer 1's paint index where
layer 1 is set, else the paper index (flags bit 0); the paint index of a layer
with draw-mode code 0, 1, 2, 3 is the paper index, one minus the paper index,
2, 3. -/
theorem frame_image_pixel (f : Frame) (x y : Nat) (hx : x < 256) (hy : y < 192) :
    f.Image.ColorIndexAt x y
      = (if getBit f.data 0 y x = true then layerPaint f 0
         else if getBit f.data 1 y x = true then layerPaint f 1
         else f.flags.val &&& 1)
    ∧ ∀ layerId, drawModeCode f layerId < 4
        ∧ (drawModeCode f layerId = 0 → layerPaint f layerId = f.flags.val &&& 1)
        ∧ (drawModeCode f layerId = 1 → layerPaint f layerId = 1 - (f.flags.val &&& 1))
        ∧ (drawModeCode f layerId = 2 → layerPaint f layerId = 2)
        ∧ (drawModeCode f layerId = 3 → layerPaint f layerId = 3) := by
  constructor
  · have hnew : Paletted.new.Pix.length = 256 * 192 := List.length_replicate _ _
    obtain ⟨l1, c1⟩ := paintPass_colorIndexAt (fun _ _ => true) (f.flags.val &&& 1)
      Paletted.new hnew x y hx hy
    obtain ⟨l2, c2⟩ := paintPass_colorIndexAt (fun y x => getBit f.data 1 y x) (layerPaint f 1)
      _ l1 x y hx hy
    obtain ⟨_, c3⟩ := paintPass_colorIndexAt (fun y x => getBit f.data 0 y x) (layerPaint f 0)
      _ l2 x y hx hy
    rw [image_eq_passes, c3, c2, c1]
    simp
  · intro layerId
    have hlt : drawModeCode f layerId < 4 :=
      Nat.and_lt_two_pow _ (by norm_num : (3 : Nat) < 2 ^ 2)
    have hp : f.flags.val &&& 1 < 2 := Nat.and_lt_two_pow _ (by norm_num : (1 : Nat) < 2 ^ 1)
    refine ⟨hlt, ?_, ?_, ?_, ?_⟩
    · intro h; simp [layerPaint, h]
    · intro h
      simp only [layerPaint, h, if_true]
      have : f.flags.val &&& 1 = 0 ∨ f.flags.val &&& 1 = 1 := by omega
      rcases this with h0 | h0 <;> rw [h0] <;> rfl
    · intro h; simp [layerPaint, h]
    · intro h; simp [layerPaint, h]


theorem frame_image_pixel_witness :
    sampleFrame.Image.ColorIndexAt 3 5
      = (if getBit sampleFrame.data 0 5 3 = true then layerPaint sampleFrame 0
         else if getBit sampleFrame.data 1 5 3 = true then layerPaint sampleFrame 1
         else sampleFrame.flags.val &&& 1) :=
  (frame_image_pixel sampleFrame 3 5 (by decide) (by decide)).1

/-! ## Layer compositor: the draw-mode bits -/

/-- The colour index of a pixel of the composited image. -/
theorem image_colorIndexAt (f : Frame) (x y : Nat) (hx : x < 256) (hy : y < 192) :
    f.Image.ColorIndexAt x y
      = (if getBit f.data 0 y x = true then layerPaint f 0
         else if getBit f.data 1 y x = true then layerPaint f 1
         else f.flags.val &&& 1) := by
  have hnew : Paletted.new.Pix.length = 256 * 192 := List.length_replicate _ _
  obtain ⟨l1, c1⟩ := paintPass_colorIndexAt (fun _ _ => true) (f.flags.val &&& 1)
    Paletted.new hnew x y hx hy
  obtain ⟨l2, c2⟩ := paintPass_colorIndexAt (fun y x => getBit f.data 1 y x) (layerPaint f 1)
    _ l1 x y hx hy
  obtain ⟨_, c3⟩ := paintPass_colorIndexAt (fun y x => getBit f.data 0 y x) (layerPaint f 0)
    _ l2 x y hx hy
  rw [image_eq_passes, c3, c2, c1]
  simp

set_option maxRecDepth 100000 in
theorem shift_and_three (b : Byte) :
    (b.val >>> 1) &&& 3 = flagBits b.val 1 ∧ (b.val >>> 3) &&& 3 = flagBits b.val 3 := by
  revert b
  decide

/-- C15 (amended): for every flags byte the compositor takes the 2-bit
draw-mode code of layer 0 from the flag bits 1-2 and the code of layer 1 from
the flag bits 3-4; the paint index of a layer is resolved from that code, and
a pixel of the image carries the paint index of layer 0 where layer 0 is set,
else that of layer 1 where layer 1 is set, else the paper index. -/
theorem draw_mode_code_bits (f : Frame) :
    drawModeCode f 0 = flagBits f.flags.val 1
    ∧ drawModeCode f 1 = flagBits f.flags.val 3
    ∧ layerPaint f 0
        = (if flagBits f.flags.val 1 = 1 then (f.flags.val &&& 1) ^^^ 1
           else if flagBits f.flags.val 1 = 0 then f.flags.val &&& 1
           else flagBits f.flags.val 1)
    ∧ layerPaint f 1
        = (if flagBits f.flags.val 3 = 1 then (f.flags.val &&& 1) ^^^ 1
           else if flagBits f.flags.val 3 = 0 then f.flags.val &&& 1
           else flagBits f.flags.val 3)
    ∧ ∀ x y, x < 256 → y < 192 →
        f.Image.ColorIndexAt x y
          = (if getBit f.data 0 y x = true then layerPaint f 0
             else if getBit f.data 1 y x = true then layerPaint f 1
             else f.flags.val &&& 1) := by
  obtain ⟨h0, h1⟩ := shift_and_three f.flags
  have d0 : drawModeCode f 0 = flagBits f.flags.val 1 := h0
  have d1 : drawModeCode f 1 = flagBits f.flags.val 3 := h1
  refine ⟨d0, d1, ?_, ?_, fun x y hx hy => image_colorIndexAt f x y hx hy⟩
  · rw [← d0]; rfl
  · rw [← d1]; rfl

theorem draw_mode_code_bits_witness :
    drawModeCode sampleFrame 0 = flagBits sampleFrame.flags.val 1
    ∧ drawModeCode sampleFrame 1 = flagBits sampleFrame.flags.val 3
    ∧ layerPaint sampleFrame 0
        = (if flagBits sampleFrame.flags.val 1 = 1 then (sampleFrame.flags.val &&& 1) ^^^ 1
           else if flagBits sampleFrame.flags.val 1 = 0 then sampleFrame.flags.val &&& 1
           else flagBits sampleFrame.flags.val 1)
    ∧ layerPaint sampleFrame 1
        = (if flagBits sampleFrame.flags.val 3 = 1 then (sampleFrame.flags.val &&& 1) ^^^ 1
           else if flagBits sampleFrame.flags.val 3 = 0 then sampleFrame.flags.val &&& 1
           else flagBits sampleFrame.flags.val 3)
    ∧ ∀ x y, x < 256 → y < 192 →
        sampleFrame.Image.ColorIndexAt x y
          = (if getBit sampleFrame.data 0 y x = true then layerPaint sampleFrame 0
             else if getBit sampleFrame.data 1 y x = true then layerPaint sampleFrame 1
             else sampleFrame.flags.val &&& 1) :=
  draw_mode_code_bits sampleFrame

set_option maxRecDepth 100000 in
/-- C15 fails as stated: the frame `swapFrame` has the value 1 in the flag
bits 1-2, the value 0 in the flag bits 3-4, paper index 0 and pixel (3, 5)
set in layer 1 only.  The compositor reads the code 0 for layer 1 and the
code 1 for layer 0, and paints the pixel with the paper index 0; with the
code of layer 1 taken from the bits 1-2 the pixel would get the index 1. -/
theorem draw_mode_bits_not_swapped :
    flagBits swapFrame.flags.val 1 = 1 ∧ flagBits swapFrame.flags.val 3 = 0
    ∧ drawModeCode swapFrame 1 = 0 ∧ drawModeCode swapFrame 0 = 1
    ∧ getBit swapFrame.data 1 5 3 = true ∧ getBit swapFrame.data 0 5 3 = false
    ∧ swapFrame.Image.ColorIndexAt 3 5 = 0 := by
  refine ⟨by decide, by decide, by decide, by decide, by decide, by decide, ?_⟩
  rw [image_colorIndexAt swapFrame 3 5 (by decide) (by decide)]
  decide

/-! ## Frame decoder: layer data -/

theorem getBit_eq (d : LayerData) (j k l : Nat) :
    getBit d j k l = (((d[j]?.getD [])[k]?.getD [])[l]?.getD false) := by
  simp [getBit]

theorem dims_layer {d : LayerData} (hd : Dims d) {j : Nat} (hj : j < 2) :
    ∃ layer, d[j]? = some layer ∧ layer.length = 192
      ∧ ∀ k, k < 192 → ∃ line, layer[k]? = some line ∧ line.length = 256 := by
  obtain ⟨h2, hall⟩ := hd
  have hjl : j < d.length := by omega
  refine ⟨d[j], List.getElem?_eq_getElem hjl, (hall _ (List.getElem_mem hjl)).1, ?_⟩
  intro k hk
  have hkl : k < (d[j]).length := by rw [(hall _ (List.getElem_mem hjl)).1]; exact hk
  exact ⟨(d[j])[k], List.getElem?_eq_getElem hkl,
    (hall _ (List.getElem_mem hjl)).2 _ (List.getElem_mem hkl)⟩

theorem dims_setBit {d : LayerData} (hd : Dims d) (j k l : Nat) (v : Bool) :
    Dims (setBit d j k l v) := by
  obtain ⟨h2, hall⟩ := hd
  refine ⟨by simp [setBit, h2], ?_⟩
  intro layer hmem
  unfold setBit at hmem
  rcases List.mem_or_eq_of_mem_set hmem with hmem | rfl
  · exact hall layer hmem
  · by_cases hj : j < d.length
    · have hlayer := hall _ (List.getElem_mem hj)
      have hget : d.getD j [] = d[j] := by simp [List.getD, List.getElem?_eq_getElem hj]
      rw [hget]
      refine ⟨by simp [hlayer.1], ?_⟩
      intro line hline
      rcases List.mem_or_eq_of_mem_set hline with hline | rfl
      · exact hlayer.2 line hline
      · by_cases hk : k < (d[j]).length
        · have hget2 : (d[j]).getD k [] = (d[j])[k] := by
            simp [List.getD, List.getElem?_eq_getElem hk]
          rw [hget2]
          simp [hlayer.2 _ (List.getElem_mem hk)]
        · have hget2 : (d[j]).getD k [] = [] := by
            simp [List.getD, List.getElem?_eq_none (by omega : (d[j]).length ≤ k)]
          rw [hget2] at hline
          rw [List.set_eq_of_length_le (by omega)] at hline
          rw [hget2]
          exact absurd hline (by
            intro h
            have := hlayer.2 _ h
            simp at this)
    · rw [List.set_eq_of_length_le (by omega)] at hmem
      have hget : d.getD j [] = [] := by
        simp [List.getD, List.getElem?_eq_none (by omega : d.length ≤ j)]
      have := (hall _ hmem).1
      rw [hget] at this
      simp at this

theorem getBit_setBit {d : LayerData} (hd : Dims d) {j k l : Nat} (hj : j < 2) (hk : k < 192)
    (hl : l < 256) (v : Bool) (j' k' l' : Nat) :
    getBit (setBit d j k l v) j' k' l'
      = if j' = j ∧ k' = k ∧ l' = l then v else getBit d j' k' l' := by
  obtain ⟨layer, hlayer, hlen, hlines⟩ := dims_layer hd hj
  obtain ⟨line, hline, hlinelen⟩ := hlines k hk
  have hdl : j < d.length := by rw [hd.1]; exact hj
  simp only [getBit_eq, setBit, List.getD_eq_getElem?_getD, hlayer, Option.getD_some, hline,
    List.getElem?_set]
  by_cases h1 : j = j'
  · subst h1
    simp only [hdl, if_true, Option.getD_some, true_and, hlen, hk, hlayer]
    by_cases h2 : k = k'
    · subst h2
      simp only [if_true, Option.getD_some, hlinelen, hl, true_and, hline, List.getElem?_set,
        hlen, hk]
      by_cases h3 : l = l'
      · subst h3; simp
      · simp [h3, Ne.symm h3]
    · simp [h2, Ne.symm h2, List.getElem?_set]
  · simp [h1, Ne.symm h1]

theorem blankData_dims : Dims blankData := by
  refine ⟨rfl, ?_⟩
  intro layer hl
  have h1 : layer = blankLayer := List.eq_of_mem_replicate hl
  subst h1
  refine ⟨List.length_replicate _ _, ?_⟩
  intro line hline
  have h2 : line = blankLine := List.eq_of_mem_replicate hline
  subst h2
  exact List.length_replicate _ _

theorem getBit_blankData (j k l : Nat) : getBit blankData j k l = false := by
  simp only [getBit_eq, blankData, blankLayer, blankLine, List.getElem?_replicate]
  by_cases hj : j < 2
  · rw [if_pos hj, Option.getD_some, List.getElem?_replicate]
    by_cases hk : k < 192
    · rw [if_pos hk, Option.getD_some, List.getElem?_replicate]
      by_cases hl : l < 256
      · rw [if_pos hl]; rfl
      · rw [if_neg hl]; rfl
    · rw [if_neg hk]; rfl
  · rw [if_neg hj]; rfl

/-! ## Frame decoder: loops over one line -/

/-- A loop that rewrites the pixels `p 0, .., p (n-1)` of one line, each from
its own current value. -/
theorem lineLoop_spec {d : LayerData} (hd : Dims d) {j k : Nat} (hj : j < 2) (hk : k < 192)
    (p : Nat → Nat) (g : Nat → Bool → Bool) (n : Nat) (hp : ∀ x, x < n → p x < 256)
    (hinj : ∀ x, x < n → ∀ y, y < n → p x = p y → x = y) :
    Dims (forRange n (fun x d => setBit d j k (p x) (g x (getBit d j k (p x)))) d)
    ∧ (∀ j' k' l', (j' ≠ j ∨ k' ≠ k) →
        getBit (forRange n (fun x d => setBit d j k (p x) (g x (getBit d j k (p x)))) d) j' k' l'
          = getBit d j' k' l')
    ∧ (∀ x, x < n →
        getBit (forRange n (fun x d => setBit d j k (p x) (g x (getBit d j k (p x)))) d) j k (p x)
          = g x (getBit d j k (p x)))
    ∧ (∀ l', (∀ x, x < n → p x ≠ l') →
        getBit (forRange n (fun x d => setBit d j k (p x) (g x (getBit d j k (p x)))) d) j k l'
          = getBit d j k l') := by
  induction n with
  | zero =>
    refine ⟨hd, fun _ _ _ _ => rfl, fun x hx => absurd hx (Nat.not_lt_zero x), fun _ _ => rfl⟩
  | succ m ih =>
    obtain ⟨hdim, hother, hhit, hmiss⟩ :=
      ih (fun x hx => hp x (by omega)) (fun x hx y hy => hinj x (by omega) y (by omega))
    rw [forRange_succ]
    generalize forRange m (fun x d => setBit d j k (p x) (g x (getBit d j k (p x)))) d = r
      at hdim hother hhit hmiss ⊢
    have hpm : p m < 256 := hp m (by omega)
    refine ⟨dims_setBit hdim _ _ _ _, ?_, ?_, ?_⟩
    · intro j' k' l' hne
      rw [getBit_setBit hdim hj hk hpm, if_neg (by tauto), hother j' k' l' hne]
    · intro x hx
      rw [getBit_setBit hdim hj hk hpm]
      by_cases hxm : x = m
      · subst hxm
        rw [if_pos ⟨rfl, rfl, rfl⟩, hmiss (p x)]
        intro y hy hpy
        have := hinj y (by omega) x (by omega) hpy
        omega
      · have hne : p x ≠ p m := fun h => hxm (hinj x (by omega) m (by omega) h)
        rw [if_neg (by tauto), hhit x (by omega)]
    · intro l' hl'
      rw [getBit_setBit hdim hj hk hpm, if_neg, hmiss l' (fun x hx => hl' x (by omega))]
      rintro ⟨_, _, h⟩
      exact hl' m (by omega) h.symm

/-- The same loop with `p` the identity: the first `n` pixels of a line. -/
theorem linePrefix_spec {d : LayerData} (hd : Dims d) {j k : Nat} (hj : j < 2) (hk : k < 192)
    (g : Nat → Bool → Bool) (n : Nat) (hn : n ≤ 256) :
    Dims (forRange n (fun x d => setBit d j k x (g x (getBit d j k x))) d)
    ∧ ∀ j' k' l',
        getBit (forRange n (fun x d => setBit d j k x (g x (getBit d j k x))) d) j' k' l'
          = if j' = j ∧ k' = k ∧ l' < n then g l' (getBit d j k l') else getBit d j' k' l' := by
  obtain ⟨hdim, hother, hhit, hmiss⟩ :=
    lineLoop_spec hd hj hk (fun x => x) g n (fun x hx => by show x < 256; omega)
      (fun x _ y _ h => h)
  refine ⟨hdim, ?_⟩
  intro j' k' l'
  by_cases hc : j' = j ∧ k' = k ∧ l' < n
  · obtain ⟨rfl, rfl, hl⟩ := hc
    rw [if_pos ⟨rfl, rfl, hl⟩]
    exact hhit l' hl
  · rw [if_neg hc]
    by_cases hjk : j' ≠ j ∨ k' ≠ k
    · exact hother j' k' l' hjk
    · have hj' : j' = j := by tauto
      have hk' : k' = k := by tauto
      subst hj' hk'
      exact hmiss l' (fun x hx hxl => hc ⟨rfl, rfl, by omega⟩)

/-! ## Frame decoder: raw lines (mode 3) -/

theorem and_shift_testBit (b l : Nat) :
    (b &&& ((1 <<< (l &&& 7)) % 256) != 0) = b.testBit (l % 8) := by
  have h7 : l &&& 7 = l % 8 := Nat.and_pow_two_sub_one_eq_mod l 3
  have hlt : l % 8 < 8 := Nat.mod_lt _ (by norm_num)
  rw [h7, Nat.shiftLeft_eq, one_mul]
  have hpow : 2 ^ (l % 8) < 256 := by
    calc 2 ^ (l % 8) < 2 ^ 8 := Nat.pow_lt_pow_right (by norm_num) hlt
      _ = 256 := by norm_num
  rw [Nat.mod_eq_of_lt hpow, Nat.and_two_pow]
  cases h : b.testBit (l % 8)
  · simp
  · have : 2 ^ (l % 8) ≠ 0 := by positivity
    simp [this]

theorem getElem?_getD_of_lt (frameData : List Byte) (n : Nat) (h : n < frameData.length) :
    frameData[n]? = some (frameData.getD n 0) := by
  simp [List.getD, List.getElem?_eq_getElem h]

theorem rawLine_spec (frameData : List Byte) {d : LayerData} (hd : Dims d) {j k : Nat}
    (hj : j < 2) (hk : k < 192) (i : Nat) (hlen : i + 32 ≤ frameData.length) :
    ∃ d', rawLine frameData j k d i = some (d', i + 32) ∧ Dims d'
      ∧ ∀ j' k' l', getBit d' j' k' l'
          = if j' = j ∧ k' = k ∧ l' < 256 then
              xor (getBit d j k l') ((frameData.getD (i + l' / 8) 0).val.testBit (l' % 8))
            else getBit d j' k' l' := by
  have hbody : ∀ x, x < 256 → ∀ s : LayerData,
      rawStep frameData j k i x s
      = some (setBit s j k x
          ((fun l old => xor old ((frameData.getD (i + l / 8) 0).val.testBit (l % 8))) x
            (getBit s j k x))) := by
    intro x hx s
    have h3 : x >>> 3 = x / 8 := Nat.shiftRight_eq_div_pow x 3
    have hlt : i + x / 8 < frameData.length := by omega
    unfold rawStep
    rw [h3, getElem?_getD_of_lt frameData _ hlt]
    simp only [and_shift_testBit, Bool.bne_eq_xor]
  obtain ⟨hdim, hget⟩ := linePrefix_spec hd hj hk
    (fun l old => xor old ((frameData.getD (i + l / 8) 0).val.testBit (l % 8))) 256 (le_refl _)
  refine ⟨_, ?_, hdim, hget⟩
  unfold rawLine
  rw [forRangeM_eq_some 256 _ _ hbody]

theorem rawLine_needs_bytes (frameData : List Byte) (j k : Nat) (d : LayerData) (i : Nat)
    (r : LayerData × Nat) (h : rawLine frameData j k d i = some r) :
    i + 32 ≤ frameData.length := by
  unfold rawLine at h
  rw [forRangeM_succ] at h
  cases hloop : forRangeM 255 (rawStep frameData j k i) d with
  | none => rw [hloop] at h; simp at h
  | some s =>
    rw [hloop, Option.some_bind] at h
    have h31 : (255 : Nat) >>> 3 = 31 := by decide
    unfold rawStep at h
    rw [h31] at h
    cases hb : frameData[i + 31]? with
    | none => rw [hb] at h; simp at h
    | some b =>
      have := (List.getElem?_eq_some_iff.mp hb).1
      omega

/-! ## Frame decoder: coded lines (modes 1 and 2) -/

theorem mask_msb (m n : Nat) (hn : n < 32) :
    (((m * 2 ^ n) % 4294967296) &&& 0x80000000 ≠ 0) ↔ m.testBit (31 - n) = true := by
  have h31 : (0x80000000 : Nat) = 2 ^ 31 := by norm_num
  have h32 : (4294967296 : Nat) = 2 ^ 32 := by norm_num
  rw [h31, h32, Nat.and_two_pow, Nat.testBit_mod_two_pow, Nat.mul_comm m (2 ^ n),
    Nat.testBit_mul_pow_two]
  have hge : 31 ≥ n := by omega
  cases h : m.testBit (31 - n) <;> simp [hge]

theorem mask_shift (a : Nat) :
    ((a % 4294967296) <<< 1) % 4294967296 = (a * 2) % 4294967296 := by
  rw [Nat.shiftLeft_eq]
  omega

theorem shift_and_one_eq_one (b x : Nat) : (((b >>> x) &&& 1) == 1) = b.testBit x := by
  rw [Nat.and_one_is_mod, Nat.shiftRight_eq_div_pow, Nat.testBit_to_div_mod]
  by_cases h : b / 2 ^ x % 2 = 1 <;> simp [h]

theorem shift_and_one_eq_zero (b x : Nat) : (((b >>> x) &&& 1) == 0) = !b.testBit x := by
  rw [Nat.and_one_is_mod, Nat.shiftRight_eq_div_pow, Nat.testBit_to_div_mod]
  by_cases h : b / 2 ^ x % 2 = 1
  · simp [h]
  · have : b / 2 ^ x % 2 = 0 := by omega
    simp [this]

theorem maskCount_le (m n : Nat) : maskCount m n ≤ n := by
  induction n with
  | zero => exact le_refl _
  | succ k ih => unfold maskCount; split_ifs <;> omega

theorem maskCount_mono (m : Nat) {a b : Nat} (h : a ≤ b) : maskCount m a ≤ maskCount m b := by
  induction b with
  | zero => have : a = 0 := by omega
            subst this; exact le_refl _
  | succ k ih =>
    by_cases hk : a = k + 1
    · subst hk; exact le_refl _
    · have := ih (by omega)
      have hs : maskCount m (k + 1)
          = maskCount m k + (if m.testBit (31 - k) then 1 else 0) := rfl
      omega

theorem writeBit_nat (d : LayerData) {j k l : Nat} (hj : j < 2) (hk : k < 192) (hl : l < 256)
    (v : Bool) : writeBit d j (k : Int) (l : Int) v = some (setBit d j k l v) := by
  unfold writeBit
  rw [if_pos ⟨hj, by omega, by omega, by omega, by omega⟩]
  simp

theorem toggleGroup_spec {d : LayerData} (hd : Dims d) {j k : Nat} (hj : j < 2) (hk : k < 192)
    (n : Nat) (hn : n < 32) (b t : Nat) :
    ∃ d', toggleGroup j k (8 * n) b t d = some d' ∧ Dims d'
      ∧ ∀ j' k' l', getBit d' j' k' l'
        = if j' = j ∧ k' = k ∧ l' / 8 = n then
            (getBit d j k l' != (((b >>> (l' % 8)) &&& 1) == t))
          else getBit d j' k' l' := by
  obtain ⟨hdim, hother, hhit, hmiss⟩ := lineLoop_spec hd hj hk (fun x => 8 * n + x)
    (fun x old => old != (((b >>> x) &&& 1) == t)) 8
    (fun x hx => by show 8 * n + x < 256; omega)
    (fun x _ y _ h => by
      have h' : 8 * n + x = 8 * n + y := h
      omega)
  refine ⟨_, ?_, hdim, ?_⟩
  · unfold toggleGroup
    exact forRangeM_eq_some 8 _
      (fun x d => setBit d j k (8 * n + x)
        (getBit d j k (8 * n + x) != (((b >>> x) &&& 1) == t)))
      (fun x hx s => writeBit_nat s hj hk (by omega) _) d
  intro j' k' l'
  by_cases hc : j' = j ∧ k' = k ∧ l' / 8 = n
  · obtain ⟨rfl, rfl, hl⟩ := hc
    rw [if_pos ⟨rfl, rfl, hl⟩]
    have hl' : l' = 8 * n + l' % 8 := by omega
    have := hhit (l' % 8) (Nat.mod_lt _ (by norm_num))
    simp only at this
    rw [← hl'] at this
    exact this
  · rw [if_neg hc]
    by_cases hjk : j' ≠ j ∨ k' ≠ k
    · exact hother j' k' l' hjk
    · have hj' : j' = j := by tauto
      have hk' : k' = k := by tauto
      subst hj' hk'
      refine hmiss l' (fun x hx hxl => hc ⟨rfl, rfl, ?_⟩)
      have hxl' : 8 * n + x = l' := hxl
      omega

theorem groupLoop_spec (frameData : List Byte) {d : LayerData} (hd : Dims d) {j k : Nat}
    (hj : j < 2) (hk : k < 192) (i0 m t : Nat) (hm : m < 4294967296) (n : Nat) (hn : n ≤ 32)
    (hlen : i0 + maskCount m n ≤ frameData.length) :
    ∃ s, forRangeM n (fun _ => groupStep frameData j k t)
          { d := d, i := i0, ldPos := 0, layerUsedBytes := m } = some s
      ∧ s.i = i0 + maskCount m n ∧ s.ldPos = 8 * n
      ∧ s.layerUsedBytes = (m * 2 ^ n) % 4294967296
      ∧ Dims s.d
      ∧ ∀ j' k' l', getBit s.d j' k' l'
          = if j' = j ∧ k' = k ∧ l' / 8 < n then groupToggle frameData i0 m t l' (getBit d j k l')
            else getBit d j' k' l' := by
  induction n with
  | zero =>
    refine ⟨_, rfl, rfl, rfl, ?_, hd, ?_⟩
    · show m = (m * 2 ^ 0) % 4294967296
      rw [pow_zero, mul_one, Nat.mod_eq_of_lt hm]
    · intro j' k' l'
      rw [if_neg]
      omega
  | succ q ih =>
    have hq : q < 32 := by omega
    have hs : maskCount m (q + 1)
        = maskCount m q + (if m.testBit (31 - q) then 1 else 0) := rfl
    obtain ⟨s, hrun, hi, hpos, hmask, hdim, hget⟩ := ih (by omega) (by omega)
    rw [forRangeM_succ, hrun, Option.some_bind]
    have hmask' : (s.layerUsedBytes <<< 1) % 4294967296 = (m * 2 ^ (q + 1)) % 4294967296 := by
      rw [hmask, mask_shift, pow_succ, Nat.mul_assoc]
    by_cases hbit : m.testBit (31 - q) = true
    · have hmsb : s.layerUsedBytes &&& 0x80000000 ≠ 0 := by
        rw [hmask]; exact (mask_msb m q hq).mpr hbit
      rw [hs, if_pos hbit] at hlen ⊢
      have hrd : frameData[s.i]? = some (frameData.getD (i0 + maskCount m q) 0) := by
        rw [hi]; exact getElem?_getD_of_lt frameData _ (by omega)
      obtain ⟨td, trun, tdim, tget⟩ := toggleGroup_spec hdim hj hk q hq
        (frameData.getD (i0 + maskCount m q) 0).val t
      have hstep : groupStep frameData j k t s
          = some { d := td
                   i := s.i + 1
                   ldPos := s.ldPos + 8
                   layerUsedBytes := (s.layerUsedBytes <<< 1) % 4294967296 } := by
        simp only [groupStep, if_pos hmsb, hrd, hpos, trun]
      refine ⟨_, hstep, ?_, ?_, ?_, ?_, ?_⟩
      · simp only [hi]; omega
      · simp only [hpos]; omega
      · exact hmask'
      · exact tdim
      · intro j' k' l'
        show getBit td j' k' l' = _
        rw [tget j' k' l', hget j' k' l']
        by_cases hc : j' = j ∧ k' = k ∧ l' / 8 = q
        · obtain ⟨rfl, rfl, hl⟩ := hc
          rw [if_pos ⟨rfl, rfl, hl⟩, if_pos ⟨rfl, rfl, by omega⟩, hget, if_neg (by omega)]
          unfold groupToggle
          rw [hl, if_pos hbit]
        · rw [if_neg hc]
          by_cases hc2 : j' = j ∧ k' = k ∧ l' / 8 < q
          · rw [if_pos hc2, if_pos ⟨hc2.1, hc2.2.1, by omega⟩]
          · rw [if_neg hc2, if_neg]
            rintro ⟨h1, h2, h3⟩
            by_cases h4 : l' / 8 = q
            · exact hc ⟨h1, h2, h4⟩
            · exact hc2 ⟨h1, h2, by omega⟩
    · have hmsb : ¬ (s.layerUsedBytes &&& 0x80000000 ≠ 0) := by
        rw [hmask]; exact fun h => hbit ((mask_msb m q hq).mp h)
      rw [hs, if_neg hbit] at hlen ⊢
      have hstep : groupStep frameData j k t s
          = some { s with ldPos := s.ldPos + 8
                          layerUsedBytes := (s.layerUsedBytes <<< 1) % 4294967296 } := by
        simp only [groupStep, if_neg hmsb]
      refine ⟨_, hstep, ?_, ?_, ?_, ?_, ?_⟩
      · simp only [hi]; omega
      · simp only [hpos]; omega
      · exact hmask'
      · exact hdim
      · intro j' k' l'
        show getBit s.d j' k' l' = _
        rw [hget j' k' l']
        by_cases hc2 : j' = j ∧ k' = k ∧ l' / 8 < q
        · rw [if_pos hc2, if_pos ⟨hc2.1, hc2.2.1, by omega⟩]
        · rw [if_neg hc2]
          by_cases hc : j' = j ∧ k' = k ∧ l' / 8 = q
          · obtain ⟨rfl, rfl, hl⟩ := hc
            rw [if_pos ⟨rfl, rfl, by omega⟩]
            unfold groupToggle
            rw [hl, if_neg hbit]
          · rw [if_neg]
            rintro ⟨h1, h2, h3⟩
            by_cases h4 : l' / 8 = q
            · exact hc ⟨h1, h2, h4⟩
            · exact hc2 ⟨h1, h2, by omega⟩

theorem maskCount_eq_countP (m n : Nat) :
    maskCount m n = (List.range n).countP (fun g => m.testBit (31 - g)) := by
  induction n with
  | zero => rfl
  | succ q ih =>
    rw [List.range_succ, List.countP_append, ← ih]
    show maskCount m q + _ = _
    congr 1
    by_cases h : m.testBit (31 - q) = true <;> simp [List.countP_cons, h]

set_option maxRecDepth 100000 in
theorem range32_reverse_perm : ((List.range 32).map (fun g => 31 - g)).Perm (List.range 32) := by
  decide

theorem maskCount_32 (m : Nat) : maskCount m 32 = popCount32 m := by
  rw [maskCount_eq_countP, popCount32]
  have h := List.Perm.countP_eq (fun b => m.testBit b) range32_reverse_perm
  rw [List.countP_map] at h
  exact h

theorem popCount32_le (m : Nat) : popCount32 m ≤ 32 := by
  rw [← maskCount_32]; exact maskCount_le m 32

theorem beUint32_lt (b : List Byte) (off m : Nat) (h : beUint32 b off = some m) :
    m < 4294967296 ∧ off + 4 ≤ b.length := by
  unfold beUint32 at h
  cases h0 : b[off]? with
  | none => simp [h0] at h
  | some b0 =>
  cases h1 : b[off + 1]? with
  | none => simp [h0, h1] at h
  | some b1 =>
  cases h2 : b[off + 2]? with
  | none => simp [h0, h1, h2] at h
  | some b2 =>
  cases h3 : b[off + 3]? with
  | none => simp [h0, h1, h2, h3] at h
  | some b3 =>
    simp only [h0, h1, h2, h3, Option.bind_eq_bind, Option.some_bind, Option.pure_def,
      Option.some.injEq] at h
    have l3 := (List.getElem?_eq_some_iff.mp h3).1
    have := b0.isLt; have := b1.isLt; have := b2.isLt; have := b3.isLt
    constructor <;> omega

theorem invertLine_spec {d : LayerData} (hd : Dims d) {j k : Nat} (hj : j < 2) (hk : k < 192) :
    Dims (invertLine j k d)
    ∧ ∀ j' k' l', getBit (invertLine j k d) j' k' l'
        = if j' = j ∧ k' = k ∧ l' < 256 then !getBit d j k l' else getBit d j' k' l' :=
  linePrefix_spec hd hj hk (fun _ old => !old) 256 (le_refl _)

theorem codedLine_spec (frameData : List Byte) {d : LayerData} (hd : Dims d) {j k : Nat}
    (hj : j < 2) (hk : k < 192) (mode i m : Nat) (hm : beUint32 frameData i = some m)
    (hlen : i + 4 + popCount32 m ≤ frameData.length) :
    ∃ d', codedLine frameData j k mode d i = some (d', i + 4 + popCount32 m) ∧ Dims d'
      ∧ ∀ j' k' l', getBit d' j' k' l'
          = if j' = j ∧ k' = k ∧ l' < 256 then codedPixel frameData i m mode l' (getBit d j k l')
            else getBit d j' k' l' := by
  obtain ⟨hmlt, _⟩ := beUint32_lt _ _ _ hm
  obtain ⟨s, hrun, hi, _, _, hdim, hget⟩ := groupLoop_spec frameData hd hj hk (i + 4) m
    (if mode = 2 then 0 else 1) hmlt 32 (le_refl _) (by rw [maskCount_32]; exact hlen)
  rw [maskCount_32] at hi
  have h256 : ∀ l', l' / 8 < 32 ↔ l' < 256 := fun l' => by omega
  by_cases hmode : mode = 2
  · rw [if_pos hmode] at hrun hget
    obtain ⟨idim, iget⟩ := invertLine_spec hdim hj hk
    refine ⟨invertLine j k s.d, ?_, idim, ?_⟩
    · simp only [codedLine, hm, if_pos hmode, hrun, hi]
    · intro j' k' l'
      rw [iget]
      by_cases hc : j' = j ∧ k' = k ∧ l' < 256
      · rw [if_pos hc, if_pos hc, hget, if_pos ⟨rfl, rfl, (h256 l').mpr hc.2.2⟩, codedPixel,
          if_pos hmode]
      · rw [if_neg hc, if_neg hc, hget, if_neg (fun h => hc ⟨h.1, h.2.1, (h256 l').mp h.2.2⟩)]
  · rw [if_neg hmode] at hrun hget
    refine ⟨s.d, ?_, hdim, ?_⟩
    · simp only [codedLine, hm, if_neg hmode, hrun, hi]
    · intro j' k' l'
      rw [hget]
      by_cases hc : j' = j ∧ k' = k ∧ l' < 256
      · rw [if_pos hc, if_pos ⟨hc.1, hc.2.1, (h256 l').mpr hc.2.2⟩, codedPixel, if_neg hmode]
      · rw [if_neg hc, if_neg (fun h => hc ⟨h.1, h.2.1, (h256 l').mp h.2.2⟩)]

theorem groupLoop_needs_bytes (frameData : List Byte) {d : LayerData} (hd : Dims d) {j k : Nat}
    (hj : j < 2) (hk : k < 192) (i0 m t : Nat) (hm : m < 4294967296) (n : Nat) (hn : n ≤ 32)
    (hi0 : i0 ≤ frameData.length) (r : GroupState)
    (h : forRangeM n (fun _ => groupStep frameData j k t)
          { d := d, i := i0, ldPos := 0, layerUsedBytes := m } = some r) :
    i0 + maskCount m n ≤ frameData.length := by
  induction n generalizing r with
  | zero =>
    exact hi0
  | succ q ih =>
    rw [forRangeM_succ] at h
    cases hq : forRangeM q (fun _ => groupStep frameData j k t)
        { d := d, i := i0, ldPos := 0, layerUsedBytes := m } with
    | none => rw [hq] at h; simp at h
    | some s =>
      have hlen := ih (by omega) s hq
      obtain ⟨s', hrun, hi, _, hmask, _, _⟩ :=
        groupLoop_spec frameData hd hj hk i0 m t hm q (by omega) hlen
      have hss : s' = s := Option.some.inj (hrun.symm.trans hq)
      subst hss
      rw [hq, Option.some_bind] at h
      have hs : maskCount m (q + 1)
          = maskCount m q + (if m.testBit (31 - q) then 1 else 0) := rfl
      rw [hs]
      by_cases hbit : m.testBit (31 - q) = true
      · rw [if_pos hbit]
        have hmsb : s'.layerUsedBytes &&& 0x80000000 ≠ 0 := by
          rw [hmask]; exact (mask_msb m q (by omega)).mpr hbit
        unfold groupStep at h
        rw [if_pos hmsb] at h
        cases hb : frameData[s'.i]? with
        | none => rw [hb] at h; simp at h
        | some b =>
          have := (List.getElem?_eq_some_iff.mp hb).1
          omega
      · rw [if_neg hbit]; omega

theorem codedLine_needs_bytes (frameData : List Byte) {d : LayerData} (hd : Dims d) {j k : Nat}
    (hj : j < 2) (hk : k < 192) (mode i : Nat) (r : LayerData × Nat)
    (h : codedLine frameData j k mode d i = some r) :
    ∃ m, beUint32 frameData i = some m ∧ i + 4 + popCount32 m ≤ frameData.length := by
  unfold codedLine at h
  cases hm : beUint32 frameData i with
  | none => rw [hm] at h; simp at h
  | some m =>
    obtain ⟨hmlt, hi4⟩ := beUint32_lt _ _ _ hm
    refine ⟨m, rfl, ?_⟩
    rw [hm] at h
    simp only at h
    cases hrun : forRangeM 32 (fun _ => groupStep frameData j k (if mode = 2 then 0 else 1))
        { d := d, i := i + 4, ldPos := 0, layerUsedBytes := m } with
    | none => rw [hrun] at h; simp at h
    | some s =>
      have := groupLoop_needs_bytes frameData hd hj hk (i + 4) m _ hmlt 32 (le_refl _) hi4 s hrun
      rw [maskCount_32] at this
      exact this

theorem lineDecodeMode_lt (frameData : List Byte) (iBase j k mode : Nat)
    (h : lineDecodeMode frameData iBase j k = some mode) : mode < 4 := by
  unfold lineDecodeMode at h
  cases hb : frameData[iBase + j * 48 + (k >>> 2)]? with
  | none => rw [hb] at h; simp at h
  | some b =>
    rw [hb] at h
    have := Option.some.inj h
    rw [← this]
    exact Nat.and_lt_two_pow _ (by norm_num : (3 : Nat) < 2 ^ 2)

theorem decodeLine_mode0 (frameData : List Byte) (iBase j k : Nat) (s : LayerData × Nat)
    (h : lineDecodeMode frameData iBase j k = some 0) :
    decodeLine frameData iBase j k s = some s := by
  simp [decodeLine, h]

theorem decodeLine_coded (frameData : List Byte) (iBase j k mode : Nat) (s : LayerData × Nat)
    (h : lineDecodeMode frameData iBase j k = some mode) (hmode : mode = 1 ∨ mode = 2) :
    decodeLine frameData iBase j k s = codedLine frameData j k mode s.1 s.2 := by
  have h0 : mode ≠ 0 := by omega
  simp [decodeLine, h, h0, hmode]

theorem decodeLine_raw (frameData : List Byte) (iBase j k : Nat) (s : LayerData × Nat)
    (h : lineDecodeMode frameData iBase j k = some 3) :
    decodeLine frameData iBase j k s = rawLine frameData j k s.1 s.2 := by
  simp [decodeLine, h]

/-- What one line step leaves alone: the shape of the data and every pixel of
every other line. -/
theorem decodeLine_frame (frameData : List Byte) (iBase : Nat) {j k : Nat} (hj : j < 2)
    (hk : k < 192) {d : LayerData} (hd : Dims d) (i : Nat) (r : LayerData × Nat)
    (h : decodeLine frameData iBase j k (d, i) = some r) :
    Dims r.1 ∧ ∀ j' k' l', (j' ≠ j ∨ k' ≠ k) → getBit r.1 j' k' l' = getBit d j' k' l' := by
  cases hmode : lineDecodeMode frameData iBase j k with
  | none => simp [decodeLine, hmode] at h
  | some mode =>
    have hlt := lineDecodeMode_lt _ _ _ _ _ hmode
    have hcases : mode = 0 ∨ (mode = 1 ∨ mode = 2) ∨ mode = 3 := by omega
    rcases hcases with h0 | h12 | h3
    · subst h0
      rw [decodeLine_mode0 _ _ _ _ _ hmode] at h
      rw [← Option.some.inj h]
      exact ⟨hd, fun _ _ _ _ => rfl⟩
    · rw [decodeLine_coded _ _ _ _ _ _ hmode h12] at h
      obtain ⟨m, hm, hlen⟩ := codedLine_needs_bytes frameData hd hj hk mode i r h
      obtain ⟨d', hrun, hdim, hget⟩ := codedLine_spec frameData hd hj hk mode i m hm hlen
      have hr : r = (d', i + 4 + popCount32 m) := Option.some.inj (h.symm.trans hrun)
      subst hr
      refine ⟨hdim, fun j' k' l' hne => ?_⟩
      rw [hget, if_neg (by tauto)]
    · subst h3
      rw [decodeLine_raw _ _ _ _ _ hmode] at h
      have hlen := rawLine_needs_bytes frameData j k d i r h
      obtain ⟨d', hrun, hdim, hget⟩ := rawLine_spec frameData hd hj hk i hlen
      have hr : r = (d', i + 32) := Option.some.inj (h.symm.trans hrun)
      subst hr
      refine ⟨hdim, fun j' k' l' hne => ?_⟩
      rw [hget, if_neg (by tauto)]

/-! ## Frame decoder: the line edits of a frame -/

theorem decodeLayer_frame (frameData : List Byte) (iBase : Nat) {j : Nat} (hj : j < 2)
    {d : LayerData} (hd : Dims d) (i : Nat) (r : LayerData × Nat)
    (h : decodeLayer frameData iBase j (d, i) = some r) :
    Dims r.1
    ∧ (∀ j' k' l', j' ≠ j → getBit r.1 j' k' l' = getBit d j' k' l')
    ∧ (∀ k' l', lineDecodeMode frameData iBase j k' = some 0 →
        getBit r.1 j k' l' = getBit d j k' l') := by
  have key := forRangeM_induct
    (fun x (s : LayerData × Nat) => Dims s.1
      ∧ (∀ j' k' l', j' ≠ j → getBit s.1 j' k' l' = getBit d j' k' l')
      ∧ (∀ k' l', (x ≤ k' ∨ lineDecodeMode frameData iBase j k' = some 0) →
          getBit s.1 j k' l' = getBit d j k' l'))
    192 (decodeLine frameData iBase j) (d, i)
    ⟨hd, fun _ _ _ _ => rfl, fun _ _ _ => rfl⟩
    (by
      rintro x hx ⟨ad, ai⟩ b ⟨adim, aother, aline⟩ hb
      obtain ⟨bdim, bsame⟩ := decodeLine_frame frameData iBase hj hx adim ai b hb
      refine ⟨bdim, ?_, ?_⟩
      · intro j' k' l' hne
        rw [bsame j' k' l' (Or.inl hne)]
        exact aother j' k' l' hne
      · intro k' l' hk'
        by_cases hkx : k' = x
        · subst hkx
          have hmode : lineDecodeMode frameData iBase j k' = some 0 := by
            rcases hk' with h1 | h1
            · omega
            · exact h1
          rw [decodeLine_mode0 _ _ _ _ _ hmode] at hb
          rw [← Option.some.inj hb]
          exact aline k' l' (Or.inl (le_refl _))
        · rw [bsame j k' l' (Or.inr hkx)]
          refine aline k' l' ?_
          rcases hk' with h1 | h1
          · exact Or.inl (by omega)
          · exact Or.inr h1)
    r h
  exact ⟨key.1, key.2.1, fun k' l' hm => key.2.2 k' l' (Or.inr hm)⟩

theorem decodeLines_frame (frameData : List Byte) (iBase : Nat) {d : LayerData} (hd : Dims d)
    (r : LayerData × Nat) (h : decodeLines frameData iBase d = some r) :
    Dims r.1
    ∧ ∀ j k l, lineDecodeMode frameData iBase j k = some 0 →
        getBit r.1 j k l = getBit d j k l := by
  have key := forRangeM_induct
    (fun x (s : LayerData × Nat) => Dims s.1
      ∧ ∀ j k l, (x ≤ j ∨ lineDecodeMode frameData iBase j k = some 0) →
          getBit s.1 j k l = getBit d j k l)
    2 (decodeLayer frameData iBase) (d, iBase + 96)
    ⟨hd, fun _ _ _ _ => rfl⟩
    (by
      rintro x hx ⟨ad, ai⟩ b ⟨adim, asame⟩ hb
      obtain ⟨bdim, bother, bline⟩ := decodeLayer_frame frameData iBase hx adim ai b hb
      refine ⟨bdim, ?_⟩
      intro j k l hjk
      by_cases hjx : j = x
      · subst hjx
        have hmode : lineDecodeMode frameData iBase j k = some 0 := by
          rcases hjk with h1 | h1
          · omega
          · exact h1
        rw [bline k l hmode]
        exact asame j k l (Or.inr hmode)
      · rw [bother j k l hjx]
        refine asame j k l ?_
        rcases hjk with h1 | h1
        · exact Or.inl (by omega)
        · exact Or.inr h1)
    r h
  exact ⟨key.1, fun j k l hm => key.2 j k l (Or.inr hm)⟩

theorem decodeLines_all_mode0 (frameData : List Byte) (iBase : Nat) (d : LayerData)
    (h : ∀ j, j < 2 → ∀ k, k < 192 → lineDecodeMode frameData iBase j k = some 0) :
    decodeLines frameData iBase d = some (d, iBase + 96) := by
  have hlayer : ∀ j, j < 2 → ∀ s, decodeLayer frameData iBase j s = some ((fun _ s => s) j s) := by
    intro j hj s
    unfold decodeLayer
    rw [forRangeM_eq_some 192 _ (fun _ s => s)
      (fun k hk s => decodeLine_mode0 _ _ _ _ s (h j hj k hk))]
    have hid : ∀ n, forRange n (fun _ (s : LayerData × Nat) => s) s = s := by
      intro n
      induction n with
      | zero => rfl
      | succ q ih => rw [forRange_succ]; exact ih
    rw [hid]
  unfold decodeLines
  rw [forRangeM_eq_some 2 _ (fun _ s => s) hlayer]
  rfl

/-! ## Frame decoder: the translated copy of the previous frame -/

/-- A loop whose iteration `x` overwrites a region `C x` of the layers with
values `V x` that do not depend on the layers, the regions of different
iterations being disjoint (`sel` names the iteration that owns a position). -/
theorem regionLoop_spec (F : Nat → LayerData → LayerData)
    (C : Nat → Nat → Nat → Nat → Prop) [∀ x j y l, Decidable (C x j y l)]
    (V : Nat → Nat → Nat → Nat → Bool) (sel : Nat → Nat → Nat → Nat) (n : Nat)
    (hF : ∀ x, x < n → ∀ d, Dims d → Dims (F x d)
      ∧ ∀ j y l, getBit (F x d) j y l = if C x j y l then V x j y l else getBit d j y l)
    (hsel : ∀ x j y l, C x j y l → x = sel j y l) (d : LayerData) (hd : Dims d) :
    Dims (forRange n F d)
    ∧ ∀ j y l, getBit (forRange n F d) j y l
        = if sel j y l < n ∧ C (sel j y l) j y l then V (sel j y l) j y l
          else getBit d j y l := by
  induction n with
  | zero =>
    refine ⟨hd, fun j y l => ?_⟩
    rw [forRange_zero, if_neg]
    omega
  | succ q ih =>
    obtain ⟨hdim, hget⟩ := ih (fun x hx => hF x (by omega))
    rw [forRange_succ]
    obtain ⟨fdim, fget⟩ := hF q (by omega) _ hdim
    refine ⟨fdim, fun j y l => ?_⟩
    rw [fget, hget]
    by_cases hc : C q j y l
    · have hq := hsel q j y l hc
      rw [if_pos hc, ← hq, if_pos ⟨by omega, hc⟩]
    · rw [if_neg hc]
      by_cases hc2 : sel j y l < q ∧ C (sel j y l) j y l
      · rw [if_pos hc2, if_pos ⟨by omega, hc2.2⟩]
      · rw [if_neg hc2, if_neg]
        rintro ⟨h1, h2⟩
        by_cases h3 : sel j y l = q
        · rw [h3] at h2; exact hc h2
        · exact hc2 ⟨by omega, h2⟩

theorem copyBit_eq (prev : LayerData) (offsetX offsetY : Int) {j : Nat} (hj : j < 2)
    (k l : Nat) (d : LayerData) :
    copyBit prev offsetX offsetY j k l d
      = some (if (k : Int) + offsetY ≥ 0 ∧ (k : Int) + offsetY < 192
            ∧ (l : Int) + offsetX ≥ 0 ∧ (l : Int) + offsetX < 256 then
          setBit d j ((k : Int) + offsetY).toNat ((l : Int) + offsetX).toNat (getBit prev j k l)
        else d) := by
  unfold copyBit
  by_cases hg : (k : Int) + offsetY ≥ 0 ∧ (k : Int) + offsetY < 192
      ∧ (l : Int) + offsetX ≥ 0 ∧ (l : Int) + offsetX < 256
  · rw [if_pos hg, if_pos hg, writeBit, if_pos ⟨hj, hg.1, hg.2.1, hg.2.2.1, hg.2.2.2⟩]
  · rw [if_neg hg, if_neg hg]

/-- No write of the translated copy is out of bounds: the copy never panics. -/
theorem copyPrev_eq_pure (prev : LayerData) (offsetX offsetY : Int) (d : LayerData) :
    copyPrev prev offsetX offsetY d = some (copyPrevPure prev offsetX offsetY d) := by
  unfold copyPrev copyPrevPure
  refine forRangeM_eq_some 2 _ _ (fun j hj s => ?_) d
  refine forRangeM_eq_some 192 _ _ (fun k _ s => ?_) s
  exact forRangeM_eq_some 256 _ _ (fun l _ s => copyBit_eq prev offsetX offsetY hj k l s) s

theorem copyPrevPure_spec (prev : LayerData) (offsetX offsetY : Int) {d : LayerData}
    (hd : Dims d) :
    Dims (copyPrevPure prev offsetX offsetY d)
    ∧ ∀ j y x, j < 2 → y < 192 → x < 256 →
        getBit (copyPrevPure prev offsetX offsetY d) j y x
          = if 0 ≤ (y : Int) - offsetY ∧ (y : Int) - offsetY < 192
                ∧ 0 ≤ (x : Int) - offsetX ∧ (x : Int) - offsetX < 256 then
              getBit prev j ((y : Int) - offsetY).toNat ((x : Int) - offsetX).toNat
            else getBit d j y x := by
  -- the loop over `l`, for fixed `j` and `k`
  have inner : ∀ j : Nat, j < 2 → ∀ k : Nat, k < 192 → ∀ d : LayerData, Dims d →
      Dims (forRange 256 (fun (l : Nat) d =>
        if (k : Int) + offsetY ≥ 0 ∧ (k : Int) + offsetY < 192
            ∧ (l : Int) + offsetX ≥ 0 ∧ (l : Int) + offsetX < 256 then
          setBit d j ((k : Int) + offsetY).toNat ((l : Int) + offsetX).toNat (getBit prev j k l)
        else d) d)
      ∧ ∀ j' y x, getBit (forRange 256 (fun (l : Nat) d =>
        if (k : Int) + offsetY ≥ 0 ∧ (k : Int) + offsetY < 192
            ∧ (l : Int) + offsetX ≥ 0 ∧ (l : Int) + offsetX < 256 then
          setBit d j ((k : Int) + offsetY).toNat ((l : Int) + offsetX).toNat (getBit prev j k l)
        else d) d) j' y x
        = if j' = j ∧ (y : Int) = k + offsetY ∧ y < 192 ∧ x < 256
              ∧ 0 ≤ (x : Int) - offsetX ∧ (x : Int) - offsetX < 256 then
            getBit prev j k ((x : Int) - offsetX).toNat
          else getBit d j' y x := by
    intro j hj k hk d hd
    obtain ⟨rdim, rget⟩ := regionLoop_spec
      (fun (l : Nat) d =>
        if (k : Int) + offsetY ≥ 0 ∧ (k : Int) + offsetY < 192
            ∧ (l : Int) + offsetX ≥ 0 ∧ (l : Int) + offsetX < 256 then
          setBit d j ((k : Int) + offsetY).toNat ((l : Int) + offsetX).toNat (getBit prev j k l)
        else d)
      (fun (l j' y x : Nat) => j' = j ∧ (y : Int) = k + offsetY ∧ y < 192 ∧ x < 256
        ∧ (x : Int) = l + offsetX)
      (fun l _ _ _ => getBit prev j k l)
      (fun (_ _ x : Nat) => ((x : Int) - offsetX).toNat) 256
      (by
        intro l hl d hd
        by_cases hg : (k : Int) + offsetY ≥ 0 ∧ (k : Int) + offsetY < 192
            ∧ (l : Int) + offsetX ≥ 0 ∧ (l : Int) + offsetX < 256
        · simp only [if_pos hg]
          refine ⟨dims_setBit hd _ _ _ _, fun j' y x => ?_⟩
          rw [getBit_setBit hd hj (by omega) (by omega)]
          by_cases hc : j' = j ∧ y = ((k : Int) + offsetY).toNat ∧ x = ((l : Int) + offsetX).toNat
          · rw [if_pos hc, if_pos]
            obtain ⟨h1, h2, h3⟩ := hc
            exact ⟨h1, by omega, by omega, by omega, by omega⟩
          · rw [if_neg hc, if_neg]
            rintro ⟨h1, h2, h3, h4, h5⟩
            exact hc ⟨h1, by omega, by omega⟩
        · simp only [if_neg hg]
          refine ⟨hd, fun j' y x => ?_⟩
          rw [if_neg]
          rintro ⟨h1, h2, h3, h4, h5⟩
          exact hg ⟨by omega, by omega, by omega, by omega⟩)
      (by
        rintro l j' y x ⟨_, _, _, _, h5⟩
        show l = ((x : Int) - offsetX).toNat
        omega)
      d hd
    refine ⟨rdim, fun j' y x => ?_⟩
    rw [rget]
    by_cases hc : j' = j ∧ (y : Int) = k + offsetY ∧ y < 192 ∧ x < 256
        ∧ 0 ≤ (x : Int) - offsetX ∧ (x : Int) - offsetX < 256
    · rw [if_pos hc, if_pos]
      obtain ⟨h1, h2, h3, h4, h5, h6⟩ := hc
      exact ⟨by omega, h1, h2, h3, h4, by omega⟩
    · rw [if_neg hc, if_neg]
      rintro ⟨h0, h1, h2, h3, h4, h5⟩
      exact hc ⟨h1, h2, h3, h4, by omega, by omega⟩
  -- the loop over `k`, for fixed `j`
  have middle : ∀ j : Nat, j < 2 → ∀ d : LayerData, Dims d →
      Dims (forRange 192 (fun (k : Nat) d => forRange 256 (fun (l : Nat) d =>
        if (k : Int) + offsetY ≥ 0 ∧ (k : Int) + offsetY < 192
            ∧ (l : Int) + offsetX ≥ 0 ∧ (l : Int) + offsetX < 256 then
          setBit d j ((k : Int) + offsetY).toNat ((l : Int) + offsetX).toNat (getBit prev j k l)
        else d) d) d)
      ∧ ∀ j' y x, getBit (forRange 192 (fun (k : Nat) d => forRange 256 (fun (l : Nat) d =>
        if (k : Int) + offsetY ≥ 0 ∧ (k : Int) + offsetY < 192
            ∧ (l : Int) + offsetX ≥ 0 ∧ (l : Int) + offsetX < 256 then
          setBit d j ((k : Int) + offsetY).toNat ((l : Int) + offsetX).toNat (getBit prev j k l)
        else d) d) d) j' y x
        = if j' = j ∧ y < 192 ∧ x < 256
              ∧ 0 ≤ (y : Int) - offsetY ∧ (y : Int) - offsetY < 192
              ∧ 0 ≤ (x : Int) - offsetX ∧ (x : Int) - offsetX < 256 then
            getBit prev j ((y : Int) - offsetY).toNat ((x : Int) - offsetX).toNat
          else getBit d j' y x := by
    intro j hj d hd
    obtain ⟨rdim, rget⟩ := regionLoop_spec
      (fun (k : Nat) d => forRange 256 (fun (l : Nat) d =>
        if (k : Int) + offsetY ≥ 0 ∧ (k : Int) + offsetY < 192
            ∧ (l : Int) + offsetX ≥ 0 ∧ (l : Int) + offsetX < 256 then
          setBit d j ((k : Int) + offsetY).toNat ((l : Int) + offsetX).toNat (getBit prev j k l)
        else d) d)
      (fun (k j' y x : Nat) => j' = j ∧ (y : Int) = k + offsetY ∧ y < 192 ∧ x < 256
        ∧ 0 ≤ (x : Int) - offsetX ∧ (x : Int) - offsetX < 256)
      (fun (k _ _ x : Nat) => getBit prev j k ((x : Int) - offsetX).toNat)
      (fun (_ y _ : Nat) => ((y : Int) - offsetY).toNat) 192
      (fun k hk d hd => inner j hj k hk d hd)
      (by
        rintro k j' y x ⟨_, h2, _⟩
        show k = ((y : Int) - offsetY).toNat
        omega)
      d hd
    refine ⟨rdim, fun j' y x => ?_⟩
    rw [rget]
    by_cases hc : j' = j ∧ y < 192 ∧ x < 256
        ∧ 0 ≤ (y : Int) - offsetY ∧ (y : Int) - offsetY < 192
        ∧ 0 ≤ (x : Int) - offsetX ∧ (x : Int) - offsetX < 256
    · rw [if_pos hc, if_pos]
      obtain ⟨h1, h2, h3, h4, h5, h6, h7⟩ := hc
      exact ⟨by omega, h1, by omega, h2, h3, h6, h7⟩
    · rw [if_neg hc, if_neg]
      rintro ⟨h0, h1, h2, h3, h4, h5, h6⟩
      exact hc ⟨h1, h3, h4, by omega, by omega, h5, h6⟩
  -- the loop over `j`
  obtain ⟨rdim, rget⟩ := regionLoop_spec
    (fun (j : Nat) d => forRange 192 (fun (k : Nat) d => forRange 256 (fun (l : Nat) d =>
        if (k : Int) + offsetY ≥ 0 ∧ (k : Int) + offsetY < 192
            ∧ (l : Int) + offsetX ≥ 0 ∧ (l : Int) + offsetX < 256 then
          setBit d j ((k : Int) + offsetY).toNat ((l : Int) + offsetX).toNat (getBit prev j k l)
        else d) d) d)
    (fun (j j' y x : Nat) => j' = j ∧ y < 192 ∧ x < 256
      ∧ 0 ≤ (y : Int) - offsetY ∧ (y : Int) - offsetY < 192
      ∧ 0 ≤ (x : Int) - offsetX ∧ (x : Int) - offsetX < 256)
    (fun (j _ y x : Nat) => getBit prev j ((y : Int) - offsetY).toNat ((x : Int) - offsetX).toNat)
    (fun j' _ _ => j') 2
    (fun j hj d hd => middle j hj d hd)
    (by
      rintro j j' y x ⟨h1, _⟩
      exact h1.symm)
    d hd
  refine ⟨rdim, fun j y x hj hy hx => ?_⟩
  show getBit (forRange 2 _ d) j y x = _
  rw [rget]
  by_cases hc : 0 ≤ (y : Int) - offsetY ∧ (y : Int) - offsetY < 192
      ∧ 0 ≤ (x : Int) - offsetX ∧ (x : Int) - offsetX < 256
  · rw [if_pos hc, if_pos ⟨hj, rfl, hy, hx, hc⟩]
  · rw [if_neg hc, if_neg]
    rintro ⟨_, _, _, _, h⟩
    exact hc h

/-! ## Frame decoder: frames -/

set_option maxRecDepth 100000 in
theorem signedOffset_eq (b : Byte) :
    signedOffset b = if b.val < 128 then (b.val : Int) else (b.val : Int) - 256 := by
  revert b
  decide

theorem signedOffset_range (b : Byte) : -128 ≤ signedOffset b ∧ signedOffset b ≤ 127 := by
  rw [signedOffset_eq]
  have := b.isLt
  split_ifs <;> omega

theorem startLayers_key (frameData : List Byte) (frameFlags frameId : Nat) (frames : List Frame)
    (cur : LayerData) (h : frameId = 0 ∨ frameFlags &&& 128 ≠ 0) :
    startLayers frameData frameFlags frameId frames cur = some (cur, 1) := by
  unfold startLayers
  rw [if_neg]
  rintro ⟨h1, h2⟩
  rcases h with h | h
  · omega
  · exact h h1

theorem startLayers_delta (frameData : List Byte) (frameFlags frameId : Nat)
    (frames : List Frame) (cur : LayerData) (hid : 0 < frameId) (hflag : frameFlags &&& 128 = 0)
    (r : LayerData × Nat) (h : startLayers frameData frameFlags frameId frames cur = some r) :
    ∃ offsetX offsetY iBase prev, readOffsets frameData frameFlags 1 = some (offsetX, offsetY, iBase)
      ∧ frames[frameId - 1]? = some prev
      ∧ r = (copyPrevPure prev.data offsetX offsetY cur, iBase) := by
  unfold startLayers at h
  rw [if_pos ⟨hflag, hid⟩] at h
  cases ho : readOffsets frameData frameFlags 1 with
  | none => rw [ho] at h; simp at h
  | some o =>
    obtain ⟨ox, oy, ib⟩ := o
    cases hp : frames[frameId - 1]? with
    | none => rw [ho, hp] at h; simp at h
    | some prev =>
      rw [ho, hp] at h
      simp only [copyPrev_eq_pure] at h
      exact ⟨ox, oy, ib, prev, rfl, rfl, (Option.some.inj h).symm⟩

theorem startLayers_congr (frameData : List Byte) (frameFlags frameId : Nat)
    (f1 f2 : List Frame) (cur : LayerData) (h : 0 < frameId → f1[frameId - 1]? = f2[frameId - 1]?) :
    startLayers frameData frameFlags frameId f1 cur
      = startLayers frameData frameFlags frameId f2 cur := by
  unfold startLayers
  by_cases hc : frameFlags &&& 128 = 0 ∧ frameId > 0
  · rw [if_pos hc, if_pos hc, h hc.2]
  · rw [if_neg hc, if_neg hc]

theorem startLayers_dims (frameData : List Byte) (frameFlags frameId : Nat)
    (frames : List Frame) {cur : LayerData} (hd : Dims cur) (r : LayerData × Nat)
    (h : startLayers frameData frameFlags frameId frames cur = some r) : Dims r.1 := by
  by_cases hc : frameFlags &&& 128 = 0 ∧ frameId > 0
  · obtain ⟨ox, oy, ib, prev, _, _, hr⟩ := startLayers_delta _ _ _ _ _ hc.2 hc.1 r h
    subst hr
    dsimp only
    exact (copyPrevPure_spec prev.data ox oy hd).1
  · have hk : frameId = 0 ∨ frameFlags &&& 128 ≠ 0 := by
      by_cases h0 : frameId = 0
      · exact Or.inl h0
      · exact Or.inr (fun h1 => hc ⟨h1, Nat.pos_of_ne_zero h0⟩)
    rw [startLayers_key _ _ _ _ _ hk] at h
    rw [← Option.some.inj h]
    exact hd

/-- What `readAnimationData` stores in frame `i`, in terms of the decoded
frames `r`: the start layers are taken from frame `i-1` of `r`, and the line
edits of the payload are applied to them. -/
theorem readAnimationFrames_frame (frames : List Frame) (animationData : List Byte)
    (r : List Frame) (h : readAnimationFrames frames animationData = some r) :
    r.length = frames.length
    ∧ ∀ i, i < frames.length → ∃ oEnd frameData flagsByte cur d0 iBase d iEnd,
        animationEnd animationData = some oEnd
        ∧ framePayload animationData oEnd i = some frameData
        ∧ frameData[0]? = some flagsByte
        ∧ frames[i]? = some cur
        ∧ startLayers frameData flagsByte.val i r cur.data = some (d0, iBase)
        ∧ decodeLines frameData iBase d0 = some (d, iEnd)
        ∧ r[i]? = some { cur with flags := flagsByte, data := d } := by
  unfold readAnimationFrames at h
  cases hoe : animationEnd animationData with
  | none => rw [hoe] at h; simp at h
  | some oEnd =>
    rw [hoe] at h
    simp only at h
    have key := forRangeM_induct
      (fun x (s : List Frame) => s.length = frames.length
        ∧ (∀ i, x ≤ i → s[i]? = frames[i]?)
        ∧ ∀ i, i < x → ∃ frameData flagsByte cur d0 iBase d iEnd,
            framePayload animationData oEnd i = some frameData
            ∧ frameData[0]? = some flagsByte
            ∧ frames[i]? = some cur
            ∧ startLayers frameData flagsByte.val i s cur.data = some (d0, iBase)
            ∧ decodeLines frameData iBase d0 = some (d, iEnd)
            ∧ s[i]? = some { cur with flags := flagsByte, data := d })
      frames.length (frameStep animationData oEnd) frames
      ⟨rfl, fun _ _ => rfl, fun i hi => absurd hi (Nat.not_lt_zero i)⟩
      (by
        rintro x hx a b ⟨alen, arest, adone⟩ hb
        unfold frameStep at hb
        cases hp : framePayload animationData oEnd x with
        | none => rw [hp] at hb; simp at hb
        | some fd =>
          rw [hp] at hb
          simp only at hb
          unfold decodeFrame at hb
          cases hf : fd[0]? with
          | none => rw [hf] at hb; simp at hb
          | some fb =>
            cases hc : a[x]? with
            | none => rw [hf, hc] at hb; simp at hb
            | some cur =>
              rw [hf, hc] at hb
              simp only at hb
              cases hs : startLayers fd fb.val x a cur.data with
              | none => rw [hs] at hb; simp at hb
              | some sl =>
                obtain ⟨d0, iBase⟩ := sl
                rw [hs] at hb
                simp only at hb
                cases hl : decodeLines fd iBase d0 with
                | none => rw [hl] at hb; simp at hb
                | some dl =>
                  obtain ⟨d, iEnd⟩ := dl
                  rw [hl] at hb
                  simp only at hb
                  have hbeq := (Option.some.inj hb).symm
                  subst hbeq
                  have hxa : x < a.length := by omega
                  refine ⟨by rw [List.length_set]; exact alen, ?_, ?_⟩
                  · intro i hi
                    rw [List.getElem?_set, if_neg (by omega)]
                    exact arest i (by omega)
                  · intro i hi
                    by_cases hix : i = x
                    · subst hix
                      refine ⟨fd, fb, cur, d0, iBase, d, iEnd, hp, hf, ?_, ?_, hl, ?_⟩
                      · rw [← arest i (le_refl _)]; exact hc
                      · rw [← hs]
                        apply startLayers_congr
                        intro hpos
                        rw [List.getElem?_set, if_neg (by omega)]
                      · rw [List.getElem?_set, if_pos rfl, if_pos hxa]
                    · obtain ⟨fd', fb', cur', d0', iBase', d', iEnd', h1, h2, h3, h4, h5, h6⟩ :=
                        adone i (by omega)
                      refine ⟨fd', fb', cur', d0', iBase', d', iEnd', h1, h2, h3, ?_, h5, ?_⟩
                      · rw [← h4]
                        apply startLayers_congr
                        intro hpos
                        rw [List.getElem?_set, if_neg (by omega)]
                      · rw [List.getElem?_set, if_neg (fun hh => hix hh.symm)]
                        exact h6)
      r h
    refine ⟨key.1, fun i hi => ?_⟩
    obtain ⟨fd, fb, cur, d0, iBase, d, iEnd, h1, h2, h3, h4, h5, h6⟩ := key.2.2 i hi
    exact ⟨oEnd, fd, fb, cur, d0, iBase, d, iEnd, rfl, h1, h2, h3, h4, h5, h6⟩

theorem fresh_getElem? (n i : Nat) (hi : i < n) :
    (List.replicate n Frame.zero)[i]? = some Frame.zero := by
  rw [List.getElem?_replicate, if_pos hi]

theorem readOffsets_spec (frameData : List Byte) (frameFlags : Nat) (dx dy : Int) (iBase : Nat)
    (h : readOffsets frameData frameFlags 1 = some (dx, dy, iBase)) :
    (frameFlags &&& 64 = 0 → dx = 0 ∧ dy = 0 ∧ iBase = 1)
    ∧ (frameFlags &&& 64 ≠ 0 → ∃ bx by_, frameData[1]? = some bx ∧ frameData[2]? = some by_
        ∧ dx = (if bx.val < 128 then (bx.val : Int) else (bx.val : Int) - 256)
        ∧ dy = (if by_.val < 128 then (by_.val : Int) else (by_.val : Int) - 256)
        ∧ iBase = 3) := by
  unfold readOffsets at h
  constructor
  · intro h64
    rw [if_neg (by simp [h64])] at h
    have := Option.some.inj h
    simp only [Prod.mk.injEq] at this
    exact ⟨this.1.symm, this.2.1.symm, this.2.2.symm⟩
  · intro h64
    rw [if_pos h64] at h
    cases hx : frameData[1]? with
    | none => rw [hx] at h; simp at h
    | some bx =>
      cases hy : frameData[1 + 1]? with
      | none => rw [hx, hy] at h; simp at h
      | some by_ =>
        rw [hx, hy] at h
        have := Option.some.inj h
        simp only [Prod.mk.injEq] at this
        refine ⟨bx, by_, rfl, rfl, ?_, ?_, this.2.2.symm⟩
        · rw [← this.1, signedOffset_eq]
        · rw [← this.2.1, signedOffset_eq]

theorem eq_some_getD {α : Type} {o : Option α} (h : o.isSome = true) (x : α) :
    o = some (o.getD x) := by
  cases o with
  | none => simp at h
  | some v => rfl

theorem frameStep_delta_mode0 (a : List Byte) (oEnd i : Nat) (frames : List Frame)
    (pay : List Byte) (fb : Byte) (cur prev : Frame) (dx dy : Int) (iBase : Nat)
    (hp : framePayload a oEnd i = some pay) (hfb : pay[0]? = some fb)
    (hcur : frames[i]? = some cur) (hprev : frames[i - 1]? = some prev)
    (hi0 : 0 < i) (hdelta : fb.val &&& 128 = 0)
    (hoff : readOffsets pay fb.val 1 = some (dx, dy, iBase))
    (hmodes : ∀ j, j < 2 → ∀ k, k < 192 → lineDecodeMode pay iBase j k = some 0) :
    frameStep a oEnd i frames
      = some (frames.set i
          { cur with flags := fb, data := copyPrevPure prev.data dx dy cur.data }) := by
  unfold frameStep
  rw [hp]
  simp only
  unfold decodeFrame
  rw [hfb, hcur]
  simp only
  have hs : startLayers pay fb.val i frames cur.data
      = some (copyPrevPure prev.data dx dy cur.data, iBase) := by
    unfold startLayers
    rw [if_pos ⟨hdelta, hi0⟩, hoff, hprev]
    simp only [copyPrev_eq_pure]
  rw [hs]
  simp only
  rw [decodeLines_all_mode0 _ _ _ hmodes]

theorem readAnimationFrames_two (a : List Byte) (oEnd : Nat) (f0 f1 : Frame)
    (s1 s2 : List Frame) (hoe : animationEnd a = some oEnd)
    (h0 : frameStep a oEnd 0 [f0, f1] = some s1) (h1 : frameStep a oEnd 1 s1 = some s2) :
    readAnimationFrames [f0, f1] a = some s2 := by
  unfold readAnimationFrames
  rw [hoe]
  show forRangeM 2 (frameStep a oEnd) [f0, f1] = some s2
  rw [forRangeM_succ, forRangeM_succ, forRangeM_zero, Option.some_bind, h0, Option.some_bind, h1]

theorem getElem?_eq_some_getD {α : Type} (l : List α) (i : Nat) (h : i < l.length) (x : α) :
    l[i]? = some (l.getD i x) := by
  simp [List.getD, List.getElem?_eq_getElem h]

theorem frameStep_shape (a : List Byte) (oEnd x : Nat) (s b : List Frame)
    (h : frameStep a oEnd x s = some b) :
    b.length = s.length ∧ ∀ i, i ≠ x → b[i]? = s[i]? := by
  unfold frameStep at h
  cases hp : framePayload a oEnd x with
  | none => rw [hp] at h; simp at h
  | some fd =>
    rw [hp] at h
    simp only at h
    unfold decodeFrame at h
    cases hf : fd[0]? with
    | none => rw [hf] at h; simp at h
    | some fb =>
      cases hc : s[x]? with
      | none => rw [hf, hc] at h; simp at h
      | some cur =>
        rw [hf, hc] at h
        simp only at h
        cases hs : startLayers fd fb.val x s cur.data with
        | none => rw [hs] at h; simp at h
        | some sl =>
          obtain ⟨d0, iBase⟩ := sl
          rw [hs] at h
          simp only at h
          cases hl : decodeLines fd iBase d0 with
          | none => rw [hl] at h; simp at h
          | some dl =>
            obtain ⟨d, iEnd⟩ := dl
            rw [hl] at h
            simp only at h
            rw [← Option.some.inj h]
            refine ⟨List.length_set _ _ _, fun i hi => ?_⟩
            rw [List.getElem?_set, if_neg (fun hh => hi hh.symm)]

/-! ## Frame decoder: the bytes a frame reads -/

theorem Agree.mono {n m : Nat} {a b : List Byte} (h : Agree n a b) (hm : m ≤ n) : Agree m a b :=
  fun idx hidx => h idx (by omega)

theorem lineDecodeMode_congr {n : Nat} {a b : List Byte} (h : Agree n a b)
    (iBase j k : Nat) (hlt : iBase + j * 48 + (k >>> 2) < n) :
    lineDecodeMode a iBase j k = lineDecodeMode b iBase j k := by
  unfold lineDecodeMode
  rw [h _ hlt]

theorem rawLine_congr {a b : List Byte} (j k : Nat) (d : LayerData) (i : Nat)
    (h : Agree (i + 32) a b) : rawLine a j k d i = rawLine b j k d i := by
  unfold rawLine
  rw [forRangeM_congr 256 (rawStep a j k i) (rawStep b j k i)]
  intro x hx s
  unfold rawStep
  have h3 : x >>> 3 = x / 8 := Nat.shiftRight_eq_div_pow x 3
  rw [h (i + (x >>> 3)) (by omega)]

theorem beUint32_congr {a b : List Byte} (i : Nat) (h : Agree (i + 4) a b) :
    beUint32 a i = beUint32 b i := by
  unfold beUint32
  rw [h i (by omega), h (i + 1) (by omega), h (i + 2) (by omega), h (i + 3) (by omega)]

theorem groupStep_local (a b : List Byte) (j k t : Nat) (s r : GroupState)
    (h : groupStep a j k t s = some r) :
    s.i ≤ r.i ∧ (Agree r.i a b → groupStep b j k t s = some r) := by
  unfold groupStep at h ⊢
  by_cases hmsb : s.layerUsedBytes &&& 0x80000000 ≠ 0
  · rw [if_pos hmsb] at h ⊢
    cases hb : a[s.i]? with
    | none => rw [hb] at h; simp at h
    | some byte =>
      rw [hb] at h
      simp only at h
      cases ht : toggleGroup j k s.ldPos byte.val t s.d with
      | none => rw [ht] at h; simp at h
      | some d' =>
        rw [ht] at h
        simp only at h
        have hr := Option.some.inj h
        subst hr
        refine ⟨by simp, fun hag => ?_⟩
        rw [← hag s.i (by simp), hb]
        simp only [ht]
  · rw [if_neg hmsb] at h ⊢
    have hr := Option.some.inj h
    subst hr
    exact ⟨le_refl _, fun _ => rfl⟩

theorem codedLine_local (a b : List Byte) (j k mode : Nat) (d : LayerData) (i : Nat)
    (r : LayerData × Nat) (h : codedLine a j k mode d i = some r) :
    i ≤ r.2 ∧ (Agree r.2 a b → codedLine b j k mode d i = some r) := by
  unfold codedLine at h ⊢
  cases hm : beUint32 a i with
  | none => rw [hm] at h; simp at h
  | some m =>
    rw [hm] at h
    simp only at h
    cases hrun : forRangeM 32 (fun _ => groupStep a j k (if mode = 2 then 0 else 1))
        { d := d, i := i + 4, ldPos := 0, layerUsedBytes := m } with
    | none => rw [hrun] at h; simp at h
    | some s =>
      rw [hrun] at h
      simp only at h
      obtain ⟨_, hmono, hloc⟩ := forRangeM_local (fun s : GroupState => s.i) (fun _ => True)
        (fun n => Agree n a b) (fun _ _ hq hle => hq.mono hle) 32
        (fun _ => groupStep a j k (if mode = 2 then 0 else 1))
        (fun _ => groupStep b j k (if mode = 2 then 0 else 1))
        (fun x _ s r _ hs => ⟨trivial, groupStep_local a b j k _ s r hs⟩)
        _ s trivial hrun
      have hsi : r.2 = s.i := by
        by_cases h2 : mode = 2
        · rw [if_pos h2] at h; rw [← Option.some.inj h]
        · rw [if_neg h2] at h; rw [← Option.some.inj h]
      simp only at hmono
      refine ⟨by omega, fun hag => ?_⟩
      rw [← beUint32_congr i (hag.mono (by omega)), hm]
      simp only
      rw [hloc (hsi ▸ hag)]
      exact h

theorem rawLine_pos (a : List Byte) (j k : Nat) (d : LayerData) (i : Nat) (r : LayerData × Nat)
    (h : rawLine a j k d i = some r) : r.2 = i + 32 := by
  unfold rawLine at h
  cases hrun : forRangeM 256 (rawStep a j k i) d with
  | none => rw [hrun] at h; simp at h
  | some d' =>
    rw [hrun] at h
    rw [← Option.some.inj h]

theorem decodeLine_local (a b : List Byte) (iBase j k : Nat) (hj : j < 2) (hk : k < 192)
    (s r : LayerData × Nat) (hs : iBase + 96 ≤ s.2) (h : decodeLine a iBase j k s = some r) :
    iBase + 96 ≤ r.2 ∧ s.2 ≤ r.2 ∧ (Agree r.2 a b → decodeLine b iBase j k s = some r) := by
  have hidx : iBase + j * 48 + (k >>> 2) < iBase + 96 := by
    have h2 : k >>> 2 = k / 4 := Nat.shiftRight_eq_div_pow k 2
    omega
  cases hmode : lineDecodeMode a iBase j k with
  | none => simp [decodeLine, hmode] at h
  | some mode =>
    have hlt := lineDecodeMode_lt _ _ _ _ _ hmode
    have hmodeb : ∀ n, iBase + 96 ≤ n → Agree n a b → lineDecodeMode b iBase j k = some mode :=
      fun n hn hag => by rw [← lineDecodeMode_congr hag iBase j k (by omega), hmode]
    have hcases : mode = 0 ∨ (mode = 1 ∨ mode = 2) ∨ mode = 3 := by omega
    rcases hcases with h0 | h12 | h3
    · subst h0
      rw [decodeLine_mode0 _ _ _ _ _ hmode] at h
      have hr := Option.some.inj h
      subst hr
      exact ⟨hs, le_refl _, fun hag => decodeLine_mode0 _ _ _ _ _ (hmodeb _ hs hag)⟩
    · rw [decodeLine_coded _ _ _ _ _ _ hmode h12] at h
      obtain ⟨hmono, hloc⟩ := codedLine_local a b j k mode s.1 s.2 r h
      refine ⟨by omega, hmono, fun hag => ?_⟩
      rw [decodeLine_coded _ _ _ _ _ _ (hmodeb _ (by omega) hag) h12]
      exact hloc hag
    · subst h3
      rw [decodeLine_raw _ _ _ _ _ hmode] at h
      have hpos := rawLine_pos a j k s.1 s.2 r h
      refine ⟨by omega, by omega, fun hag => ?_⟩
      rw [decodeLine_raw _ _ _ _ _ (hmodeb _ (by omega) hag),
        ← rawLine_congr j k s.1 s.2 (hag.mono (by omega))]
      exact h

/-- The line edits of a frame read the payload only below the position at
which they end: a payload that agrees with it up to there is decoded alike. -/
theorem decodeLines_local (a b : List Byte) (iBase : Nat) (d : LayerData)
    (r : LayerData × Nat) (h : decodeLines a iBase d = some r) :
    iBase + 96 ≤ r.2 ∧ (Agree r.2 a b → decodeLines b iBase d = some r) := by
  unfold decodeLines at h ⊢
  obtain ⟨hI, _, hloc⟩ := forRangeM_local (fun s : LayerData × Nat => s.2)
    (fun s => iBase + 96 ≤ s.2) (fun n => Agree n a b) (fun _ _ hq hle => hq.mono hle) 2
    (decodeLayer a iBase) (decodeLayer b iBase)
    (fun j hj s r hs hrun => by
      unfold decodeLayer at hrun ⊢
      exact forRangeM_local (fun s : LayerData × Nat => s.2)
        (fun s => iBase + 96 ≤ s.2) (fun n => Agree n a b) (fun _ _ hq hle => hq.mono hle) 192
        (decodeLine a iBase j) (decodeLine b iBase j)
        (fun k hk s r hs hrun => decodeLine_local a b iBase j k hj hk s r hs hrun)
        s r hs hrun)
    (d, iBase + 96) r (le_refl _) h
  exact ⟨hI, hloc⟩

/-! ## Audio mixer: lemmas -/

theorem getD_set_eq (out : List Int) (i : Nat) (v : Int) (p : Nat) (hi : i < out.length) :
    (out.set i v).getD p 0 = if p = i then v else out.getD p 0 := by
  simp only [List.getD_eq_getElem?_getD, List.getElem?_set]
  by_cases h : i = p
  · subst h; simp [hi]
  · simp [h, Ne.symm h]

theorem getD_append_one (out : List Int) (s : Int) (p : Nat) :
    (out ++ [s]).getD p 0 = if p < out.length then out.getD p 0
      else if p = out.length then s else 0 := by
  simp only [List.getD_eq_getElem?_getD]
  by_cases h : p < out.length
  · rw [if_pos h, List.getElem?_append_left h]
  · rw [if_neg h, List.getElem?_append_right (by omega)]
    by_cases h2 : p = out.length
    · subst h2; simp
    · rw [if_neg h2]
      have : p - out.length ≠ 0 := by omega
      rw [List.getElem?_eq_none (by simp; omega)]
      rfl

/-- The loop over `soundPos`: it never panics when it starts inside the
buffer; it adds the channel's samples to the buffer from its current
position on, and when it reaches the end of the buffer it appends exactly one
sample. -/
theorem mixSamples_spec (sd : List Int) (hsd : 0 < sd.length) (start : Int) (fuel : Nat) :
    ∀ (soundPos : Nat) (out : List Int), 0 ≤ start + (soundPos : Int) →
      start + (soundPos : Int) ≤ (out.length : Int) →
      ∃ out', mixSamples sd start fuel soundPos out = some out'
        ∧ out'.length
            = (if start + (soundPos : Int) + (fuel : Int) > (out.length : Int)
                then out.length + 1 else out.length)
        ∧ (∀ p, p < out.length →
            out'.getD p 0
              = if start + (soundPos : Int) ≤ (p : Int)
                    ∧ (p : Int) < start + (soundPos : Int) + (fuel : Int) then
                  toInt16 (out.getD p 0 + sd.getD (((p : Int) - start).toNat % sd.length) 0)
                else out.getD p 0)
        ∧ (start + (soundPos : Int) + (fuel : Int) > (out.length : Int) →
            out'.getD out.length 0
              = sd.getD ((((out.length : Nat) : Int) - start).toNat % sd.length) 0) := by
  induction fuel with
  | zero =>
    intro soundPos out h0 hle
    refine ⟨out, rfl, ?_, ?_, ?_⟩
    · rw [if_neg]; simp only [Nat.cast_zero]; omega
    · intro p hp
      rw [if_neg]; simp only [Nat.cast_zero]; omega
    · intro h; simp only [Nat.cast_zero] at h; omega
  | succ q ih =>
    intro soundPos out h0 hle
    have hmod : soundPos % sd.length < sd.length := Nat.mod_lt _ hsd
    have hrd : sd[soundPos % sd.length]? = some (sd.getD (soundPos % sd.length) 0) := by
      simp [List.getD, List.getElem?_eq_getElem hmod]
    unfold mixSamples
    rw [hrd]
    simp only
    by_cases hend : start + (soundPos : Int) = (out.length : Int)
    · rw [if_pos hend]
      refine ⟨_, rfl, ?_, ?_, ?_⟩
      · rw [if_pos (by push_cast; omega)]; simp
      · intro p hp
        rw [getD_append_one, if_pos hp, if_neg]
        omega
      · intro _
        rw [getD_append_one, if_neg (by omega), if_pos rfl]
        have : ((out.length : Int) - start).toNat = soundPos := by omega
        rw [this]
    · rw [if_neg hend, if_neg (by omega)]
      have hidx : (start + (soundPos : Int)).toNat < out.length := by omega
      obtain ⟨out', hrun, hlen, hval, hreach⟩ := ih (soundPos + 1)
        (out.set (start + (soundPos : Int)).toNat
          (toInt16 (out.getD (start + (soundPos : Int)).toNat 0
            + sd.getD (soundPos % sd.length) 0)))
        (by push_cast; omega) (by rw [List.length_set]; push_cast; omega)
      rw [List.length_set] at hlen hval hreach
      refine ⟨out', hrun, ?_, ?_, ?_⟩
      · rw [hlen]
        by_cases hc : start + ((soundPos + 1 : Nat) : Int) + (q : Int) > (out.length : Int)
        · rw [if_pos hc, if_pos (by push_cast at hc ⊢; omega)]
        · rw [if_neg hc, if_neg (by push_cast at hc ⊢; omega)]
      · intro p hp
        rw [hval p hp, getD_set_eq _ _ _ _ hidx]
        by_cases hpi : p = (start + (soundPos : Int)).toNat
        · rw [if_neg (by push_cast; omega), if_pos hpi, if_pos (by push_cast; omega)]
          have : ((p : Int) - start).toNat = soundPos := by omega
          rw [this, hpi]
        · rw [if_neg hpi]
          by_cases hc : start + ((soundPos + 1 : Nat) : Int) ≤ (p : Int)
              ∧ (p : Int) < start + ((soundPos + 1 : Nat) : Int) + (q : Int)
          · rw [if_pos hc, if_pos (by push_cast at hc ⊢; omega)]
          · rw [if_neg hc, if_neg (by push_cast at hc ⊢; omega)]
      · intro hc
        exact hreach (by push_cast at hc ⊢; omega)


theorem mixChannel_spec (frame : Frame) (soundData : List (List Int)) (j : Nat)
    (triggered : Bool) (sd : List Int) (htrig : frame.Sound[j]? = some triggered)
    (hsd : soundData[j]? = some sd) (start left : Int) (L0 : Nat) (out : List Int)
    (h0 : 0 ≤ start) (hstart : start ≤ (L0 : Int)) (hL0 : L0 ≤ out.length)
    (hleft : (L0 : Int) - start ≤ left) :
    ∃ out', mixChannel frame soundData start left j out = some out'
      ∧ out.length ≤ out'.length
      ∧ ∀ p, p < L0 →
          out'.getD p 0 = addSample (out.getD p 0) (channelAdds sd triggered j start p) := by
  unfold mixChannel
  rw [htrig, hsd]
  simp only
  by_cases hc : triggered = true ∧ sd.length > 0
  · rw [if_pos hc]
    obtain ⟨out', hrun, hlen, hval, _⟩ := mixSamples_spec sd hc.2 start
      (if j = 0 ∧ left > (sd.length : Int) then left else (sd.length : Int)).toNat 0 out
      (by push_cast; omega) (by push_cast; omega)
    refine ⟨out', hrun, ?_, ?_⟩
    · rw [hlen]; split_ifs <;> omega
    · intro p hp
      rw [hval p (by omega)]
      unfold channelAdds
      by_cases hj : j = 0 ∧ left > (sd.length : Int)
      · rw [if_pos hj] at hval ⊢
        by_cases hsp : start ≤ (p : Int)
        · rw [if_pos ⟨by push_cast; omega, by push_cast; omega⟩,
            if_pos ⟨hc.1, hc.2, hsp, Or.inl hj.1⟩]
          rfl
        · rw [if_neg (by push_cast; omega), if_neg (fun h => hsp h.2.2.1)]
          rfl
      · rw [if_neg hj] at hval ⊢
        by_cases hsp : start ≤ (p : Int) ∧ (p : Int) - start < (sd.length : Int)
        · rw [if_pos ⟨by push_cast; omega, by push_cast; omega⟩,
            if_pos ⟨hc.1, hc.2, hsp.1, Or.inr hsp.2⟩]
          rfl
        · by_cases hsp2 : start ≤ (p : Int) ∧ j = 0
          · have hl : ¬ left > (sd.length : Int) := fun h => hj ⟨hsp2.2, h⟩
            exact absurd ⟨hsp2.1, by omega⟩ hsp
          · rw [if_neg (by push_cast; omega), if_neg]
            · rfl
            · rintro ⟨_, _, h3, h4⟩
              rcases h4 with h4 | h4
              · exact hsp2 ⟨h3, h4⟩
              · exact hsp ⟨h3, h4⟩
  · rw [if_neg hc]
    refine ⟨out, rfl, le_refl _, fun p _ => ?_⟩
    unfold channelAdds
    rw [if_neg (fun h => hc ⟨h.1, h.2.1⟩)]
    rfl

theorem addSample_comm (v : Int) (a b : Option Int) :
    addSample (addSample v a) b = addSample (addSample v b) a := by
  cases a <;> cases b <;> simp only [addSample]
  unfold toInt16
  omega

theorem frameAdds_perm (frame : Frame) (soundData : List (List Int)) (start : Int) (p : Nat)
    {o1 o2 : List Nat} (h : o1.Perm o2) (v : Int) :
    frameAdds frame soundData start p o1 v = frameAdds frame soundData start p o2 v :=
  List.Perm.foldl_eq' h (fun _ _ _ _ z => addSample_comm z _ _) v

theorem mixChannels_spec (frame : Frame) (soundData : List (List Int))
    (hS : frame.Sound.length = 4) (hD : soundData.length = 4) (start left : Int) (L0 : Nat)
    (h0 : 0 ≤ start) (hstart : start ≤ (L0 : Int)) (hleft : (L0 : Int) - start ≤ left)
    (order : List Nat) (horder : ∀ j ∈ order, j < 4) :
    ∀ out : List Int, L0 ≤ out.length →
      ∃ out', order.foldlM (fun out j => mixChannel frame soundData start left j out) out
          = some out'
        ∧ out.length ≤ out'.length
        ∧ ∀ p, p < L0 → out'.getD p 0 = frameAdds frame soundData start p order (out.getD p 0) := by
  induction order with
  | nil =>
    intro out _
    exact ⟨out, rfl, le_refl _, fun _ _ => rfl⟩
  | cons j rest ih =>
    intro out hL0
    have hj : j < 4 := horder j (List.mem_cons_self _ _)
    have htrig : frame.Sound[j]? = some (frame.Sound.getD j false) :=
      getElem?_eq_some_getD _ _ (by omega) _
    have hsd : soundData[j]? = some (soundData.getD j []) :=
      getElem?_eq_some_getD _ _ (by omega) _
    obtain ⟨out1, hrun1, hlen1, hval1⟩ := mixChannel_spec frame soundData j _ _ htrig hsd
      start left L0 out h0 hstart hL0 hleft
    obtain ⟨out2, hrun2, hlen2, hval2⟩ :=
      ih (fun x hx => horder x (List.mem_cons_of_mem _ hx)) out1 (by omega)
    refine ⟨out2, ?_, by omega, ?_⟩
    · rw [List.foldlM_cons, hrun1]
      exact hrun2
    · intro p hp
      rw [hval2 p hp, hval1 p hp]
      rfl

theorem mixFrame_spec (order : List Nat) (horder : ∀ j ∈ order, j < 4) (T : Timing)
    (frequency : Int) (f : Flipnote) (soundData : List (List Int)) (hD : soundData.length = 4)
    (i : Nat) (frame : Frame) (hframe : f.Frames[i]? = some frame)
    (hS : frame.Sound.length = 4) (L0 : Nat)
    (h0 : 0 ≤ T.startPos frequency f.FrameSpeed i)
    (hstart : T.startPos frequency f.FrameSpeed i ≤ (L0 : Int))
    (out : List Int) (hL0 : L0 ≤ out.length) :
    ∃ out', mixFrame order T frequency f soundData i out = some out'
      ∧ out.length ≤ out'.length
      ∧ ∀ p, p < L0 →
          out'.getD p 0
            = frameAdds frame soundData (T.startPos frequency f.FrameSpeed i) p order
                (out.getD p 0) := by
  unfold mixFrame
  rw [hframe]
  exact mixChannels_spec frame soundData hS hD _ _ L0 h0 hstart (by omega) order horder out hL0

/-- Two runs of the loop over the frames that visit the channels in two
orders, one a permutation of the other: neither panics, and they agree at
every index inside the initially allocated buffer. -/
theorem mixFrames_agree (o1 o2 : List Nat) (hperm : o1.Perm o2) (horder : ∀ j ∈ o2, j < 4)
    (T : Timing) (frequency : Int) (f : Flipnote) (soundData : List (List Int))
    (hD : soundData.length = 4) (hS : ∀ frame ∈ f.Frames, frame.Sound.length = 4)
    (out0 : List Int)
    (hstart : ∀ i, i < f.Frames.length → 0 ≤ T.startPos frequency f.FrameSpeed i
      ∧ T.startPos frequency f.FrameSpeed i ≤ (out0.length : Int))
    (n : Nat) (hn : n ≤ f.Frames.length) :
    ∃ r1 r2, forRangeM n (mixFrame o1 T frequency f soundData) out0 = some r1
      ∧ forRangeM n (mixFrame o2 T frequency f soundData) out0 = some r2
      ∧ out0.length ≤ r1.length ∧ out0.length ≤ r2.length
      ∧ ∀ p, p < out0.length → r1.getD p 0 = r2.getD p 0 := by
  have horder1 : ∀ j ∈ o1, j < 4 := fun j hj => horder j (hperm.mem_iff.mp hj)
  induction n with
  | zero => exact ⟨out0, out0, rfl, rfl, le_refl _, le_refl _, fun _ _ => rfl⟩
  | succ q ih =>
    obtain ⟨r1, r2, hr1, hr2, hl1, hl2, hag⟩ := ih (by omega)
    have hq : q < f.Frames.length := by omega
    have hframe : f.Frames[q]? = some (f.Frames[q]) := List.getElem?_eq_getElem hq
    have hSq := hS _ (List.getElem_mem hq)
    obtain ⟨s0, s1⟩ := hstart q hq
    obtain ⟨a1, ha1, hal1, hav1⟩ := mixFrame_spec o1 horder1 T frequency f soundData hD q _
      hframe hSq out0.length s0 s1 r1 hl1
    obtain ⟨a2, ha2, hal2, hav2⟩ := mixFrame_spec o2 horder T frequency f soundData hD q _
      hframe hSq out0.length s0 s1 r2 hl2
    refine ⟨a1, a2, ?_, ?_, by omega, by omega, ?_⟩
    · rw [forRangeM_succ, hr1]; exact ha1
    · rw [forRangeM_succ, hr2]; exact ha2
    · intro p hp
      rw [hav1 p hp, hav2 p hp, hag p hp]
      exact frameAdds_perm _ _ _ _ hperm _

theorem decodeSound_total (sound : List Byte) :
    ∃ out, decodeSound sound = some out ∧ out.length = 2 * sound.length := by
  obtain ⟨trace, ht, hlen, _⟩ :=
    decodeTrace_total sound { predictor := 0, stepIndex := 0, step := 7 }
  refine ⟨trace.map (fun s => toInt16 s.predictor), ?_, ?_⟩
  · simp only [decodeSound, fresh_eq, ht, Option.bind_eq_bind, Option.some_bind, Option.pure_def]
  · rw [List.length_map, hlen]

theorem SoundAsPCM_eq (T : Timing) (f : Flipnote) (id : Nat) (hsounds : f.Sounds.length = 4)
    (hid : id < 4) (hss : 0 ≤ f.SoundSpeed ∧ f.SoundSpeed < 8)
    (hfs : 0 ≤ f.FrameSpeed ∧ f.FrameSpeed < 8) :
    ∃ sd, decodeSound (f.Sounds.getD id []) = some sd
      ∧ SoundAsPCM T f id = some (sd, T.frequency f.SoundSpeed f.FrameSpeed) := by
  obtain ⟨sd, hsd, _⟩ := decodeSound_total (f.Sounds.getD id [])
  refine ⟨sd, hsd, ?_⟩
  unfold SoundAsPCM
  rw [getElem?_eq_some_getD f.Sounds id (by omega) []]
  simp only
  rw [hsd]
  simp only
  rw [if_pos ⟨hss.1, hss.2, hfs.1, hfs.2⟩]

/-- What `MixedSoundAsPCMOrder` computes for a well-formed container: the
four decoded channels are mixed into a zeroed buffer frame by frame. -/
theorem MixedSoundAsPCMOrder_eq (order : List Nat) (T : Timing) (f : Flipnote)
    (hsounds : f.Sounds.length = 4) (hss : 0 ≤ f.SoundSpeed ∧ f.SoundSpeed < 8)
    (hfs : 0 ≤ f.FrameSpeed ∧ f.FrameSpeed < 8)
    (hlen : 0 ≤ T.bufferLen (T.frequency f.SoundSpeed f.FrameSpeed) f.Frames.length f.FrameSpeed) :
    ∃ sd0 sd1 sd2 sd3,
      decodeSound (f.Sounds.getD 0 []) = some sd0 ∧ decodeSound (f.Sounds.getD 1 []) = some sd1
      ∧ decodeSound (f.Sounds.getD 2 []) = some sd2 ∧ decodeSound (f.Sounds.getD 3 []) = some sd3
      ∧ MixedSoundAsPCMOrder order T f
          = (forRangeM f.Frames.length
              (mixFrame order T (T.frequency f.SoundSpeed f.FrameSpeed) f [sd0, sd1, sd2, sd3])
              (List.replicate (T.bufferLen (T.frequency f.SoundSpeed f.FrameSpeed)
                f.Frames.length f.FrameSpeed).toNat 0)).map
            (fun out => (out, T.frequency f.SoundSpeed f.FrameSpeed)) := by
  obtain ⟨sd0, d0, h0⟩ := SoundAsPCM_eq T f 0 hsounds (by decide) hss hfs
  obtain ⟨sd1, d1, h1⟩ := SoundAsPCM_eq T f 1 hsounds (by decide) hss hfs
  obtain ⟨sd2, d2, h2⟩ := SoundAsPCM_eq T f 2 hsounds (by decide) hss hfs
  obtain ⟨sd3, d3, h3⟩ := SoundAsPCM_eq T f 3 hsounds (by decide) hss hfs
  refine ⟨sd0, sd1, sd2, sd3, d0, d1, d2, d3, ?_⟩
  unfold MixedSoundAsPCMOrder
  rw [h0, h1, h2, h3]
  simp only
  rw [if_neg (by omega)]
  cases forRangeM f.Frames.length
      (mixFrame order T (T.frequency f.SoundSpeed f.FrameSpeed) f [sd0, sd1, sd2, sd3])
      (List.replicate (T.bufferLen (T.frequency f.SoundSpeed f.FrameSpeed)
        f.Frames.length f.FrameSpeed).toNat 0) <;> rfl

theorem mixChannel_skip (frame : Frame) (soundData : List (List Int)) (j : Nat)
    (triggered : Bool) (sd : List Int) (htrig : frame.Sound[j]? = some triggered)
    (hsd : soundData[j]? = some sd) (hskip : triggered = false ∨ sd.length = 0)
    (start left : Int) (out : List Int) :
    mixChannel frame soundData start left j out = some out := by
  unfold mixChannel
  rw [htrig, hsd]
  simp only
  rw [if_neg]
  rintro ⟨h1, h2⟩
  rcases hskip with h | h
  · rw [h] at h1; exact absurd h1 (by decide)
  · omega

/-- A triggered channel other than channel 0 whose samples run past the end
of the buffer extends the buffer by one sample only. -/
theorem mixChannel_append (frame : Frame) (soundData : List (List Int)) (j : Nat)
    (sd : List Int) (htrig : frame.Sound[j]? = some true) (hsd : soundData[j]? = some sd)
    (hj : j ≠ 0) (start left : Int) (out : List Int) (h0 : 0 ≤ start)
    (hstart : start ≤ (out.length : Int)) (hpast : start + (sd.length : Int) > (out.length : Int)) :
    ∃ out', mixChannel frame soundData start left j out = some out'
      ∧ out'.length = out.length + 1
      ∧ out'.getD out.length 0
          = sd.getD ((((out.length : Nat) : Int) - start).toNat % sd.length) 0 := by
  have hlen : 0 < sd.length := by omega
  unfold mixChannel
  rw [htrig, hsd]
  simp only
  rw [if_pos ⟨trivial, hlen⟩, if_neg (fun h => hj h.1)]
  obtain ⟨out', hrun, hl, _, hreach⟩ := mixSamples_spec sd hlen start
    ((sd.length : Int)).toNat 0 out (by push_cast; omega) (by push_cast; omega)
  have hc : start + ((0 : Nat) : Int) + (((sd.length : Int).toNat : Nat) : Int)
      > (out.length : Int) := by push_cast; omega
  rw [if_pos hc] at hl
  exact ⟨out', hrun, hl, hreach hc⟩

theorem mix_two_channels (frame : Frame) (soundData : List (List Int)) (a b : Nat)
    (sda sdb : List Int) (h0 : soundData[0]? = some []) (h3 : soundData[3]? = some [])
    (ha : soundData[a]? = some sda) (hb : soundData[b]? = some sdb)
    (t0 : frame.Sound[0]? = some true) (t3 : frame.Sound[3]? = some false)
    (ta : frame.Sound[a]? = some true) (tb : frame.Sound[b]? = some true)
    (ha0 : a ≠ 0) (hb0 : b ≠ 0) (la : sda.length = 274) (lb : sdb.length = 274)
    (out0 : List Int) (hl : out0.length = 272) :
    ∃ out, [0, a, b, 3].foldlM (fun out j => mixChannel frame soundData 0 272 j out) out0
        = some out
      ∧ out.getD 273 0 = sdb.getD 273 0 := by
  have s0 := mixChannel_skip frame soundData 0 true [] t0 h0 (Or.inr rfl) 0 272 out0
  obtain ⟨o1, r1, l1, _⟩ := mixChannel_append frame soundData a sda ta ha ha0 0 272 out0
    (le_refl _) (by omega) (by omega)
  obtain ⟨o2, r2, l2, v2⟩ := mixChannel_append frame soundData b sdb tb hb hb0 0 272 o1
    (le_refl _) (by omega) (by omega)
  have s3 := mixChannel_skip frame soundData 3 false [] t3 h3 (Or.inl rfl) 0 272 o2
  refine ⟨o2, ?_, ?_⟩
  · simp only [List.foldlM_cons, List.foldlM_nil, s0, r1, r2, s3, Option.bind_eq_bind,
      Option.some_bind, Option.pure_def]
  · rw [l1, hl] at v2
    rw [v2, lb]
    rfl

set_option maxRecDepth 1000000 in
theorem mixFlipnote_channel2 :
    (decodeSound (List.replicate 136 0x00 ++ [0x70])).map (fun l => l.getD 273 0) = some 11 := by
  decide!

set_option maxRecDepth 100000 in
/-- The example container mixed with its two sounding channels in the order
`a`, `b`: the last sample of the output is sample 273 of channel `b`. -/
theorem mixFlipnote_mixed (a b : Nat) (hab : (a = 1 ∧ b = 2) ∨ (a = 2 ∧ b = 1)) :
    ∃ out, MixedSoundAsPCMOrder [0, a, b, 3] mixTiming mixFlipnote = some (out, 8184)
      ∧ out.getD 273 0 = if b = 2 then 11 else 0 := by
  obtain ⟨sd0, sd1, sd2, sd3, d0, d1, d2, d3, e⟩ :=
    MixedSoundAsPCMOrder_eq [0, a, b, 3] mixTiming mixFlipnote rfl (by decide) (by decide)
      (by decide)
  have x0 : sd0 = [] := Option.some.inj
    (d0.symm.trans (by decide : decodeSound (mixFlipnote.Sounds.getD 0 []) = some []))
  have x3 : sd3 = [] := Option.some.inj
    (d3.symm.trans (by decide : decodeSound (mixFlipnote.Sounds.getD 3 []) = some []))
  have x1 : sd1 = List.replicate 274 0 :=
    Option.some.inj (d1.symm.trans (decodeSound_zeros 137))
  obtain ⟨sd2', d2', l2⟩ := decodeSound_total (List.replicate 136 0x00 ++ [0x70])
  have x2 : sd2 = sd2' := Option.some.inj (d2.symm.trans d2')
  have v2 : sd2.getD 273 0 = 11 := by
    have := mixFlipnote_channel2
    rw [d2'] at this
    rw [x2]
    exact Option.some.inj this
  have l2' : sd2.length = 274 := by rw [x2, l2]; simp
  subst x0 x3 x1
  rw [e]
  show ∃ out, (forRangeM 1 (mixFrame [0, a, b, 3] mixTiming 8184 mixFlipnote
      [[], List.replicate 274 0, sd2, []]) (List.replicate 272 0)).map
        (fun out => (out, (8184 : Int))) = some (out, 8184) ∧ _
  rw [forRangeM_succ, forRangeM_zero, Option.some_bind]
  rcases hab with ⟨rfl, rfl⟩ | ⟨rfl, rfl⟩
  · obtain ⟨out, hrun, hv⟩ := mix_two_channels { Frame.zero with Sound := [true, true, true, false] }
      [[], List.replicate 274 0, sd2, []] 1 2 (List.replicate 274 0) sd2 rfl rfl rfl rfl rfl rfl
      rfl rfl (by decide) (by decide) (List.length_replicate _ _) l2' (List.replicate 272 0)
      (List.length_replicate _ _)
    refine ⟨out, ?_, ?_⟩
    · have : mixFrame [0, 1, 2, 3] mixTiming 8184 mixFlipnote
          [[], List.replicate 274 0, sd2, []] 0 (List.replicate 272 0) = some out := hrun
      rw [this]; rfl
    · rw [hv, v2]; rfl
  · obtain ⟨out, hrun, hv⟩ := mix_two_channels { Frame.zero with Sound := [true, true, true, false] }
      [[], List.replicate 274 0, sd2, []] 2 1 sd2 (List.replicate 274 0) rfl rfl rfl rfl rfl rfl
      rfl rfl (by decide) (by decide) l2' (List.length_replicate _ _) (List.replicate 272 0)
      (List.length_replicate _ _)
    refine ⟨out, ?_, ?_⟩
    · have : mixFrame [0, 2, 1, 3] mixTiming 8184 mixFlipnote
          [[], List.replicate 274 0, sd2, []] 0 (List.replicate 272 0) = some out := hrun
      rw [this]; rfl
    · rw [hv, List.getD_eq_getElem?_getD, List.getElem?_replicate, if_pos (by decide)]
      rfl

/-! ## Audio decoder: step index and the code 0 -/


/-- Every decoder state after a code holds a step index inside the step
table and the table's entry for it as its step size. -/
theorem decodeCode_index (st : AdpcmState) (v : Nat) (st1 : AdpcmState)
    (h : decodeCode st v = some st1) :
    v < 16 ∧ 0 ≤ st1.stepIndex ∧ st1.stepIndex ≤ 88
      ∧ tableAt imaStepTable st1.stepIndex = some st1.step := by
  have hv : v < 16 := by
    by_contra hge
    have hnone : tableAt imaIndexTable (v : Int) = none := by
      unfold tableAt
      rw [if_neg (by omega), List.getElem?_eq_none]
      simp only [Int.toNat_ofNat]
      show 16 ≤ v
      omega
    simp [decodeCode, hnone] at h
  obtain ⟨inc, hinc, _, _⟩ := tableAt_index_isSome v hv
  have hlen : imaStepTable.length = 89 := rfl
  simp only [decodeCode, hinc, hlen, Option.bind_eq_bind, Option.some_bind, Option.pure_def] at h
  cases hs : tableAt imaStepTable (if st.stepIndex + inc < 0 then (0 : Int)
        else if st.stepIndex + inc ≥ ((89 : Nat) : Int) then ((89 : Nat) : Int) - 1
        else st.stepIndex + inc) with
  | none => rw [hs] at h; simp at h
  | some s =>
    rw [hs] at h
    simp only [Option.some_bind, Option.some.injEq] at h
    subst h
    refine ⟨hv, ?_, ?_, hs⟩
    · dsimp only; split_ifs <;> omega
    · dsimp only; split_ifs <;> omega

theorem decodeTrace_index (sound : List Byte) : ∀ (st : AdpcmState) (trace : List AdpcmState),
    decodeTrace st sound = some trace →
      ∀ s ∈ trace, 0 ≤ s.stepIndex ∧ s.stepIndex ≤ 88
        ∧ tableAt imaStepTable s.stepIndex = some s.step := by
  induction sound with
  | nil =>
    intro st trace h s hs
    simp only [decodeTrace, Option.some.injEq] at h
    subst h
    simp at hs
  | cons val rest ih =>
    intro st trace h s hs
    obtain ⟨st1, st2, hb, h1, h2⟩ := decodeByte_total st val
    obtain ⟨more, hm, _, _⟩ := decodeTrace_total rest st2
    have ht : trace = st1 :: st2 :: more := by
      simp [decodeTrace, hb, hm] at h
      exact h.symm
    subst ht
    simp only [List.mem_cons] at hs
    rcases hs with rfl | rfl | hs
    · exact (decodeCode_index _ _ _ h1).2
    · exact (decodeCode_index _ _ _ h2).2
    · exact ih st2 more hm s hs

/-- C18: for every channel byte sequence the decode succeeds; both 4-bit
codes of every byte index the 16-entry table in range; and after every code
the step index lies in 0..88 and the step table holds an entry for it, which
is the step size of the state. -/
theorem soundAsPCM_step_index_in_range (sound : List Byte) :
    ∃ st0 trace out, AdpcmState.fresh = some st0
      ∧ decodeTrace st0 sound = some trace
      ∧ trace.length = 2 * sound.length
      ∧ imaStepTable.length = 89 ∧ imaIndexTable.length = 16
      ∧ (∀ s ∈ trace, 0 ≤ s.stepIndex ∧ s.stepIndex ≤ 88
            ∧ tableAt imaStepTable s.stepIndex = some s.step)
      ∧ (∀ b ∈ sound, (tableAt imaIndexTable ((b.val &&& 0x0F : Nat) : Int)).isSome = true
            ∧ (tableAt imaIndexTable (((b.val >>> 4) &&& 0x0F : Nat) : Int)).isSome = true)
      ∧ decodeSound sound = some out ∧ out.length = 2 * sound.length := by
  obtain ⟨trace, ht, hlen, _⟩ :=
    decodeTrace_total sound { predictor := 0, stepIndex := 0, step := 7 }
  obtain ⟨out, hout, holen⟩ := decodeSound_total sound
  refine ⟨_, trace, out, fresh_eq, ht, hlen, rfl, rfl, decodeTrace_index sound _ _ ht, ?_,
    hout, holen⟩
  intro b _
  obtain ⟨i1, h1, _⟩ := tableAt_index_isSome (b.val &&& 0x0F) (nibble_lt _)
  obtain ⟨i2, h2, _⟩ := tableAt_index_isSome ((b.val >>> 4) &&& 0x0F) (nibble_lt _)
  rw [h1, h2]
  exact ⟨rfl, rfl⟩


theorem decodeCode_predictor (st : AdpcmState) (v : Nat) (st1 : AdpcmState)
    (h : decodeCode st v = some st1) :
    st1.predictor = if rawPredictor st v < -32768 then -32768
      else if rawPredictor st v > 32767 then 32767 else rawPredictor st v := by
  simp only [decodeCode, Option.bind_eq_bind, Option.pure_def] at h
  cases hinc : tableAt imaIndexTable (v : Int) with
  | none => rw [hinc] at h; simp at h
  | some inc =>
    rw [hinc] at h
    simp only [Option.some_bind] at h
    cases hs : tableAt imaStepTable (if st.stepIndex + inc < 0 then (0 : Int)
        else if st.stepIndex + inc ≥ (imaStepTable.length : Int)
          then (imaStepTable.length : Int) - 1
        else st.stepIndex + inc) with
    | none => rw [hs] at h; simp at h
    | some s =>
      rw [hs] at h
      simp only [Option.some_bind, Option.some.injEq] at h
      subst h
      rfl

theorem rawPredictor_zero (st : AdpcmState) : rawPredictor st 0 = st.predictor + st.step / 8 := by
  have h3 : st.step >>> (3 : Nat) = st.step / 8 := Int.shiftRight_eq_div_pow st.step 3
  simp [rawPredictor, codeDiff, h3]

/-- The state before any code of a channel is the fresh state or a state of
the trace; it holds a 16-bit predictor and a step size of at least 7. -/
theorem reachable_bounds (sound : List Byte) (st0 : AdpcmState) (trace : List AdpcmState)
    (st : AdpcmState) (h0 : AdpcmState.fresh = some st0)
    (ht : decodeTrace st0 sound = some trace) (hst : st ∈ st0 :: trace) :
    -32768 ≤ st.predictor ∧ st.predictor ≤ 32767 ∧ 7 ≤ st.step ∧ st.step ≤ 32767 := by
  have e0 : st0 = { predictor := 0, stepIndex := 0, step := 7 } :=
    Option.some.inj (h0.symm.trans fresh_eq)
  subst e0
  rcases List.mem_cons.mp hst with rfl | hmem
  · exact ⟨by decide, by decide, by decide, by decide⟩
  · obtain ⟨trace', ht', _, hall⟩ :=
      decodeTrace_total sound { predictor := 0, stepIndex := 0, step := 7 }
    have : trace' = trace := Option.some.inj (ht'.symm.trans ht)
    subst this
    obtain ⟨i0, i1, hstep⟩ := decodeTrace_index sound _ _ ht st hmem
    obtain ⟨s, hs, s7, s32⟩ := tableAt_step_isSome st.stepIndex i0 i1
    have : s = st.step := Option.some.inj (hs.symm.trans hstep)
    subst this
    exact ⟨(hall st hmem).1, (hall st hmem).2, s7, s32⟩

/-- C17 (amended): in every decoder state that `SoundAsPCM` reaches (the
fresh state or the state after any code of any channel), a 4-bit code of
value 0 is decoded, adds `step >> 3` (the step size divided by 8, rounded
down) to the predictor and clamps the sum to 32767; the sample emitted is
that predictor; it equals the predictor before the code exactly when the
step size is 7 or the predictor is already 32767. -/
theorem code_zero_adds_step_eighth (sound : List Byte) (st0 : AdpcmState)
    (trace : List AdpcmState) (st : AdpcmState) (h0 : AdpcmState.fresh = some st0)
    (ht : decodeTrace st0 sound = some trace) (hst : st ∈ st0 :: trace) :
    ∃ st1, decodeCode st 0 = some st1
      ∧ st1.predictor = min (st.predictor + st.step / 8) 32767
      ∧ toInt16 st1.predictor = st1.predictor
      ∧ (st1.predictor = st.predictor ↔ st.step = 7 ∨ st.predictor = 32767) := by
  obtain ⟨plo, phi, s7, s32⟩ := reachable_bounds sound st0 trace st h0 ht hst
  obtain ⟨st1, h1, _, _, _, _, lo1, hi1, _⟩ := decodeCode_total st 0 (by decide)
  have hp := decodeCode_predictor st 0 st1 h1
  rw [rawPredictor_zero] at hp
  have hval : st1.predictor = min (st.predictor + st.step / 8) 32767 := by
    rw [hp]
    split_ifs <;> omega
  refine ⟨st1, h1, hval, toInt16_of_range _ lo1 hi1, ?_⟩
  rw [hval]
  omega

theorem code_zero_adds_step_eighth_witness :
    ∃ st1, decodeCode { predictor := 7, stepIndex := 2, step := 9 } 0 = some st1
      ∧ st1.predictor = min ((7 : Int) + 9 / 8) 32767
      ∧ toInt16 st1.predictor = st1.predictor
      ∧ (st1.predictor = 7 ↔ (9 : Int) = 7 ∨ (7 : Int) = 32767) :=
  code_zero_adds_step_eighth [0x04] { predictor := 0, stepIndex := 0, step := 7 }
    [{ predictor := 7, stepIndex := 2, step := 9 }, { predictor := 8, stepIndex := 1, step := 8 }]
    { predictor := 7, stepIndex := 2, step := 9 } (by decide) (by decide) (by decide)

/-- C17 fails as stated: the byte 0x04 holds the codes 4 and 0; the code 4
leaves the predictor 7 and the step size 9, and the code 0 after it emits
the sample 8, not 7. -/
theorem code_zero_changes_predictor :
    decodeSound [0x04] = some [7, 8]
    ∧ decodeTrace { predictor := 0, stepIndex := 0, step := 7 } [0x04]
        = some [{ predictor := 7, stepIndex := 2, step := 9 },
                { predictor := 8, stepIndex := 1, step := 8 }]
    ∧ (0x04 : Byte).val >>> 4 &&& 0x0F = 0
    ∧ decodeCode { predictor := 7, stepIndex := 2, step := 9 } 0
        = some { predictor := 8, stepIndex := 1, step := 8 } := by
  decide

/-! ## Frame decoder: claims -/

/-- C4: a frame that is frame 0 or has flags bit 7 set is decoded without
reference to any earlier frame: its layers are the line edits of its payload
applied to two all-false 256x192 bitmaps, and a second animation section in
which frame `i` has the same payload bytes (the `iEnd` bytes that the decoder
reads from the start of the frame) gives the same frame `i`, whatever its
other frames are.  The frames are the fresh ones, `make([]Frame, n)`, that
`ReadFlipnote` hands to `readAnimationData`. -/
theorem keyframe_layers_independent (n : Nat) (a b : List Byte) (ra rb : List Frame)
    (i oa ob : Nat) (pa pb : List Byte) (fb : Byte)
    (ha : readAnimationFrames (List.replicate n Frame.zero) a = some ra)
    (hb : readAnimationFrames (List.replicate n Frame.zero) b = some rb)
    (hi : i < n) (hoa : animationEnd a = some oa) (hob : animationEnd b = some ob)
    (hpa : framePayload a oa i = some pa) (hpb : framePayload b ob i = some pb)
    (hfb : pa[0]? = some fb) (hkey : i = 0 ∨ fb.val &&& 128 ≠ 0) :
    ∃ d iEnd, decodeLines pa 1 blankData = some (d, iEnd)
      ∧ ra[i]? = some { Frame.zero with flags := fb, data := d }
      ∧ ((∀ idx, idx < iEnd → pa[idx]? = pb[idx]?) →
          rb[i]? = some { Frame.zero with flags := fb, data := d }) := by
  have hlen : i < (List.replicate n Frame.zero).length := by
    rw [List.length_replicate]; exact hi
  obtain ⟨_, hfa⟩ := readAnimationFrames_frame _ a ra ha
  obtain ⟨_, hfb'⟩ := readAnimationFrames_frame _ b rb hb
  obtain ⟨oa', fda, fba, cura, d0a, iBa, da, iEa, a1, a2, a3, a4, a5, a6, a7⟩ := hfa i hlen
  obtain ⟨ob', fdb, fbb, curb, d0b, iBb, db, iEb, b1, b2, b3, b4, b5, b6, b7⟩ := hfb' i hlen
  have e1 : oa' = oa := Option.some.inj (a1.symm.trans hoa)
  have e2 : ob' = ob := Option.some.inj (b1.symm.trans hob)
  subst e1 e2
  have e3 : fda = pa := Option.some.inj (a2.symm.trans hpa)
  have e4 : fdb = pb := Option.some.inj (b2.symm.trans hpb)
  subst e3 e4
  have e5 : fba = fb := Option.some.inj (a3.symm.trans hfb)
  subst e5
  have e7 : cura = Frame.zero := Option.some.inj (a4.symm.trans (fresh_getElem? n i hi))
  have e8 : curb = Frame.zero := Option.some.inj (b4.symm.trans (fresh_getElem? n i hi))
  subst e7 e8
  rw [startLayers_key _ _ _ _ _ hkey] at a5
  have e9 := Option.some.inj a5
  have hd0a : d0a = blankData := (congrArg Prod.fst e9).symm
  have hiBa : iBa = 1 := (congrArg Prod.snd e9).symm
  subst hd0a hiBa
  obtain ⟨hge, hloc⟩ := decodeLines_local fda fdb 1 blankData (da, iEa) a6
  refine ⟨da, iEa, a6, a7, fun hag => ?_⟩
  have hfbb : fbb = fba := by
    have h0 := hag 0 (by simp only at hge; omega)
    exact Option.some.inj (b3.symm.trans (h0.symm.trans a3))
  subst hfbb
  rw [startLayers_key _ _ _ _ _ hkey] at b5
  have e10 := Option.some.inj b5
  have hd0b : d0b = blankData := (congrArg Prod.fst e10).symm
  have hiBb : iBb = 1 := (congrArg Prod.snd e10).symm
  subst hd0b hiBb
  have e11 : (db, iEb) = (da, iEa) := Option.some.inj (b6.symm.trans (hloc hag))
  have hda : db = da := congrArg Prod.fst e11
  subst hda
  exact b7

/-- C5: a delta frame (index above 0, flags bit 7 clear) whose line modes are
all 0 is the previous frame translated by `(dx, dy)`: each layer bit at
`(x, y)` is the previous frame's bit at `(x - dx, y - dy)` when that lies in
the 256x192 grid, and false otherwise; `(dx, dy)` is `(0, 0)` when flags bit 6
is clear and otherwise the two's-complement values, in -128..127, of the two
bytes after the flags byte; the copy performs no write outside the grid. -/
theorem delta_frame_translated_copy (n : Nat) (a : List Byte) (r : List Frame)
    (i oEnd : Nat) (pay : List Byte) (fb : Byte) (dx dy : Int) (iBase : Nat)
    (h : readAnimationFrames (List.replicate n Frame.zero) a = some r)
    (hi0 : 0 < i) (hin : i < n)
    (hoe : animationEnd a = some oEnd) (hp : framePayload a oEnd i = some pay)
    (hfb : pay[0]? = some fb) (hdelta : fb.val &&& 128 = 0)
    (hoff : readOffsets pay fb.val 1 = some (dx, dy, iBase))
    (hmodes : ∀ j, j < 2 → ∀ k, k < 192 → lineDecodeMode pay iBase j k = some 0) :
    (∃ prev cur, r[i - 1]? = some prev ∧ r[i]? = some cur
      ∧ (∃ d, copyPrev prev.data dx dy blankData = some d)
      ∧ ∀ j y x, j < 2 → y < 192 → x < 256 →
          getBit cur.data j y x
            = if 0 ≤ (y : Int) - dy ∧ (y : Int) - dy < 192
                  ∧ 0 ≤ (x : Int) - dx ∧ (x : Int) - dx < 256 then
                getBit prev.data j ((y : Int) - dy).toNat ((x : Int) - dx).toNat
              else false)
    ∧ -128 ≤ dx ∧ dx ≤ 127 ∧ -128 ≤ dy ∧ dy ≤ 127
    ∧ (fb.val &&& 64 = 0 → dx = 0 ∧ dy = 0)
    ∧ (fb.val &&& 64 ≠ 0 → ∃ bx by_, pay[1]? = some bx ∧ pay[2]? = some by_
        ∧ dx = (if bx.val < 128 then (bx.val : Int) else (bx.val : Int) - 256)
        ∧ dy = (if by_.val < 128 then (by_.val : Int) else (by_.val : Int) - 256)) := by
  have hlen : i < (List.replicate n Frame.zero).length := by
    rw [List.length_replicate]; exact hin
  obtain ⟨_, hf⟩ := readAnimationFrames_frame _ a r h
  obtain ⟨oEnd', fd, fb', cur, d0, iB, d, iE, a1, a2, a3, a4, a5, a6, a7⟩ := hf i hlen
  have e1 : oEnd' = oEnd := Option.some.inj (a1.symm.trans hoe)
  subst e1
  have e3 : fd = pay := Option.some.inj (a2.symm.trans hp)
  subst e3
  have e5 : fb' = fb := Option.some.inj (a3.symm.trans hfb)
  subst e5
  have e7 : cur = Frame.zero := Option.some.inj (a4.symm.trans (fresh_getElem? n i hin))
  subst e7
  obtain ⟨ox, oy, ib, prev, s1, s2, s3⟩ := startLayers_delta _ _ _ _ _ hi0 hdelta _ a5
  have e8 := Option.some.inj (s1.symm.trans hoff)
  simp only [Prod.mk.injEq] at e8 s3
  obtain ⟨rfl, rfl, rfl⟩ := e8
  obtain ⟨rfl, rfl⟩ := s3
  rw [decodeLines_all_mode0 _ _ _ hmodes] at a6
  have e9 := Option.some.inj a6
  simp only [Prod.mk.injEq] at e9
  obtain ⟨rfl, _⟩ := e9
  obtain ⟨o1, o2⟩ := readOffsets_spec _ _ _ _ _ hoff
  have hrange : -128 ≤ ox ∧ ox ≤ 127 ∧ -128 ≤ oy ∧ oy ≤ 127 := by
    by_cases h64 : fb'.val &&& 64 = 0
    · obtain ⟨rfl, rfl, _⟩ := o1 h64
      omega
    · obtain ⟨bx, by_, _, _, hx, hy, _⟩ := o2 h64
      have := bx.isLt; have := by_.isLt
      rw [hx, hy]
      split_ifs <;> omega
  refine ⟨⟨prev, _, s2, a7, ⟨_, copyPrev_eq_pure _ _ _ _⟩, ?_⟩, hrange.1, hrange.2.1,
    hrange.2.2.1, hrange.2.2.2, fun h64 => ⟨(o1 h64).1, (o1 h64).2.1⟩, ?_⟩
  · intro j y x hj hy hx
    dsimp only
    have hz : Frame.zero.data = blankData := rfl
    rw [hz, (copyPrevPure_spec prev.data ox oy blankData_dims).2 j y x hj hy hx,
      getBit_blankData]
  · intro h64
    obtain ⟨bx, by_, h1, h2, h3, h4, _⟩ := o2 h64
    exact ⟨bx, by_, h1, h2, h3, h4⟩

/-- C8: a line whose decode mode is 0 has, after the whole frame is decoded,
exactly the 256 bits it had in the frame's start layers (blank for a frame
that is frame 0 or has flags bit 7 set, else the translated copy of the
previous frame): no other line or layer of the frame writes to it. -/
theorem mode0_line_unchanged (n : Nat) (a : List Byte) (r : List Frame)
    (i oEnd : Nat) (pay : List Byte) (fb : Byte)
    (h : readAnimationFrames (List.replicate n Frame.zero) a = some r)
    (hin : i < n) (hoe : animationEnd a = some oEnd) (hp : framePayload a oEnd i = some pay)
    (hfb : pay[0]? = some fb) :
    ∃ d0 iBase cur, startLayers pay fb.val i r blankData = some (d0, iBase)
      ∧ r[i]? = some cur
      ∧ (i = 0 ∨ fb.val &&& 128 ≠ 0 → d0 = blankData)
      ∧ (0 < i → fb.val &&& 128 = 0 → ∃ dx dy prev, readOffsets pay fb.val 1 = some (dx, dy, iBase)
          ∧ r[i - 1]? = some prev ∧ copyPrev prev.data dx dy blankData = some d0)
      ∧ ∀ j k, lineDecodeMode pay iBase j k = some 0 →
          ∀ l, getBit cur.data j k l = getBit d0 j k l := by
  have hlen : i < (List.replicate n Frame.zero).length := by
    rw [List.length_replicate]; exact hin
  obtain ⟨_, hf⟩ := readAnimationFrames_frame _ a r h
  obtain ⟨oEnd', fd, fb', cur, d0, iB, d, iE, a1, a2, a3, a4, a5, a6, a7⟩ := hf i hlen
  have e1 : oEnd' = oEnd := Option.some.inj (a1.symm.trans hoe)
  subst e1
  have e3 : fd = pay := Option.some.inj (a2.symm.trans hp)
  subst e3
  have e5 : fb' = fb := Option.some.inj (a3.symm.trans hfb)
  subst e5
  have e7 : cur = Frame.zero := Option.some.inj (a4.symm.trans (fresh_getElem? n i hin))
  subst e7
  have hd0 : Dims d0 := startLayers_dims _ _ _ _ blankData_dims _ a5
  obtain ⟨_, hsame⟩ := decodeLines_frame fd iB hd0 _ a6
  refine ⟨d0, iB, _, a5, a7, ?_, ?_, fun j k hm l => hsame j k l hm⟩
  · intro hkey
    have := startLayers_key fd fb'.val i r Frame.zero.data hkey
    rw [this] at a5
    exact (congrArg Prod.fst (Option.some.inj a5)).symm
  · intro hi0 hdelta
    obtain ⟨ox, oy, ib, prev, s1, s2, s3⟩ := startLayers_delta _ _ _ _ _ hi0 hdelta _ a5
    simp only [Prod.mk.injEq] at s3
    obtain ⟨rfl, rfl⟩ := s3
    exact ⟨ox, oy, prev, s1, s2, copyPrev_eq_pure _ _ _ _⟩

/-- C6: a line in decode mode 3 consumes exactly 32 payload bytes (the decode
succeeds when 32 bytes are available at the read position and panics when
they are not), and pixel `p` of the line becomes its value before the line
XOR bit `p mod 8` (least significant first) of payload byte `p div 8`. -/
theorem raw_line_toggles_every_pixel (frameData : List Byte) (iBase j k i : Nat)
    (d : LayerData) (hd : Dims d) (hj : j < 2) (hk : k < 192)
    (hmode : lineDecodeMode frameData iBase j k = some 3) :
    (i + 32 ≤ frameData.length →
      ∃ d', decodeLine frameData iBase j k (d, i) = some (d', i + 32)
        ∧ ∀ p, p < 256 →
            getBit d' j k p
              = xor (getBit d j k p) ((frameData.getD (i + p / 8) 0).val.testBit (p % 8)))
    ∧ (frameData.length < i + 32 → decodeLine frameData iBase j k (d, i) = none) := by
  rw [decodeLine_raw _ _ _ _ _ hmode]
  constructor
  · intro hlen
    obtain ⟨d', hrun, _, hget⟩ := rawLine_spec frameData hd hj hk i hlen
    refine ⟨d', hrun, fun p hp => ?_⟩
    rw [hget, if_pos ⟨rfl, rfl, hp⟩]
  · intro hlen
    cases hr : rawLine frameData j k d i with
    | none => rfl
    | some r =>
      have := rawLine_needs_bytes frameData j k d i r hr
      omega

/-- C7: a line in decode mode 1 or 2 with mask `m` consumes exactly
`4 + popcount m` payload bytes, at most 32 of them group bytes; group `g` owns
a byte exactly when bit `31 - g` of `m` is set (the position of the byte of
group `g` advances by one for every set bit above it); and in mode 1 a pixel
of a group whose bit is clear keeps its value, while a pixel of a group whose
bit is set is XORed with bit `p mod 8` of the group's byte. -/
theorem coded_line_reads_masked_groups (frameData : List Byte) (iBase j k i mode m : Nat)
    (d : LayerData) (hd : Dims d) (hj : j < 2) (hk : k < 192)
    (hmode : lineDecodeMode frameData iBase j k = some mode) (h12 : mode = 1 ∨ mode = 2)
    (hm : beUint32 frameData i = some m) :
    popCount32 m ≤ 32
    ∧ (i + 4 + popCount32 m ≤ frameData.length →
        ∃ d', decodeLine frameData iBase j k (d, i) = some (d', i + 4 + popCount32 m)
          ∧ ∀ p, p < 256 →
              (m.testBit (31 - p / 8) = false → mode = 1 → getBit d' j k p = getBit d j k p)
              ∧ (m.testBit (31 - p / 8) = true → mode = 1 →
                  getBit d' j k p = xor (getBit d j k p)
                    ((frameData.getD (i + 4 + maskCount m (p / 8)) 0).val.testBit (p % 8))))
    ∧ (frameData.length < i + 4 + popCount32 m → decodeLine frameData iBase j k (d, i) = none)
    ∧ maskCount m 0 = 0 ∧ maskCount m 32 = popCount32 m
    ∧ ∀ g, g < 32 →
        maskCount m (g + 1) = maskCount m g + (if m.testBit (31 - g) = true then 1 else 0) := by
  rw [decodeLine_coded _ _ _ _ _ _ hmode h12]
  refine ⟨popCount32_le m, ?_, ?_, rfl, maskCount_32 m, fun g _ => rfl⟩
  · intro hlen
    obtain ⟨d', hrun, _, hget⟩ := codedLine_spec frameData hd hj hk mode i m hm hlen
    refine ⟨d', hrun, fun p hp => ⟨?_, ?_⟩⟩
    · intro hbit h1
      rw [hget, if_pos ⟨rfl, rfl, hp⟩, codedPixel, if_neg (by omega), groupToggle,
        if_neg (by simp [hbit])]
    · intro hbit h1
      rw [hget, if_pos ⟨rfl, rfl, hp⟩, codedPixel, if_neg (by omega), groupToggle,
        if_pos hbit, shift_and_one_eq_one, Bool.bne_eq_xor]
  · intro hlen
    cases hr : codedLine frameData j k mode d i with
    | none => rfl
    | some r =>
      obtain ⟨m', hm', hlen'⟩ := codedLine_needs_bytes frameData hd hj hk mode i r hr
      have : m' = m := Option.some.inj (hm'.symm.trans hm)
      subst this
      omega

/-! ## Frame decoder: the claims at concrete inputs -/

set_option maxRecDepth 100000 in
theorem rawPayload_mode : lineDecodeMode rawPayload 1 0 0 = some 3 := by decide!

set_option maxRecDepth 100000 in
theorem raw_line_toggles_every_pixel_witness :
    ∃ d', decodeLine rawPayload 1 0 0 (blankData, 97) = some (d', 97 + 32)
      ∧ ∀ p, p < 256 →
          getBit d' 0 0 p
            = xor (getBit blankData 0 0 p) ((rawPayload.getD (97 + p / 8) 0).val.testBit (p % 8)) :=
  (raw_line_toggles_every_pixel rawPayload 1 0 0 97 blankData blankData_dims (by decide)
    (by decide) rawPayload_mode).1 (by decide!)

set_option maxRecDepth 100000 in
theorem codedPayload_mode : lineDecodeMode codedPayload 1 0 0 = some 1 := by decide!

set_option maxRecDepth 100000 in
theorem codedPayload_mask : beUint32 codedPayload 97 = some 2147483649 := by decide!

set_option maxRecDepth 100000 in
theorem coded_line_reads_masked_groups_witness :
    popCount32 2147483649 ≤ 32
    ∧ (97 + 4 + popCount32 2147483649 ≤ codedPayload.length →
        ∃ d', decodeLine codedPayload 1 0 0 (blankData, 97)
            = some (d', 97 + 4 + popCount32 2147483649)
          ∧ ∀ p, p < 256 →
              (Nat.testBit 2147483649 (31 - p / 8) = false → 1 = 1 →
                getBit d' 0 0 p = getBit blankData 0 0 p)
              ∧ (Nat.testBit 2147483649 (31 - p / 8) = true → 1 = 1 →
                  getBit d' 0 0 p = xor (getBit blankData 0 0 p)
                    ((codedPayload.getD (97 + 4 + maskCount 2147483649 (p / 8)) 0).val.testBit
                      (p % 8))))
    ∧ (codedPayload.length < 97 + 4 + popCount32 2147483649 →
        decodeLine codedPayload 1 0 0 (blankData, 97) = none)
    ∧ maskCount 2147483649 0 = 0 ∧ maskCount 2147483649 32 = popCount32 2147483649
    ∧ ∀ g, g < 32 →
        maskCount 2147483649 (g + 1)
          = maskCount 2147483649 g + (if Nat.testBit 2147483649 (31 - g) = true then 1 else 0) :=
  coded_line_reads_masked_groups codedPayload 1 0 0 97 1 2147483649 blankData blankData_dims
    (by decide) (by decide) codedPayload_mode (Or.inl rfl) codedPayload_mask

set_option maxRecDepth 1000000 in
theorem sectionA_decodes :
    (readAnimationFrames (List.replicate 2 Frame.zero) sectionA).isSome = true := by decide!

set_option maxRecDepth 1000000 in
theorem sectionB_decodes :
    (readAnimationFrames (List.replicate 2 Frame.zero) sectionB).isSome = true := by decide!

set_option maxRecDepth 1000000 in
theorem sectionA_payload : framePayload sectionA 16 1 = some keyPayload := by decide!

set_option maxRecDepth 1000000 in
theorem sectionB_payload : framePayload sectionB 16 1 = some (keyPayload ++ [0xFF, 0xFF]) := by
  decide!

set_option maxRecDepth 1000000 in
theorem keyframe_layers_independent_witness :
    ∃ d iEnd, decodeLines keyPayload 1 blankData = some (d, iEnd)
      ∧ ((readAnimationFrames (List.replicate 2 Frame.zero) sectionA).getD [])[1]?
          = some { Frame.zero with flags := 0x80, data := d }
      ∧ ((∀ idx, idx < iEnd → keyPayload[idx]? = (keyPayload ++ [0xFF, 0xFF])[idx]?) →
          ((readAnimationFrames (List.replicate 2 Frame.zero) sectionB).getD [])[1]?
            = some { Frame.zero with flags := 0x80, data := d }) :=
  keyframe_layers_independent 2 sectionA sectionB _ _ 1 16 16 keyPayload
    (keyPayload ++ [0xFF, 0xFF]) 0x80
    (eq_some_getD sectionA_decodes []) (eq_some_getD sectionB_decodes [])
    (by decide) (by decide!) (by decide!) sectionA_payload sectionB_payload (by decide!)
    (Or.inr (by decide))

set_option maxRecDepth 1000000 in
theorem sectionC_step0_eq :
    frameStep sectionC 16 0 [Frame.zero, Frame.zero] = some sectionC_step0 :=
  eq_some_getD (by decide!) []

set_option maxRecDepth 1000000 in
theorem sectionC_payload : framePayload sectionC 16 1 = some deltaPayload := by decide!

set_option maxRecDepth 1000000 in
theorem deltaPayload_modes :
    ∀ j, j < 2 → ∀ k, k < 192 → lineDecodeMode deltaPayload 3 j k = some 0 := by decide!

theorem sectionC_cur : sectionC_step0[1]? = some Frame.zero := by
  rw [(frameStep_shape _ _ _ _ _ sectionC_step0_eq).2 1 (by decide)]
  rfl

theorem sectionC_prev : sectionC_step0[1 - 1]? = some (sectionC_step0.getD 0 Frame.zero) := by
  have hlen : sectionC_step0.length = 2 := (frameStep_shape _ _ _ _ _ sectionC_step0_eq).1
  exact getElem?_eq_some_getD sectionC_step0 (1 - 1) (by rw [hlen]; decide) Frame.zero

theorem sectionC_decodes :
    readAnimationFrames (List.replicate 2 Frame.zero) sectionC = some sectionC_frames :=
  readAnimationFrames_two sectionC 16 Frame.zero Frame.zero sectionC_step0 sectionC_frames
    (by decide!) sectionC_step0_eq
    (frameStep_delta_mode0 sectionC 16 1 sectionC_step0 deltaPayload 0x40 Frame.zero
      (sectionC_step0.getD 0 Frame.zero) (-1) 2 3 sectionC_payload (by decide!) sectionC_cur
      sectionC_prev (by decide) (by decide) (by decide!) deltaPayload_modes)

theorem delta_frame_translated_copy_witness :
    ∃ prev cur, sectionC_frames[1 - 1]? = some prev ∧ sectionC_frames[1]? = some cur
      ∧ (∃ d, copyPrev prev.data (-1) 2 blankData = some d)
      ∧ ∀ j y x, j < 2 → y < 192 → x < 256 →
          getBit cur.data j y x
            = if 0 ≤ (y : Int) - 2 ∧ (y : Int) - 2 < 192
                  ∧ 0 ≤ (x : Int) - (-1) ∧ (x : Int) - (-1) < 256 then
                getBit prev.data j ((y : Int) - 2).toNat ((x : Int) - (-1)).toNat
              else false :=
  (delta_frame_translated_copy 2 sectionC sectionC_frames 1 16 deltaPayload 0x40 (-1) 2 3
    sectionC_decodes (by decide) (by decide) (by decide!) sectionC_payload (by decide!)
    (by decide) (by decide!) deltaPayload_modes).1

set_option maxRecDepth 1000000 in
theorem sectionB_payload0 : framePayload sectionB 16 0 = some sectionB_frame0 := by
  decide!

theorem mode0_line_unchanged_witness :
    ∃ d0 iBase cur,
      startLayers sectionB_frame0 (0 : Byte).val 0
        ((readAnimationFrames (List.replicate 2 Frame.zero) sectionB).getD []) blankData
        = some (d0, iBase)
      ∧ ((readAnimationFrames (List.replicate 2 Frame.zero) sectionB).getD [])[0]? = some cur
      ∧ (0 = 0 ∨ (0 : Byte).val &&& 128 ≠ 0 → d0 = blankData)
      ∧ (0 < 0 → (0 : Byte).val &&& 128 = 0 → ∃ dx dy prev,
          readOffsets sectionB_frame0 (0 : Byte).val 1 = some (dx, dy, iBase)
          ∧ ((readAnimationFrames (List.replicate 2 Frame.zero) sectionB).getD [])[0 - 1]?
              = some prev
          ∧ copyPrev prev.data dx dy blankData = some d0)
      ∧ ∀ j k, lineDecodeMode sectionB_frame0 iBase j k = some 0 →
          ∀ l, getBit cur.data j k l = getBit d0 j k l :=
  mode0_line_unchanged 2 sectionB _ 0 16 _ 0 (eq_some_getD sectionB_decodes []) (by decide)
    (by decide!) sectionB_payload0 (by decide!)

/-! ## Animation section: the boundary and mode 2 -/

set_option maxRecDepth 1000000 in
theorem keyPayload_modes :
    ∀ j, j < 2 → ∀ k, k < 192 → lineDecodeMode keyPayload 1 j k = some 0 := by decide!

set_option maxRecDepth 1000000 in
theorem wrapSection_payload : framePayload wrapSection 0 0 = some keyPayload := by decide!

theorem wrapSection_decodes :
    readAnimationFrames [Frame.zero] wrapSection = some [{ Frame.zero with flags := 0x80 }] := by
  have hoe : animationEnd wrapSection = some 0 := by decide
  have hflag : keyPayload[0]? = some (0x80 : Byte) := rfl
  have hcur : [Frame.zero][0]? = some Frame.zero := rfl
  unfold readAnimationFrames
  rw [hoe]
  show forRangeM 1 (frameStep wrapSection 0) [Frame.zero] = _
  rw [forRangeM_succ, forRangeM_zero, Option.some_bind, frameStep, wrapSection_payload]
  simp only
  rw [decodeFrame, hflag, hcur]
  simp only
  rw [startLayers_key keyPayload _ 0 _ _ (Or.inl rfl)]
  simp only
  rw [decodeLines_all_mode0 keyPayload 1 _ keyPayload_modes]
  rfl

set_option maxRecDepth 100000 in
/-- C16 fails on the code: the section `wrapSection` holds the 16-bit value
65528 at offset 0 and the offset 12 for frame 0.  The sum `8 + 65528` is
computed in 16 bits, so `oEnd` is 0, not 65536; frame 0 is decoded from the
section offset 12, whereas the offset `65536 + 12` lies past the end of the
109-byte section. -/
theorem animation_end_wraps :
    leUint16 wrapSection 0 = some 65528
    ∧ animationEnd wrapSection = some 0
    ∧ leUint32 wrapSection 8 = some 12
    ∧ wrapSection.length = 109
    ∧ framePayload wrapSection 0 0 = some (wrapSection.drop 12)
    ∧ framePayload wrapSection (8 + 65528) 0 = none
    ∧ readAnimationFrames [Frame.zero] wrapSection = some [{ Frame.zero with flags := 0x80 }] := by
  refine ⟨by decide, by decide, by decide, by decide, ?_, by decide, wrapSection_decodes⟩
  rw [wrapSection_payload]
  decide


/-- C20: a line decoded in mode 2 with mask `m`, in a payload that holds the
mask and its group bytes, ends up as follows: a pixel of a group whose mask
bit is set is its value before the line XOR the pixel's bit of the group's
byte, which is the value that the decoder of mode 1 computes from the same
mask and bytes; a pixel of a group whose mask bit is clear is the negation of
its value before the line; every other line is unchanged. -/
theorem mode2_line_net_effect (frameData : List Byte) (iBase j k i m : Nat) (d : LayerData)
    (hd : Dims d) (hj : j < 2) (hk : k < 192)
    (hmode : lineDecodeMode frameData iBase j k = some 2)
    (hm : beUint32 frameData i = some m)
    (hlen : i + 4 + popCount32 m ≤ frameData.length) :
    ∃ d2 d1, decodeLine frameData iBase j k (d, i) = some (d2, i + 4 + popCount32 m)
      ∧ codedLine frameData j k 1 d i = some (d1, i + 4 + popCount32 m)
      ∧ (∀ p, p < 256 →
          (m.testBit (31 - p / 8) = true →
            getBit d2 j k p = xor (getBit d j k p)
              ((frameData.getD (i + 4 + maskCount m (p / 8)) 0).val.testBit (p % 8))
            ∧ getBit d2 j k p = getBit d1 j k p)
          ∧ (m.testBit (31 - p / 8) = false → getBit d2 j k p = !getBit d j k p))
      ∧ ∀ j' k' l', (j' ≠ j ∨ k' ≠ k) → getBit d2 j' k' l' = getBit d j' k' l' := by
  rw [decodeLine_coded _ _ _ _ _ _ hmode (Or.inr rfl)]
  obtain ⟨d2, hrun2, _, hget2⟩ := codedLine_spec frameData hd hj hk 2 i m hm hlen
  obtain ⟨d1, hrun1, _, hget1⟩ := codedLine_spec frameData hd hj hk 1 i m hm hlen
  refine ⟨d2, d1, hrun2, hrun1, fun p hp => ⟨?_, ?_⟩, fun j' k' l' hne => ?_⟩
  · intro hbit
    have h2 : getBit d2 j k p = xor (getBit d j k p)
        ((frameData.getD (i + 4 + maskCount m (p / 8)) 0).val.testBit (p % 8)) := by
      rw [hget2, if_pos ⟨rfl, rfl, hp⟩, codedPixel, if_pos rfl, groupToggle, if_pos hbit,
        shift_and_one_eq_zero]
      cases getBit d j k p <;>
        cases (frameData.getD (i + 4 + maskCount m (p / 8)) 0).val.testBit (p % 8) <;> rfl
    refine ⟨h2, ?_⟩
    rw [h2, hget1, if_pos ⟨rfl, rfl, hp⟩, codedPixel, if_neg (by decide), groupToggle,
      if_pos hbit, shift_and_one_eq_one, Bool.bne_eq_xor]
  · intro hbit
    rw [hget2, if_pos ⟨rfl, rfl, hp⟩, codedPixel, if_pos rfl, groupToggle,
      if_neg (by simp [hbit])]
  · rw [hget2, if_neg]
    rintro ⟨h1, h2, _⟩
    rcases hne with h | h
    · exact h h1
    · exact h h2

set_option maxRecDepth 100000 in
theorem invPayload_mode : lineDecodeMode invPayload 1 0 0 = some 2 := by decide!

set_option maxRecDepth 100000 in
theorem invPayload_mask : beUint32 invPayload 97 = some 2147483649 := by decide!

set_option maxRecDepth 100000 in
theorem mode2_line_net_effect_witness :
    ∃ d2 d1, decodeLine invPayload 1 0 0 (blankData, 97)
        = some (d2, 97 + 4 + popCount32 2147483649)
      ∧ codedLine invPayload 0 0 1 blankData 97 = some (d1, 97 + 4 + popCount32 2147483649)
      ∧ (∀ p, p < 256 →
          (Nat.testBit 2147483649 (31 - p / 8) = true →
            getBit d2 0 0 p = xor (getBit blankData 0 0 p)
              ((invPayload.getD (97 + 4 + maskCount 2147483649 (p / 8)) 0).val.testBit (p % 8))
            ∧ getBit d2 0 0 p = getBit d1 0 0 p)
          ∧ (Nat.testBit 2147483649 (31 - p / 8) = false →
              getBit d2 0 0 p = !getBit blankData 0 0 p))
      ∧ ∀ j' k' l', (j' ≠ 0 ∨ k' ≠ 0) → getBit d2 j' k' l' = getBit blankData j' k' l' :=
  mode2_line_net_effect invPayload 1 0 0 97 2147483649 blankData blankData_dims
    (by decide) (by decide) invPayload_mode invPayload_mask (by decide)

/-! ## Container parser: lemmas and claims -/

theorem header_magic (r : List Byte) :
    sliceOf (readInto r 0x6A0).1 0 4
      = some (r.take 4 ++ List.replicate (4 - r.length) 0) := by
  have hlen : (readInto r 0x6A0).1.length = 0x6A0 := by
    simp only [readInto, List.length_append, List.length_take, List.length_replicate]
    omega
  unfold sliceOf
  rw [if_pos ⟨by omega, by rw [hlen]; norm_num⟩]
  simp only [readInto, List.drop_zero, Nat.sub_zero]
  congr 1
  rw [List.take_append_eq_append_take, List.take_take, List.take_replicate, List.length_take]
  congr 2
  omega

theorem padded_ne_magic (r : List Byte) (h : r.take 4 ≠ magic) :
    r.take 4 ++ List.replicate (4 - r.length) 0 ≠ magic := by
  by_cases hl : 4 ≤ r.length
  · have : 4 - r.length = 0 := by omega
    rw [this]
    simpa using h
  · intro heq
    have hlast := congrArg (fun l => l[3]?) heq
    simp only [magic] at hlast
    have ht : (r.take 4).length = r.length := by rw [List.length_take]; omega
    rw [List.getElem?_append_right (by omega)] at hlast
    rw [List.getElem?_replicate, if_pos (by omega)] at hlast
    exact absurd hlast (by decide)

/-- C9: a stream whose first four bytes are not "PARA" (a stream shorter than
four bytes included) makes `ReadFlipnote` return the error "Invalid magic!"
and no container; the result does not depend on the section decoders, which
are not called. -/
theorem readFlipnote_bad_magic (r : List Byte) (h : r.take 4 ≠ magic) :
    ReadFlipnote r = some (ReadResult.error "Invalid magic!")
    ∧ ∀ animationDecoder soundDecoder,
        ReadFlipnoteWith animationDecoder soundDecoder r
          = some (ReadResult.error "Invalid magic!") := by
  have key : ∀ animationDecoder soundDecoder,
      ReadFlipnoteWith animationDecoder soundDecoder r
        = some (ReadResult.error "Invalid magic!") := by
    intro ad sd
    unfold ReadFlipnoteWith
    simp only [header_magic]
    rw [if_pos (padded_ne_magic r h)]
  exact ⟨key _ _, key⟩

theorem readFlipnote_bad_magic_witness :
    ReadFlipnote [0x50, 0x41, 0x52] = some (ReadResult.error "Invalid magic!")
    ∧ ∀ animationDecoder soundDecoder,
        ReadFlipnoteWith animationDecoder soundDecoder [0x50, 0x41, 0x52]
          = some (ReadResult.error "Invalid magic!") :=
  readFlipnote_bad_magic [0x50, 0x41, 0x52] (by decide)

/-! ## Sound section: lemmas -/

theorem set_four {α : Type} (l : List α) (h : l.length = 4) (a b c d : α) :
    (((l.set 0 a).set 1 b).set 2 c).set 3 d = [a, b, c, d] := by
  match l, h with
  | [_, _, _, _], _ => rfl

theorem leUint32_of_le (b : List Byte) (off : Nat) (h : off + 4 ≤ b.length) :
    leUint32 b off = some ((leUint32 b off).getD 0) := by
  apply eq_some_getD
  have h0 : off < b.length := by omega
  have h1 : off + 1 < b.length := by omega
  have h2 : off + 2 < b.length := by omega
  have h3 : off + 3 < b.length := by omega
  simp [leUint32, List.getElem?_eq_getElem h0, List.getElem?_eq_getElem h1,
    List.getElem?_eq_getElem h2, List.getElem?_eq_getElem h3]

set_option maxRecDepth 100000 in
theorem trigger_bits (b : Byte) :
    (b.val &&& 0x01 != 0) = b.val.testBit 0 ∧ (b.val &&& 0x02 != 0) = b.val.testBit 1
      ∧ (b.val &&& 0x04 != 0) = b.val.testBit 2 := by
  revert b
  decide

/-- The trigger flags that the loop over the frames stores for frame `i`. -/
theorem soundFlagStep_eq (soundData : List Byte) (i : Nat) (frames r : List Frame)
    (h : soundFlagStep soundData i frames = some r) :
    ∃ fr b, frames[i]? = some fr ∧ soundData[i]? = some b
      ∧ r = frames.set i
          { fr with
            Sound := (((fr.Sound.set 0 (i == 0)).set 1 (b.val &&& 0x01 != 0)).set 2
              (b.val &&& 0x02 != 0)).set 3 (b.val &&& 0x04 != 0) } := by
  unfold soundFlagStep at h
  cases hf : frames[i]? with
  | none => rw [hf] at h; simp at h
  | some fr =>
    cases hb : soundData[i]? with
    | none => rw [hf, hb] at h; simp at h
    | some b =>
      rw [hf, hb] at h
      exact ⟨fr, b, rfl, rfl, (Option.some.inj h).symm⟩

/-- The loop over the frames of `readSoundData`: it succeeds exactly when the
section holds a byte for every frame, and it rewrites the trigger flags of
the frames below `n` only. -/
theorem soundFlags_loop (soundData : List Byte) (frames : List Frame) (n : Nat)
    (hn : n ≤ frames.length) :
    (n ≤ soundData.length → ∃ r, forRangeM n (soundFlagStep soundData) frames = some r)
    ∧ ∀ r, forRangeM n (soundFlagStep soundData) frames = some r →
        n ≤ soundData.length ∧ r.length = frames.length
        ∧ (∀ i, n ≤ i → r[i]? = frames[i]?)
        ∧ ∀ i, i < n → ∃ fr b, frames[i]? = some fr ∧ soundData[i]? = some b
            ∧ r[i]? = some
                { fr with
                  Sound := (((fr.Sound.set 0 (i == 0)).set 1 (b.val &&& 0x01 != 0)).set 2
                    (b.val &&& 0x02 != 0)).set 3 (b.val &&& 0x04 != 0) } := by
  induction n with
  | zero =>
    refine ⟨fun _ => ⟨frames, rfl⟩, fun r h => ?_⟩
    rw [forRangeM_zero] at h
    rw [← Option.some.inj h]
    exact ⟨Nat.zero_le _, rfl, fun _ _ => rfl, fun i hi => absurd hi (Nat.not_lt_zero i)⟩
  | succ q ih =>
    obtain ⟨ihex, ihval⟩ := ih (by omega)
    have key : ∀ a, forRangeM q (soundFlagStep soundData) frames = some a →
        ∀ r, soundFlagStep soundData q a = some r →
          q + 1 ≤ soundData.length ∧ r.length = frames.length
          ∧ (∀ i, q + 1 ≤ i → r[i]? = frames[i]?)
          ∧ ∀ i, i < q + 1 → ∃ fr b, frames[i]? = some fr ∧ soundData[i]? = some b
              ∧ r[i]? = some
                  { fr with
                    Sound := (((fr.Sound.set 0 (i == 0)).set 1 (b.val &&& 0x01 != 0)).set 2
                      (b.val &&& 0x02 != 0)).set 3 (b.val &&& 0x04 != 0) } := by
      intro a ha r hr
      obtain ⟨_, alen, arest, aval⟩ := ihval a ha
      obtain ⟨fr, b, hfr, hb, hreq⟩ := soundFlagStep_eq soundData q a r hr
      have hq : q < soundData.length := by
        by_contra hc
        rw [List.getElem?_eq_none (by omega)] at hb
        exact absurd hb (by simp)
      have hqa : q < a.length := by omega
      subst hreq
      refine ⟨hq, by rw [List.length_set, alen], fun i hi => ?_, fun i hi => ?_⟩
      · rw [List.getElem?_set_ne (by omega)]
        exact arest i (by omega)
      · by_cases hiq : i = q
        · subst hiq
          refine ⟨fr, b, ?_, hb, ?_⟩
          · rw [← arest i (le_refl _)]; exact hfr
          · rw [List.getElem?_set_self hqa]
        · obtain ⟨fr', b', h1, h2, h3⟩ := aval i (by omega)
          refine ⟨fr', b', h1, h2, ?_⟩
          rw [List.getElem?_set_ne (fun h => hiq h.symm)]
          exact h3
    constructor
    · intro hlen
      obtain ⟨a, ha⟩ := ihex (by omega)
      obtain ⟨_, alen, arest, _⟩ := ihval a ha
      rw [forRangeM_succ, ha, Option.some_bind]
      have hqa : q < a.length := by omega
      have hqs : q < soundData.length := by omega
      unfold soundFlagStep
      rw [List.getElem?_eq_getElem hqa, List.getElem?_eq_getElem hqs]
      exact ⟨_, rfl⟩
    · intro r h
      rw [forRangeM_succ] at h
      cases ha : forRangeM q (soundFlagStep soundData) frames with
      | none => rw [ha] at h; simp at h
      | some a =>
        rw [ha, Option.some_bind] at h
        exact key a ha r h


theorem soundSliceStep_eq (soundData : List Byte) (sizeSounds : List Nat) (si size : Nat)
    (sounds : List (List Byte)) (i : Nat) (hsize : sizeSounds[si]? = some size)
    (hlen : i + size ≤ soundData.length) :
    soundSliceStep soundData sizeSounds si (sounds, i)
      = some (sounds.set si ((soundData.drop i).take size), i + size) := by
  unfold soundSliceStep sliceOf
  rw [hsize]
  simp only
  rw [if_pos ⟨by omega, hlen⟩, Nat.add_sub_cancel_left]

/-- The loop over the four channels of `readSoundData`. -/
theorem soundSlices_loop (soundData : List Byte) (sounds : List (List Byte))
    (hs : sounds.length = 4) (s0 s1 s2 s3 i : Nat)
    (hlen : i + s0 + s1 + s2 + s3 ≤ soundData.length) :
    forRangeM sounds.length (soundSliceStep soundData [s0, s1, s2, s3]) (sounds, i)
      = some ([(soundData.drop i).take s0, (soundData.drop (i + s0)).take s1,
                (soundData.drop (i + s0 + s1)).take s2,
                (soundData.drop (i + s0 + s1 + s2)).take s3], i + s0 + s1 + s2 + s3) := by
  rw [hs, forRangeM_succ, forRangeM_succ, forRangeM_succ, forRangeM_succ, forRangeM_zero,
    Option.some_bind,
    soundSliceStep_eq soundData [s0, s1, s2, s3] 0 s0 sounds i rfl (by omega), Option.some_bind,
    soundSliceStep_eq soundData [s0, s1, s2, s3] 1 s1 _ _ rfl (by omega), Option.some_bind,
    soundSliceStep_eq soundData [s0, s1, s2, s3] 2 s2 _ _ rfl (by omega), Option.some_bind,
    soundSliceStep_eq soundData [s0, s1, s2, s3] 3 s3 _ _ rfl (by omega),
    set_four sounds hs]

theorem channelStart_four (soundData : List Byte) (t : Nat) :
    channelStart soundData t 4
      = t + 32 + (leUint32 soundData t).getD 0 + (leUint32 soundData (t + 4)).getD 0
          + (leUint32 soundData (t + 8)).getD 0 + (leUint32 soundData (t + 12)).getD 0 := by
  simp [channelStart]

/-- What `readSoundData` returns for a section that holds the table, the
speed settings and the four channels. -/
theorem readSoundData_eq (f : Flipnote) (soundData : List Byte) (hs : f.Sounds.length = 4)
    (hlong : channelStart soundData (soundHeaderOffset f.Frames.length) 4 ≤ soundData.length) :
    ∃ frames, forRangeM f.Frames.length (soundFlagStep soundData) f.Frames = some frames
      ∧ readSoundData f soundData = some
          { f with
            Frames := frames
            FrameSpeed := ((soundData.getD (soundHeaderOffset f.Frames.length + 16) 0).val : Int)
            SoundSpeed := ((soundData.getD (soundHeaderOffset f.Frames.length + 17) 0).val : Int)
            Sounds := (List.range 4).map (fun k =>
              (soundData.drop (channelStart soundData (soundHeaderOffset f.Frames.length) k)).take
                ((leUint32 soundData (soundHeaderOffset f.Frames.length + 4 * k)).getD 0)) } := by
  rw [channelStart_four] at hlong
  have hT : f.Frames.length ≤ soundHeaderOffset f.Frames.length := Nat.le_add_right _ _
  obtain ⟨frames, hframes⟩ :=
    (soundFlags_loop soundData f.Frames f.Frames.length (le_refl _)).1 (by omega)
  refine ⟨frames, hframes, ?_⟩
  unfold readSoundData
  rw [hframes]
  simp only [Nat.add_zero]
  generalize soundHeaderOffset f.Frames.length = t at hlong ⊢
  rw [leUint32_of_le soundData t (by omega), leUint32_of_le soundData (t + 4) (by omega),
    leUint32_of_le soundData (t + 8) (by omega), leUint32_of_le soundData (t + 12) (by omega),
    getElem?_eq_some_getD soundData (t + 16) (by omega) 0,
    getElem?_eq_some_getD soundData (t + 17) (by omega) 0]
  simp only [Option.getD_some]
  rw [soundSlices_loop soundData f.Sounds hs _ _ _ _ (t + 32) (by omega)]
  simp [channelStart, List.range_succ]

theorem readSoundData_frames (f : Flipnote) (soundData : List Byte) (r : Flipnote)
    (h : readSoundData f soundData = some r) :
    forRangeM f.Frames.length (soundFlagStep soundData) f.Frames = some r.Frames := by
  unfold readSoundData at h
  cases hl : forRangeM f.Frames.length (soundFlagStep soundData) f.Frames with
  | none => rw [hl] at h; simp at h
  | some frames =>
    rw [hl] at h
    simp only at h
    split at h
    · split at h
      · simp at h
      · rw [← Option.some.inj h]
    · simp at h


theorem channelStart_mono (soundData : List Byte) (t j : Nat) :
    ∀ k, j ≤ k → channelStart soundData t j ≤ channelStart soundData t k := by
  intro k hk
  induction k with
  | zero =>
    have : j = 0 := by omega
    rw [this]
  | succ q ih =>
    by_cases hq : j = q + 1
    · rw [hq]
    · have := ih (by omega)
      show _ ≤ channelStart soundData t q + _
      omega

theorem soundHeaderOffset_eq (n : Nat) : soundHeaderOffset n = 4 * (n / 4) + 4 := by
  have h : n &&& 3 = n % 4 := Nat.and_pow_two_sub_one_eq_mod n 2
  show n + (4 - (n &&& 3)) = _
  rw [h]
  omega

/-! ## Sound section: claims -/

/-- C13: for a container with four channels and a sound section that holds
the length table at offset `T`, the speed settings and the four channels,
`readSoundData` returns; `FrameSpeed` is the byte at `T + 16` and
`SoundSpeed` the byte at `T + 17`; and for `k` = 0..3 the channel `k` is the
`L_k` bytes of the section from `T + 32 + L_0 + ... + L_(k-1)` on, `L_k`
being the little-endian value at `T + 4k`: each channel has its declared
length and starts where the one before it ends. -/
theorem readSoundData_layout (f : Flipnote) (soundData : List Byte)
    (hs : f.Sounds.length = 4)
    (hlong : channelStart soundData (soundHeaderOffset f.Frames.length) 4 ≤ soundData.length) :
    ∃ r fs ss, readSoundData f soundData = some r
      ∧ soundData[soundHeaderOffset f.Frames.length + 16]? = some fs
      ∧ soundData[soundHeaderOffset f.Frames.length + 17]? = some ss
      ∧ r.FrameSpeed = (fs.val : Int) ∧ r.SoundSpeed = (ss.val : Int)
      ∧ r.Sounds.length = 4
      ∧ channelStart soundData (soundHeaderOffset f.Frames.length) 0
          = soundHeaderOffset f.Frames.length + 32
      ∧ ∀ k, k < 4 → ∃ size sound,
          leUint32 soundData (soundHeaderOffset f.Frames.length + 4 * k) = some size
          ∧ r.Sounds[k]? = some sound
          ∧ sound.length = size
          ∧ (∀ x, x < size → sound[x]?
              = soundData[channelStart soundData (soundHeaderOffset f.Frames.length) k + x]?)
          ∧ channelStart soundData (soundHeaderOffset f.Frames.length) (k + 1)
              = channelStart soundData (soundHeaderOffset f.Frames.length) k + size
          ∧ channelStart soundData (soundHeaderOffset f.Frames.length) (k + 1)
              ≤ soundData.length := by
  obtain ⟨frames, _, hread⟩ := readSoundData_eq f soundData hs hlong
  have h4 := channelStart_four soundData (soundHeaderOffset f.Frames.length)
  generalize soundHeaderOffset f.Frames.length = t at hlong hread h4 ⊢
  refine ⟨_, soundData.getD (t + 16) 0, soundData.getD (t + 17) 0, hread,
    getElem?_eq_some_getD _ _ (by omega) _, getElem?_eq_some_getD _ _ (by omega) _, rfl, rfl,
    by simp, rfl, ?_⟩
  intro k hk
  have hend : channelStart soundData t (k + 1) ≤ soundData.length :=
    le_trans (channelStart_mono soundData t (k + 1) 4 (by omega)) hlong
  have hstart : t + 32 ≤ channelStart soundData t k := channelStart_mono soundData t 0 k (by omega)
  have hnext : channelStart soundData t (k + 1)
      = channelStart soundData t k + (leUint32 soundData (t + 4 * k)).getD 0 := rfl
  refine ⟨(leUint32 soundData (t + 4 * k)).getD 0,
    (soundData.drop (channelStart soundData t k)).take ((leUint32 soundData (t + 4 * k)).getD 0),
    leUint32_of_le soundData _ (by omega), ?_, ?_, ?_, hnext, hend⟩
  · simp only [List.getElem?_map, List.getElem?_range hk, Option.map_some']
  · rw [List.length_take, List.length_drop]
    omega
  · intro x hx
    rw [List.getElem?_take_of_lt hx, List.getElem?_drop]


theorem readSoundData_layout_witness :
    ∃ r fs ss, readSoundData (blankFlipnote 3) soundSection = some r
      ∧ soundSection[soundHeaderOffset (blankFlipnote 3).Frames.length + 16]? = some fs
      ∧ soundSection[soundHeaderOffset (blankFlipnote 3).Frames.length + 17]? = some ss
      ∧ r.FrameSpeed = (fs.val : Int) ∧ r.SoundSpeed = (ss.val : Int)
      ∧ r.Sounds.length = 4
      ∧ channelStart soundSection (soundHeaderOffset (blankFlipnote 3).Frames.length) 0
          = soundHeaderOffset (blankFlipnote 3).Frames.length + 32
      ∧ ∀ k, k < 4 → ∃ size sound,
          leUint32 soundSection (soundHeaderOffset (blankFlipnote 3).Frames.length + 4 * k)
            = some size
          ∧ r.Sounds[k]? = some sound
          ∧ sound.length = size
          ∧ (∀ x, x < size → sound[x]?
              = soundSection[channelStart soundSection
                  (soundHeaderOffset (blankFlipnote 3).Frames.length) k + x]?)
          ∧ channelStart soundSection (soundHeaderOffset (blankFlipnote 3).Frames.length) (k + 1)
              = channelStart soundSection (soundHeaderOffset (blankFlipnote 3).Frames.length) k
                + size
          ∧ channelStart soundSection (soundHeaderOffset (blankFlipnote 3).Frames.length) (k + 1)
              ≤ soundSection.length :=
  readSoundData_layout (blankFlipnote 3) soundSection (by decide) (by decide)

/-- C19: whenever `readSoundData` returns, it has kept the number of frames
and has stored, for every frame `i`, the trigger of channel 0 as the truth
value of `i = 0`, whatever the section holds, and the triggers of the
channels 1, 2, 3 as the bits 0, 1, 2 of byte `i` of the section, the rest of
the frame being as before; and it returns for every section that holds the
length table, the speed settings and the four channels. -/
theorem readSoundData_triggers (f : Flipnote) (soundData : List Byte)
    (htrig : ∀ frame ∈ f.Frames, frame.Sound.length = 4) :
    (∀ r, readSoundData f soundData = some r →
      r.Frames.length = f.Frames.length
      ∧ ∀ i, i < f.Frames.length → ∃ fr b, f.Frames[i]? = some fr ∧ soundData[i]? = some b
          ∧ r.Frames[i]? = some
              { fr with
                Sound := [i == 0, b.val.testBit 0, b.val.testBit 1, b.val.testBit 2] })
    ∧ (f.Sounds.length = 4 →
        channelStart soundData (soundHeaderOffset f.Frames.length) 4 ≤ soundData.length →
        ∃ r, readSoundData f soundData = some r) := by
  constructor
  · intro r hr
    have hloop := readSoundData_frames f soundData r hr
    obtain ⟨_, hlen, _, hval⟩ :=
      (soundFlags_loop soundData f.Frames f.Frames.length (le_refl _)).2 r.Frames hloop
    refine ⟨hlen, fun i hi => ?_⟩
    obtain ⟨fr, b, hfr, hb, hri⟩ := hval i hi
    refine ⟨fr, b, hfr, hb, ?_⟩
    have hmem : fr ∈ f.Frames := List.getElem?_mem hfr
    obtain ⟨b0, b1, b2⟩ := trigger_bits b
    rw [hri, set_four fr.Sound (htrig fr hmem), b0, b1, b2]
  · intro hs hlong
    obtain ⟨_, _, hread⟩ := readSoundData_eq f soundData hs hlong
    exact ⟨_, hread⟩

theorem readSoundData_triggers_witness :
    (∀ r, readSoundData (blankFlipnote 3) soundSection = some r →
      r.Frames.length = (blankFlipnote 3).Frames.length
      ∧ ∀ i, i < (blankFlipnote 3).Frames.length → ∃ fr b,
          (blankFlipnote 3).Frames[i]? = some fr ∧ soundSection[i]? = some b
          ∧ r.Frames[i]? = some
              { fr with
                Sound := [i == 0, b.val.testBit 0, b.val.testBit 1, b.val.testBit 2] })
    ∧ ((blankFlipnote 3).Sounds.length = 4 →
        channelStart soundSection (soundHeaderOffset (blankFlipnote 3).Frames.length) 4
          ≤ soundSection.length →
        ∃ r, readSoundData (blankFlipnote 3) soundSection = some r) :=
  readSoundData_triggers (blankFlipnote 3) soundSection (by decide)

/-- The lengths of the four channels that `readSoundData` stores are the
four values of the table at the offset the code computes. -/
theorem readSoundData_lengths (f : Flipnote) (soundData : List Byte) (hs : f.Sounds.length = 4)
    (hlong : channelStart soundData (soundHeaderOffset f.Frames.length) 4 ≤ soundData.length) :
    ∃ r, readSoundData f soundData = some r
      ∧ ∀ k, k < 4 → ∃ size sound,
          leUint32 soundData (soundHeaderOffset f.Frames.length + 4 * k) = some size
          ∧ r.Sounds[k]? = some sound ∧ sound.length = size := by
  obtain ⟨frames, _, hread⟩ := readSoundData_eq f soundData hs hlong
  have h4 := channelStart_four soundData (soundHeaderOffset f.Frames.length)
  generalize soundHeaderOffset f.Frames.length = t at hlong hread h4 ⊢
  refine ⟨_, hread, fun k hk => ?_⟩
  have hend : channelStart soundData t (k + 1) ≤ soundData.length :=
    le_trans (channelStart_mono soundData t (k + 1) 4 (by omega)) hlong
  have hstart : t + 32 ≤ channelStart soundData t k := channelStart_mono soundData t 0 k (by omega)
  have hnext : channelStart soundData t (k + 1)
      = channelStart soundData t k + (leUint32 soundData (t + 4 * k)).getD 0 := rfl
  refine ⟨(leUint32 soundData (t + 4 * k)).getD 0,
    (soundData.drop (channelStart soundData t k)).take ((leUint32 soundData (t + 4 * k)).getD 0),
    leUint32_of_le soundData _ (by omega), ?_, ?_⟩
  · simp only [List.getElem?_map, List.getElem?_range hk, Option.map_some']
  · rw [List.length_take, List.length_drop]
    omega

/-- C14 (amended): for every frame count `n` the offset at which
`readSoundData` reads the four channel byte-lengths is `4 * (n / 4) + 4`, the
smallest multiple of 4 that is strictly greater than `n`: the `n` trigger
bytes are followed by 1 to 4 padding bytes, 4 of them when `n` is a multiple
of 4.  For a container of `n` frames and a section that holds the table at
that offset, the speed settings and the channels, `readSoundData` returns and
channel `k` has the length stored at that offset plus `4 * k`. -/
theorem sound_header_offset_next_multiple (f : Flipnote) (soundData : List Byte)
    (hs : f.Sounds.length = 4)
    (hlong : channelStart soundData (4 * (f.Frames.length / 4) + 4) 4 ≤ soundData.length) :
    (∀ n, soundHeaderOffset n = 4 * (n / 4) + 4
      ∧ soundHeaderOffset n % 4 = 0 ∧ n < soundHeaderOffset n ∧ soundHeaderOffset n ≤ n + 4
      ∧ (∀ m, m % 4 = 0 → n < m → soundHeaderOffset n ≤ m)
      ∧ (n % 4 = 0 → soundHeaderOffset n = n + 4))
    ∧ ∃ r, readSoundData f soundData = some r
        ∧ ∀ k, k < 4 → ∃ size sound,
            leUint32 soundData (4 * (f.Frames.length / 4) + 4 + 4 * k) = some size
            ∧ r.Sounds[k]? = some sound ∧ sound.length = size := by
  constructor
  · intro n
    have h := soundHeaderOffset_eq n
    refine ⟨h, ?_, ?_, ?_, ?_, ?_⟩
    · omega
    · omega
    · omega
    · intro m hm hn
      omega
    · intro hn
      omega
  · rw [← soundHeaderOffset_eq] at hlong ⊢
    exact readSoundData_lengths f soundData hs hlong

theorem sound_header_offset_next_multiple_witness :
    (∀ n, soundHeaderOffset n = 4 * (n / 4) + 4
      ∧ soundHeaderOffset n % 4 = 0 ∧ n < soundHeaderOffset n ∧ soundHeaderOffset n ≤ n + 4
      ∧ (∀ m, m % 4 = 0 → n < m → soundHeaderOffset n ≤ m)
      ∧ (n % 4 = 0 → soundHeaderOffset n = n + 4))
    ∧ ∃ r, readSoundData (blankFlipnote 4) soundSection = some r
        ∧ ∀ k, k < 4 → ∃ size sound,
            leUint32 soundSection (4 * ((blankFlipnote 4).Frames.length / 4) + 4 + 4 * k)
              = some size
            ∧ r.Sounds[k]? = some sound ∧ sound.length = size :=
  sound_header_offset_next_multiple (blankFlipnote 4) soundSection (by decide) (by decide)

set_option maxRecDepth 100000 in
/-- C14 fails as stated: 4 is a multiple of 4, yet with 4 frames the table
is read at offset 8, not 4.  From a section whose bytes at offset 4 hold the
lengths 1, 0, 0, 0 and whose bytes at offset 20 hold the speeds 3, 0, the
code takes the lengths 0, 0, 0, 3 and the speeds 0, 0, which are the values
at the offsets 8 and 24, and the three bytes at offset 40 as channel 3. -/
theorem sound_header_offset_skips_aligned_count :
    4 % 4 = 0
    ∧ soundHeaderOffset (blankFlipnote 4).Frames.length = 8
    ∧ leUint32 soundSection 4 = some 1
    ∧ (readSoundData (blankFlipnote 4) soundSection).map
        (fun r => (r.Sounds, r.FrameSpeed, r.SoundSpeed))
        = some ([[], [], [], [0, 0, 0]], 0, 0) := by
  refine ⟨by decide, by decide, by decide, by decide⟩
/-! ## Audio mixer: claims -/

/-- C10 (amended): for a container with four channels, speed settings in
0..7, four trigger flags per frame and every frame starting inside the
initially allocated buffer, visiting the triggered channels of each frame in
any order yields, like the order 0, 1, 2, 3, a buffer that covers the
initially allocated one and has the same sample at every index inside it. -/
theorem mixing_order_independent_inside_buffer (order : List Nat) (T : Timing) (f : Flipnote)
    (hperm : order.Perm (List.range 4))
    (hsounds : f.Sounds.length = 4) (hss : 0 ≤ f.SoundSpeed ∧ f.SoundSpeed < 8)
    (hfs : 0 ≤ f.FrameSpeed ∧ f.FrameSpeed < 8)
    (htrig : ∀ frame ∈ f.Frames, frame.Sound.length = 4)
    (hlen : 0 ≤ T.bufferLen (T.frequency f.SoundSpeed f.FrameSpeed) f.Frames.length f.FrameSpeed)
    (hstart : ∀ i, i < f.Frames.length →
      0 ≤ T.startPos (T.frequency f.SoundSpeed f.FrameSpeed) f.FrameSpeed i
      ∧ T.startPos (T.frequency f.SoundSpeed f.FrameSpeed) f.FrameSpeed i
          ≤ T.bufferLen (T.frequency f.SoundSpeed f.FrameSpeed) f.Frames.length f.FrameSpeed) :
    ∃ out1 out2 frequency,
      MixedSoundAsPCMOrder order T f = some (out1, frequency)
      ∧ MixedSoundAsPCM T f = some (out2, frequency)
      ∧ ∀ p : Nat, (p : Int)
            < T.bufferLen (T.frequency f.SoundSpeed f.FrameSpeed) f.Frames.length f.FrameSpeed →
          p < out1.length ∧ p < out2.length ∧ out1[p]? = out2[p]? := by
  obtain ⟨sd0, sd1, sd2, sd3, d0, d1, d2, d3, e1⟩ :=
    MixedSoundAsPCMOrder_eq order T f hsounds hss hfs hlen
  obtain ⟨sd0', sd1', sd2', sd3', d0', d1', d2', d3', e2⟩ :=
    MixedSoundAsPCMOrder_eq (List.range 4) T f hsounds hss hfs hlen
  have x0 : sd0' = sd0 := Option.some.inj (d0'.symm.trans d0)
  have x1 : sd1' = sd1 := Option.some.inj (d1'.symm.trans d1)
  have x2 : sd2' = sd2 := Option.some.inj (d2'.symm.trans d2)
  have x3 : sd3' = sd3 := Option.some.inj (d3'.symm.trans d3)
  subst x0 x1 x2 x3
  have hL : (List.replicate (T.bufferLen (T.frequency f.SoundSpeed f.FrameSpeed)
      f.Frames.length f.FrameSpeed).toNat (0 : Int)).length
      = (T.bufferLen (T.frequency f.SoundSpeed f.FrameSpeed)
          f.Frames.length f.FrameSpeed).toNat := List.length_replicate _ _
  obtain ⟨r1, r2, hr1, hr2, hl1, hl2, hag⟩ := mixFrames_agree order (List.range 4) hperm
    (fun j hj => List.mem_range.mp hj) T (T.frequency f.SoundSpeed f.FrameSpeed) f
    [sd0', sd1', sd2', sd3'] rfl htrig
    (List.replicate (T.bufferLen (T.frequency f.SoundSpeed f.FrameSpeed)
      f.Frames.length f.FrameSpeed).toNat 0)
    (fun i hi => ⟨(hstart i hi).1, by rw [hL]; have := (hstart i hi).2; omega⟩)
    f.Frames.length (le_refl _)
  rw [hL] at hl1 hl2 hag
  refine ⟨r1, r2, T.frequency f.SoundSpeed f.FrameSpeed, ?_, ?_, ?_⟩
  · rw [e1, hr1]; rfl
  · rw [MixedSoundAsPCM, e2, hr2]; rfl
  · intro p hp
    have hp' : p < (T.bufferLen (T.frequency f.SoundSpeed f.FrameSpeed)
        f.Frames.length f.FrameSpeed).toNat := by omega
    have h1 : p < r1.length := by omega
    have h2 : p < r2.length := by omega
    refine ⟨h1, h2, ?_⟩
    have := hag p hp'
    rw [List.getElem?_eq_getElem h1, List.getElem?_eq_getElem h2]
    simpa [List.getD, List.getElem?_eq_getElem h1, List.getElem?_eq_getElem h2] using this

theorem mixing_order_independent_inside_buffer_witness :
    ∃ out1 out2 frequency,
      MixedSoundAsPCMOrder [0, 2, 1, 3] mixTiming mixFlipnote = some (out1, frequency)
      ∧ MixedSoundAsPCM mixTiming mixFlipnote = some (out2, frequency)
      ∧ ∀ p : Nat, (p : Int)
            < mixTiming.bufferLen (mixTiming.frequency mixFlipnote.SoundSpeed mixFlipnote.FrameSpeed)
                mixFlipnote.Frames.length mixFlipnote.FrameSpeed →
          p < out1.length ∧ p < out2.length ∧ out1[p]? = out2[p]? :=
  mixing_order_independent_inside_buffer [0, 2, 1, 3] mixTiming mixFlipnote (by decide)
    (by decide) (by decide) (by decide) (by decide) (by decide)
    (fun _ _ => ⟨Int.le_refl 0, (by decide : (0 : Int) ≤ 272)⟩)

/-- C10 fails as stated: in the example container the channels 1 and 2 both
run past the end of the 272-sample buffer; visited in the order 0, 2, 1, 3
they leave sample 273 of channel 1 (0) at index 273, visited in the order
0, 1, 2, 3 they leave sample 273 of channel 2 (11) there. -/
theorem mixing_order_dependent :
    MixedSoundAsPCMOrder [0, 2, 1, 3] mixTiming mixFlipnote ≠ MixedSoundAsPCM mixTiming mixFlipnote
    ∧ List.Perm [0, 2, 1, 3] (List.range 4) := by
  refine ⟨?_, by decide⟩
  obtain ⟨o1, h1, v1⟩ := mixFlipnote_mixed 1 2 (Or.inl ⟨rfl, rfl⟩)
  obtain ⟨o2, h2, v2⟩ := mixFlipnote_mixed 2 1 (Or.inr ⟨rfl, rfl⟩)
  have hsrc : MixedSoundAsPCM mixTiming mixFlipnote = some (o1, 8184) := h1
  rw [h2, hsrc]
  intro heq
  have : o2 = o1 := congrArg Prod.fst (Option.some.inj heq)
  rw [this, v1] at v2
  exact absurd v2 (by decide)

/-! ## Audio mixer: truncation and the additive sum -/

set_option maxRecDepth 100000 in
/-- The one frame of `truncFlipnote` mixed into a buffer of 272 samples:
channel 1, of 274 samples, extends the buffer by one sample. -/
theorem truncFlipnote_frame (out0 : List Int) (hl : out0.length = 272) :
    ∃ out, mixFrame (List.range 4) mixTiming 8184 truncFlipnote
        [[], List.replicate 274 0, [], []] 0 out0 = some out
      ∧ out.length = 273 := by
  have s0 := mixChannel_skip { Frame.zero with Sound := [true, true, false, false] }
    [[], List.replicate 274 0, [], []] 0 true [] rfl rfl (Or.inr rfl) 0 272 out0
  obtain ⟨o1, r1, l1, _⟩ := mixChannel_append
    { Frame.zero with Sound := [true, true, false, false] }
    [[], List.replicate 274 0, [], []] 1 (List.replicate 274 0) rfl rfl (by decide) 0 272 out0
    (le_refl _) (by omega) (by rw [List.length_replicate]; omega)
  have s2 := mixChannel_skip { Frame.zero with Sound := [true, true, false, false] }
    [[], List.replicate 274 0, [], []] 2 false [] rfl rfl (Or.inl rfl) 0 272 o1
  have s3 := mixChannel_skip { Frame.zero with Sound := [true, true, false, false] }
    [[], List.replicate 274 0, [], []] 3 false [] rfl rfl (Or.inl rfl) 0 272 o1
  refine ⟨o1, ?_, by omega⟩
  have hframe : truncFlipnote.Frames[0]?
      = some { Frame.zero with Sound := [true, true, false, false] } := rfl
  have hleft : ((out0.length : Int) - mixTiming.startPos 8184 truncFlipnote.FrameSpeed 0)
      = 272 := by
    rw [hl]
    rfl
  unfold mixFrame
  rw [hframe]
  simp only
  rw [hleft]
  show [0, 1, 2, 3].foldlM (fun out j => mixChannel
      { Frame.zero with Sound := [true, true, false, false] }
      [[], List.replicate 274 0, [], []] 0 272 j out) out0 = some o1
  simp only [List.foldlM_cons, List.foldlM_nil, s0, r1, s2, s3, Option.bind_eq_bind,
    Option.some_bind, Option.pure_def]

set_option maxRecDepth 100000 in
/-- C11 fails as stated: in `truncFlipnote` the one frame starts at index 0
of a buffer of 272 samples and triggers channel 1, which decodes to 274
samples.  The mixer appends one sample and leaves the loop, so the output
holds 273 samples: the last sample of the channel is missing. -/
theorem mixing_truncates_channel :
    ∃ out, MixedSoundAsPCM mixTiming truncFlipnote = some (out, 8184)
      ∧ out.length = 273
      ∧ SoundAsPCM mixTiming truncFlipnote 1 = some (List.replicate 274 0, 8184)
      ∧ truncFlipnote.Frames.map (fun fr => fr.Sound) = [[true, true, false, false]]
      ∧ mixTiming.bufferLen 8184 truncFlipnote.Frames.length truncFlipnote.FrameSpeed = 272
      ∧ mixTiming.startPos 8184 truncFlipnote.FrameSpeed 0 = 0 := by
  obtain ⟨sd0, sd1, sd2, sd3, d0, d1, d2, d3, e⟩ :=
    MixedSoundAsPCMOrder_eq (List.range 4) mixTiming truncFlipnote rfl (by decide) (by decide)
      (by decide)
  obtain ⟨sd1', d1', h1⟩ := SoundAsPCM_eq mixTiming truncFlipnote 1 rfl (by decide) (by decide)
    (by decide)
  have x0 : sd0 = [] := Option.some.inj
    (d0.symm.trans (by decide : decodeSound (truncFlipnote.Sounds.getD 0 []) = some []))
  have x2 : sd2 = [] := Option.some.inj
    (d2.symm.trans (by decide : decodeSound (truncFlipnote.Sounds.getD 2 []) = some []))
  have x3 : sd3 = [] := Option.some.inj
    (d3.symm.trans (by decide : decodeSound (truncFlipnote.Sounds.getD 3 []) = some []))
  have x1 : sd1 = List.replicate 274 0 :=
    Option.some.inj (d1.symm.trans (decodeSound_zeros 137))
  have x1' : sd1' = List.replicate 274 0 :=
    Option.some.inj (d1'.symm.trans (decodeSound_zeros 137))
  subst x0 x1 x2 x3 x1'
  obtain ⟨out, hrun, hlen⟩ := truncFlipnote_frame (List.replicate 272 0)
    (List.length_replicate _ _)
  refine ⟨out, ?_, hlen, h1, rfl, rfl, rfl⟩
  rw [MixedSoundAsPCM, e]
  show (forRangeM 1 (mixFrame (List.range 4) mixTiming 8184 truncFlipnote
      [[], List.replicate 274 0, [], []]) (List.replicate 272 0)).map
        (fun out => (out, (8184 : Int))) = some (out, 8184)
  rw [forRangeM_succ, forRangeM_zero, Option.some_bind, hrun]
  rfl


/-- A triggered channel whose samples run past the end of the buffer: the
samples that fall inside the buffer are added, one sample is appended, and
the loop over the channel's samples is left. -/
theorem mixChannel_overrun (frame : Frame) (soundData : List (List Int)) (j : Nat)
    (sd : List Int) (htrig : frame.Sound[j]? = some true) (hsd : soundData[j]? = some sd)
    (start left : Int) (out : List Int) (h0 : 0 ≤ start)
    (hstart : start ≤ (out.length : Int)) (hpast : start + (sd.length : Int) > (out.length : Int)) :
    ∃ out', mixChannel frame soundData start left j out = some out'
      ∧ out'.length = out.length + 1
      ∧ out'.getD out.length 0 = sd.getD (((out.length : Int) - start).toNat) 0
      ∧ ∀ p, p < out.length →
          out'.getD p 0
            = if start ≤ (p : Int) then toInt16 (out.getD p 0 + sd.getD ((p : Int) - start).toNat 0)
              else out.getD p 0 := by
  have hlen : 0 < sd.length := by omega
  unfold mixChannel
  rw [htrig, hsd]
  simp only
  rw [if_pos ⟨trivial, hlen⟩]
  have hfuel : (sd.length : Int)
      ≤ ((if j = 0 ∧ left > (sd.length : Int) then left else (sd.length : Int)).toNat : Int) := by
    split_ifs with hc
    · omega
    · omega
  obtain ⟨out', hrun, hl, hval, hreach⟩ := mixSamples_spec sd hlen start
    (if j = 0 ∧ left > (sd.length : Int) then left else (sd.length : Int)).toNat 0 out
    (by push_cast; omega) (by push_cast; omega)
  have hc : start + ((0 : Nat) : Int)
      + (((if j = 0 ∧ left > (sd.length : Int) then left else (sd.length : Int)).toNat : Nat) : Int)
      > (out.length : Int) := by push_cast; omega
  rw [if_pos hc] at hl
  refine ⟨out', hrun, hl, ?_, ?_⟩
  · rw [hreach hc, Nat.mod_eq_of_lt (by omega)]
  · intro p hp
    rw [hval p hp]
    by_cases hsp : start ≤ (p : Int)
    · rw [if_pos ⟨by push_cast; omega, by push_cast at hc ⊢; omega⟩, if_pos hsp,
        Nat.mod_eq_of_lt (by omega)]
    · rw [if_neg (by push_cast; omega), if_neg hsp]

/-- C11 (amended): for every triggered channel whose samples, placed at the
frame's start index inside the buffer, extend past the end of the output
buffer, the mixer does not panic; it adds to the buffer the channel's samples
that fall inside it, in 16-bit arithmetic, appends exactly one sample, the
channel's sample that falls at the end of the buffer, and stops: the buffer
is one sample longer, whatever the number of samples left in the channel. -/
theorem mixing_appends_one_sample (frame : Frame) (soundData : List (List Int)) (j : Nat)
    (sd : List Int) (start left : Int) (out : List Int)
    (htrig : frame.Sound[j]? = some true) (hsd : soundData[j]? = some sd)
    (h0 : 0 ≤ start) (hstart : start ≤ (out.length : Int))
    (hpast : start + (sd.length : Int) > (out.length : Int)) :
    ∃ out', mixChannel frame soundData start left j out = some out'
      ∧ out'.length = out.length + 1
      ∧ out'[out.length]? = sd[((out.length : Int) - start).toNat]?
      ∧ ((out.length : Int) - start).toNat < sd.length
      ∧ ∀ p, p < out.length →
          out'.getD p 0
            = if start ≤ (p : Int) then toInt16 (out.getD p 0 + sd.getD ((p : Int) - start).toNat 0)
              else out.getD p 0 := by
  obtain ⟨out', hrun, hl, hlast, hval⟩ := mixChannel_overrun frame soundData j sd htrig hsd
    start left out h0 hstart hpast
  have hi : ((out.length : Int) - start).toNat < sd.length := by omega
  refine ⟨out', hrun, hl, ?_, hi, hval⟩
  rw [List.getD_eq_getElem?_getD, List.getD_eq_getElem?_getD,
    List.getElem?_eq_getElem (by omega : out.length < out'.length),
    List.getElem?_eq_getElem hi, Option.getD_some, Option.getD_some] at hlast
  rw [List.getElem?_eq_getElem (by omega : out.length < out'.length),
    List.getElem?_eq_getElem hi, hlast]

theorem mixing_appends_one_sample_witness :
    ∃ out', mixChannel { Frame.zero with Sound := [true, true, false, false] }
          [[], [5, 6, 7], [], []] 1 1 1 [10, 20] = some out'
      ∧ out'.length = [(10 : Int), 20].length + 1
      ∧ out'[[(10 : Int), 20].length]?
          = [(5 : Int), 6, 7][((([(10 : Int), 20].length : Nat) : Int) - 1).toNat]?
      ∧ ((([(10 : Int), 20].length : Nat) : Int) - 1).toNat < [(5 : Int), 6, 7].length
      ∧ ∀ p, p < [(10 : Int), 20].length →
          out'.getD p 0
            = if (1 : Int) ≤ (p : Int) then
                toInt16 ([(10 : Int), 20].getD p 0 + [(5 : Int), 6, 7].getD ((p : Int) - 1).toNat 0)
              else [(10 : Int), 20].getD p 0 :=
  mixing_appends_one_sample { Frame.zero with Sound := [true, true, false, false] }
    [[], [5, 6, 7], [], []] 1 [5, 6, 7] 1 1 [10, 20] rfl rfl (by decide) (by decide) (by decide)

theorem toInt16_add (a b : Int) : toInt16 (toInt16 a + b) = toInt16 (a + b) := by
  unfold toInt16
  omega

theorem toInt16_wrap (x : Int) :
    -32768 ≤ toInt16 x ∧ toInt16 x ≤ 32767 ∧ (toInt16 x - x) % 65536 = 0 := by
  unfold toInt16
  omega

theorem addSample_sum (w : Int) (c : Option Int) :
    addSample (toInt16 w) c = toInt16 (w + c.getD 0) := by
  cases c with
  | none => simp [addSample]
  | some s => simp [addSample, toInt16_add]

/-- The channels of one frame add their contributions to the running sum
behind a sample, which is kept reduced to 16 bits. -/
theorem frameAdds_sum (frame : Frame) (soundData : List (List Int)) (start : Int) (p : Nat)
    (order : List Nat) : ∀ w : Int,
    frameAdds frame soundData start p order (toInt16 w)
      = toInt16 (w + (order.map (fun j =>
          (channelAdds (soundData.getD j []) (frame.Sound.getD j false) j start p).getD 0)).sum) := by
  induction order with
  | nil => intro w; simp [frameAdds]
  | cons j rest ih =>
    intro w
    have step : frameAdds frame soundData start p (j :: rest) (toInt16 w)
        = frameAdds frame soundData start p rest
            (addSample (toInt16 w)
              (channelAdds (soundData.getD j []) (frame.Sound.getD j false) j start p)) := rfl
    rw [step, addSample_sum, ih, List.map_cons, List.sum_cons, add_assoc]

/-- The loop over the frames, started on a buffer of zeros: it never panics
when every frame starts inside the buffer, and a sample inside the initial
buffer ends as the sum of the contributions of all frames and channels,
reduced to 16 bits. -/
theorem mixFrames_sum (T : Timing) (frequency : Int) (f : Flipnote)
    (soundData : List (List Int)) (hD : soundData.length = 4)
    (hS : ∀ frame ∈ f.Frames, frame.Sound.length = 4) (L : Nat)
    (hstart : ∀ i, i < f.Frames.length → 0 ≤ T.startPos frequency f.FrameSpeed i
      ∧ T.startPos frequency f.FrameSpeed i ≤ (L : Int))
    (n : Nat) (hn : n ≤ f.Frames.length) :
    ∃ r, forRangeM n (mixFrame (List.range 4) T frequency f soundData) (List.replicate L 0)
        = some r
      ∧ L ≤ r.length
      ∧ ∀ p, p < L → r.getD p 0 = toInt16 (((List.range n).map (fun i =>
          ((List.range 4).map (fun j =>
            (channelAdds (soundData.getD j []) ((f.Frames.getD i Frame.zero).Sound.getD j false)
              j (T.startPos frequency f.FrameSpeed i) p).getD 0)).sum)).sum) := by
  induction n with
  | zero =>
    refine ⟨List.replicate L 0, rfl, by rw [List.length_replicate], fun p hp => ?_⟩
    rw [List.getD_eq_getElem?_getD, List.getElem?_replicate, if_pos hp]
    rfl
  | succ q ih =>
    obtain ⟨r, hr, hl, hv⟩ := ih (by omega)
    have hq : q < f.Frames.length := by omega
    have hframe : f.Frames[q]? = some (f.Frames.getD q Frame.zero) :=
      getElem?_eq_some_getD _ _ hq _
    have hSq := hS _ (List.getElem?_mem hframe)
    obtain ⟨s0, s1⟩ := hstart q hq
    obtain ⟨a, ha, hal, hav⟩ := mixFrame_spec (List.range 4) (fun j hj => List.mem_range.mp hj)
      T frequency f soundData hD q _ hframe hSq L s0 s1 r hl
    refine ⟨a, ?_, by omega, fun p hp => ?_⟩
    · rw [forRangeM_succ, hr]; exact ha
    · rw [hav p hp, hv p hp, frameAdds_sum, List.range_succ q, List.map_append, List.sum_append,
        List.map_singleton, List.sum_singleton]


/-- C12: for a container with four channels, speed settings in 0..7, four
trigger flags per frame and every frame starting inside the initially
allocated buffer, `MixedSoundAsPCM` returns, and every output sample at an
index inside the initially allocated buffer is the sum of all channel samples
contributed to that index, wrapped into the signed 16-bit range: it lies in
[-32768, 32767] and differs from the sum by a multiple of 2^16. -/
theorem mixing_additive_wraparound (T : Timing) (f : Flipnote)
    (hsounds : f.Sounds.length = 4) (hss : 0 ≤ f.SoundSpeed ∧ f.SoundSpeed < 8)
    (hfs : 0 ≤ f.FrameSpeed ∧ f.FrameSpeed < 8)
    (htrig : ∀ frame ∈ f.Frames, frame.Sound.length = 4)
    (hlen : 0 ≤ T.bufferLen (T.frequency f.SoundSpeed f.FrameSpeed) f.Frames.length f.FrameSpeed)
    (hstart : ∀ i, i < f.Frames.length →
      0 ≤ T.startPos (T.frequency f.SoundSpeed f.FrameSpeed) f.FrameSpeed i
      ∧ T.startPos (T.frequency f.SoundSpeed f.FrameSpeed) f.FrameSpeed i
          ≤ T.bufferLen (T.frequency f.SoundSpeed f.FrameSpeed) f.Frames.length f.FrameSpeed) :
    ∃ out frequency, MixedSoundAsPCM T f = some (out, frequency)
      ∧ ∀ p : Nat, (p : Int)
            < T.bufferLen (T.frequency f.SoundSpeed f.FrameSpeed) f.Frames.length f.FrameSpeed →
          ∃ v, out[p]? = some v
            ∧ v = toInt16 (mixSum T f p f.Frames.length)
            ∧ -32768 ≤ v ∧ v ≤ 32767
            ∧ (v - mixSum T f p f.Frames.length) % 65536 = 0 := by
  obtain ⟨sd0, sd1, sd2, sd3, d0, d1, d2, d3, e⟩ :=
    MixedSoundAsPCMOrder_eq (List.range 4) T f hsounds hss hfs hlen
  have hcs : ∀ j ∈ List.range 4, [sd0, sd1, sd2, sd3].getD j [] = channelSamples f j := by
    intro j hj
    have hj4 : j < 4 := List.mem_range.mp hj
    unfold channelSamples
    interval_cases j
    · rw [d0]; rfl
    · rw [d1]; rfl
    · rw [d2]; rfl
    · rw [d3]; rfl
  generalize hF : T.frequency f.SoundSpeed f.FrameSpeed = frequency at hlen hstart e
  generalize hL : T.bufferLen frequency f.Frames.length f.FrameSpeed = bl at hlen hstart e
  obtain ⟨r, hr, hl, hv⟩ := mixFrames_sum T frequency f [sd0, sd1, sd2, sd3] rfl htrig
    bl.toNat (fun i hi => ⟨(hstart i hi).1, by have := (hstart i hi).2; omega⟩)
    f.Frames.length (le_refl _)
  refine ⟨r, frequency, ?_, ?_⟩
  · rw [MixedSoundAsPCM, e, hr]; rfl
  · intro p hp
    have hp1 : p < bl.toNat := by omega
    have hp2 : p < r.length := by omega
    have hsum : ((List.range f.Frames.length).map (fun i =>
        ((List.range 4).map (fun j =>
          (channelAdds ([sd0, sd1, sd2, sd3].getD j [])
            ((f.Frames.getD i Frame.zero).Sound.getD j false)
            j (T.startPos frequency f.FrameSpeed i) p).getD 0)).sum)).sum
        = mixSum T f p f.Frames.length := by
      unfold mixSum
      congr 1
      apply List.map_congr_left
      intro i _
      congr 1
      apply List.map_congr_left
      intro j hj
      unfold contribution
      rw [hcs j hj, hF]
    have hval := hv p hp1
    rw [hsum, List.getD_eq_getElem?_getD, List.getElem?_eq_getElem hp2, Option.getD_some]
      at hval
    obtain ⟨w1, w2, w3⟩ := toInt16_wrap (mixSum T f p f.Frames.length)
    refine ⟨r[p], List.getElem?_eq_getElem hp2, hval, ?_, ?_, ?_⟩
    · rw [hval]; exact w1
    · rw [hval]; exact w2
    · rw [hval]; exact w3

theorem mixing_additive_wraparound_witness :
    ∃ out frequency, MixedSoundAsPCM mixTiming mixFlipnote = some (out, frequency)
      ∧ ∀ p : Nat, (p : Int)
            < mixTiming.bufferLen (mixTiming.frequency mixFlipnote.SoundSpeed mixFlipnote.FrameSpeed)
                mixFlipnote.Frames.length mixFlipnote.FrameSpeed →
          ∃ v, out[p]? = some v
            ∧ v = toInt16 (mixSum mixTiming mixFlipnote p mixFlipnote.Frames.length)
            ∧ -32768 ≤ v ∧ v ≤ 32767
            ∧ (v - mixSum mixTiming mixFlipnote p mixFlipnote.Frames.length) % 65536 = 0 :=
  mixing_additive_wraparound mixTiming mixFlipnote (by decide) (by decide) (by decide)
    (by decide) (by decide) (fun _ _ => ⟨Int.le_refl 0, (by decide : (0 : Int) ≤ 272)⟩)

end Flipnotetools
